import Mathlib

/-!
# trlib: `trlib_eigen_inverse`

A shallow embedding of `src/src/trlib_eigen_inverse.c` (perturbed inverse
iteration for a symmetric tridiagonal matrix) and theorems about it.

* Floating-point numbers are modelled by an arbitrary linearly ordered field `F`
  (exact arithmetic, `1/0 = 0`); `trlib_int_t` is modelled by `Int` without wrap-around:
  the only integer arithmetic is `*iter_inv += 1`.
* Buffers are lists; the pointer arguments and the automatic variables of the C
  function are the fields of one record `State`, which is passed explicitly.
* The two `while` loops are recursive functions with a fuel argument; the
  theorems show that finite fuel suffices.
* The BLAS/LAPACK primitives behind the `TRLIB_D*` macros and the constants of
  `trlib.h` are not part of the translated file; they are parameters
  (`Backend`, `Consts`).
-/

set_option linter.unusedSectionVars false

namespace Trlib

/-- The preprocessor constants of `trlib.h` used by `trlib_eigen_inverse`.
The header is not among the sources, so the constants are parameters. -/
structure Consts (F : Type) where
  TRLIB_EPS : F
  TRLIB_EPS_POW_4 : F
  TRLIB_EIR_CONV : Int
  TRLIB_EIR_ITMAX : Int
  TRLIB_EIR_FAIL_FACTOR : Int
  TRLIB_EIR_FAIL_LINSOLVE : Int

/-- The numeric primitives reached through the macros `TRLIB_DCOPY`, `TRLIB_DAXPY`,
`TRLIB_DPTTRF`, `TRLIB_DPTTRS`, `TRLIB_DNRM2` and `TRLIB_DSCAL` (all with stride 1).
Each returns the new contents of the buffers it writes; `dpttrf` and `dpttrs`
also return their `info` status. -/
structure Backend (F : Type) where
  dcopy : Int → List F → List F → List F
  daxpy : Int → F → List F → List F → List F
  dpttrf : Int → List F → List F → List F × List F × Int
  dpttrs : Int → List F → List F → List F → List F × Int
  dnrm2 : Int → List F → F
  dscal : Int → F → List F → List F

/-- The memory reached through the pointer arguments of `trlib_eigen_inverse`
(`diag` … `iter_inv`) together with its automatic variables
(`info_fac`, `invnorm`, `minuslam`). -/
structure State (F : Type) where
  diag : List F
  offdiag : List F
  ones : List F
  diag_fac : List F
  offdiag_fac : List F
  eig : List F
  lam_pert : F
  pert : F
  iter_inv : Int
  info_fac : Int
  invnorm : F
  minuslam : F
deriving DecidableEq, Repr

variable {F : Type} [LinearOrderedField F]

/-- Lines 15-24: initialisation of the outputs and of the automatic variables;
`iter_inv` ends up holding the `TRLIB_EIR_FAIL_FACTOR` sentinel. -/
def entry (C : Consts F) (lam_init : F) (m : State F) : State F :=
  let s : State F :=
    { m with iter_inv := 0, pert := 0, info_fac := 0, invnorm := 0, minuslam := -lam_init }
  { s with iter_inv := C.TRLIB_EIR_FAIL_FACTOR }

/-- Lines 27-30: build `diag - lam` in the factor buffers and factorize. -/
def factor_attempt (B : Backend F) (n : Int) (s : State F) : State F :=
  let diag_fac := B.dcopy n s.diag s.diag_fac
  let diag_fac := B.daxpy n s.minuslam s.ones diag_fac
  let offdiag_fac := B.dcopy (n - 1) s.offdiag s.offdiag_fac
  let r := B.dpttrf n diag_fac offdiag_fac
  { s with diag_fac := r.1, offdiag_fac := r.2.1, info_fac := r.2.2 }

/-- Lines 32-38: enlarge the perturbation after a failed factorization. -/
def perturb (C : Consts F) (lam_init : F) (s : State F) : State F :=
  let pert := if s.pert = 0 then C.TRLIB_EPS_POW_4 * max 1 (-lam_init) else 10 * s.pert
  { s with pert := pert, minuslam := pert - lam_init }

/-- Lines 25-39: the loop `while (*pert <= 1.0/TRLIB_EPS)`. -/
def shift_search (C : Consts F) (B : Backend F) (n : Int) (lam_init : F) :
    Nat → State F → Option (State F)
  | 0, _ => none
  | fuel + 1, s =>
    if s.pert ≤ 1 / C.TRLIB_EPS then
      let s1 := factor_attempt B n s
      if s1.info_fac = 0 then some { s1 with iter_inv := 0 }
      else shift_search C B n lam_init fuel (perturb C lam_init s1)
    else some s

/-- Lines 44-45 and 57-58: `invnorm = 1/‖eig‖`, then `eig <- invnorm * eig`. The model and
the program agree when the norm is not zero; for a zero norm the program computes
`1.0/0.0 = inf` and fills `eig` with NaN, while the field of the model has `1/0 = 0`. -/
def normalize (B : Backend F) (n : Int) (s : State F) : State F :=
  let invnorm := 1 / B.dnrm2 n s.eig
  { s with invnorm := invnorm, eig := B.dscal n invnorm s.eig }

/-- Line 53: the solve against the stored factors, overwriting `eig`. -/
def solve (B : Backend F) (n : Int) (s : State F) : State F :=
  let r := B.dpttrs n s.diag_fac s.offdiag_fac s.eig
  { s with eig := r.1, info_fac := r.2 }

/-- Line 48: the increment of the iteration counter. -/
def count (s : State F) : State F := { s with iter_inv := s.iter_inv + 1 }

/-- Lines 47-62: the loop `while (1)` of the inverse iteration; the result is the
returned status together with the final state. -/
def inverse_iteration (C : Consts F) (B : Backend F) (n : Int) (itmax : Int) (tol_abs : F) :
    Nat → State F → Option (Int × State F)
  | 0, _ => none
  | fuel + 1, s =>
    let s1 := count s
    if s1.iter_inv > itmax then some (C.TRLIB_EIR_ITMAX, s1)
    else
      let s2 := solve B n s1
      if s2.info_fac ≠ 0 then some (C.TRLIB_EIR_FAIL_LINSOLVE, s2)
      else
        let s3 := normalize B n s2
        if |s3.invnorm - s3.pert| ≤ tol_abs then some (C.TRLIB_EIR_CONV, s3)
        else inverse_iteration C B n itmax tol_abs fuel s3

/-- Line 40: `*lam_pert = -minuslam`. -/
def store_lam_pert (s : State F) : State F := { s with lam_pert := -s.minuslam }

/-- Lines 40-62, entered with the state the shift search left. -/
def after_search (C : Consts F) (B : Backend F) (n : Int) (itmax : Int) (tol_abs : F)
    (fuel : Nat) (s1 : State F) : Option (Int × State F) :=
  let s2 := store_lam_pert s1
  if s2.iter_inv = C.TRLIB_EIR_FAIL_FACTOR then some (C.TRLIB_EIR_FAIL_FACTOR, s2)
  else inverse_iteration C B n itmax tol_abs fuel (normalize B n s2)

/-- The function `trlib_eigen_inverse`. `m` is the memory on entry, `fuel` bounds the
number of passes through each loop; the result is the returned status and the memory
at return. -/
def trlib_eigen_inverse (C : Consts F) (B : Backend F) (fuel : Nat) (n : Int) (lam_init : F)
    (itmax : Int) (tol_abs : F) (m : State F) : Option (Int × State F) :=
  match shift_search C B n lam_init fuel (entry C lam_init m) with
  | none => none
  | some s1 => after_search C B n itmax tol_abs fuel s1

/-- One failed pass through the body of the shift loop: a factorization attempt
followed by the enlargement of the perturbation. -/
def shift_iter (C : Consts F) (B : Backend F) (n : Int) (lam_init : F) (s : State F) : State F :=
  perturb C lam_init (factor_attempt B n s)

/-- The state at the head of the shift loop after `k` failed attempts. -/
def shift_state (C : Consts F) (B : Backend F) (n : Int) (lam_init : F) (m : State F)
    (k : Nat) : State F :=
  (shift_iter C B n lam_init)^[k] (entry C lam_init m)

/-- One complete pass through the body of the inverse-iteration loop (lines 48-58):
count, solve, normalize. -/
def inv_iter (B : Backend F) (n : Int) (s : State F) : State F :=
  normalize B n (solve B n (count s))

/-- The state after `k` complete passes of the inverse-iteration loop started in `s`. -/
def inv_state (B : Backend F) (n : Int) (s : State F) (k : Nat) : State F :=
  (inv_iter B n)^[k] s

/-- The state at line 42 when attempt `k` (counted from 0) was the successful one:
the factors of that attempt, `iter_inv = 0` from the `break`, and `lam_pert` from line 40. -/
def accepted (C : Consts F) (B : Backend F) (n : Int) (lam_init : F) (m : State F)
    (k : Nat) : State F :=
  let s := factor_attempt B n (shift_state C B n lam_init m k)
  store_lam_pert { s with iter_inv := 0 }

/-- The state at line 42 when the loop condition failed after `k` failed attempts. -/
def rejected (C : Consts F) (B : Backend F) (n : Int) (lam_init : F) (m : State F)
    (k : Nat) : State F :=
  store_lam_pert (shift_state C B n lam_init m k)

/-- The fields that no statement of the inverse-iteration loop assigns. -/
def same_frame (s r : State F) : Prop :=
  r.diag = s.diag ∧ r.offdiag = s.offdiag ∧ r.ones = s.ones ∧ r.diag_fac = s.diag_fac ∧
    r.offdiag_fac = s.offdiag_fac ∧ r.lam_pert = s.lam_pert ∧ r.pert = s.pert ∧
    r.minuslam = s.minuslam

/-- The three ways in which pass `k + 1` of the inverse-iteration loop, entered in state
`t`, can return `(code, r)`. -/
def last_pass (C : Consts F) (B : Backend F) (n : Int) (itmax : Int) (tol_abs : F)
    (t : State F) (code : Int) (r : State F) : Prop :=
  (itmax < t.iter_inv + 1 ∧ code = C.TRLIB_EIR_ITMAX ∧ r = count t) ∨
  (t.iter_inv + 1 ≤ itmax ∧ (solve B n (count t)).info_fac ≠ 0 ∧
    code = C.TRLIB_EIR_FAIL_LINSOLVE ∧ r = solve B n (count t)) ∨
  (t.iter_inv + 1 ≤ itmax ∧ (solve B n (count t)).info_fac = 0 ∧
    |(inv_iter B n t).invnorm - (inv_iter B n t).pert| ≤ tol_abs ∧
    code = C.TRLIB_EIR_CONV ∧ r = inv_iter B n t)

/-- A pass of the inverse-iteration loop after which the loop continues. -/
def pass_continues (B : Backend F) (n : Int) (itmax : Int) (tol_abs : F) (t : State F) : Prop :=
  t.iter_inv + 1 ≤ itmax ∧ (solve B n (count t)).info_fac = 0 ∧
    ¬ |(inv_iter B n t).invnorm - (inv_iter B n t).pert| ≤ tol_abs

/-! ### The numeric primitives with their standard meaning -/

/-- Modelled from the spec: the BLAS routine behind `TRLIB_DCOPY` is not among the sources;
§6 gives `copy(n, src, dst)` as the element-wise copy of a length-`n` sequence. Entries of
`dst` beyond the first `n` are kept. -/
def dcopy (n : Int) (x y : List F) : List F :=
  x.take n.toNat ++ y.drop n.toNat

/-- Modelled from the spec: the BLAS routine behind `TRLIB_DAXPY` is not among the sources;
§6 gives `axpy(n, a, x, y)` as `y ← a·x + y` element-wise. -/
def daxpy (n : Int) (a : F) (x y : List F) : List F :=
  List.zipWith (fun xi yi => a * xi + yi) (x.take n.toNat) (y.take n.toNat) ++ y.drop n.toNat

/-- Modelled from the spec: the BLAS routine behind `TRLIB_DSCAL` is not among the sources;
§6 gives `scale(n, a, x)` as `x ← a·x` element-wise. -/
def dscal (n : Int) (a : F) (x : List F) : List F :=
  (x.take n.toNat).map (fun xi => a * xi) ++ x.drop n.toNat

/-- The sum of the squares of the first `n` entries: the square of the Euclidean norm that
§6 requires of `norm2(n, x)`. -/
def sumsq (n : Int) (x : List F) : F :=
  ((x.take n.toNat).map (fun xi => xi * xi)).sum

/-- Modelled from the spec: the LAPACK routine behind `TRLIB_DPTTRF` is not among the
sources; §6 gives `tridiagonal_factorize` as the in-place factorization of a symmetric
tridiagonal matrix whose nonzero status signals a non-positive pivot at a given index.
This is the `L·D·Lᵀ` recurrence: pivot `i` (counted from `i`) is tested, the multiplier
`e/d` replaces the off-diagonal entry, and the next diagonal entry is updated. -/
def pttrf_from : Int → List F → List F → List F × List F × Int
  | _, [], e => ([], e, 0)
  | i, [d], e => ([d], e, if d ≤ 0 then i else 0)
  | i, d :: d2 :: ds, [] =>
    if d ≤ 0 then (d :: d2 :: ds, [], i)
    else
      let r := pttrf_from (i + 1) (d2 :: ds) []
      (d :: r.1, r.2.1, r.2.2)
  | i, d :: d2 :: ds, e :: es =>
    if d ≤ 0 then (d :: d2 :: ds, e :: es, i)
    else
      let r := pttrf_from (i + 1) ((d2 - e / d * e) :: ds) es
      (d :: r.1, e / d :: r.2.1, r.2.2)

/-- Modelled from the spec: `tridiagonal_factorize(n, diag, offdiag)` of §6 on the leading
`n` diagonal and `n - 1` off-diagonal entries. -/
def dpttrf (n : Int) (d e : List F) : List F × List F × Int :=
  let r := pttrf_from 1 (d.take n.toNat) (e.take (n - 1).toNat)
  (r.1 ++ d.drop n.toNat, r.2.1 ++ e.drop (n - 1).toNat, r.2.2)

/-- Modelled from the spec: first half of `tridiagonal_solve` of §6 for `L·D·Lᵀ` factors, the
forward substitution with the unit bidiagonal factor, `b(i) <- b(i) - b(i-1)·e(i-1)`. -/
def ptts_forward : F → List F → List F → List F
  | _, _, [] => []
  | _, [], b :: bs => b :: ptts_forward b [] bs
  | prev, e :: es, b :: bs =>
    let b1 := b - prev * e
    b1 :: ptts_forward b1 es bs

/-- Modelled from the spec: second half of `tridiagonal_solve` of §6 for `L·D·Lᵀ` factors,
the back substitution `b(n) <- b(n)/d(n)` and `b(i) <- b(i)/d(i) - b(i+1)·e(i)`. -/
def ptts_backward : List F → List F → List F → List F
  | _, _, [] => []
  | [], _, b :: bs => b :: bs
  | d :: _, _, [b] => [b / d]
  | d :: ds, [], b :: b2 :: bs => b / d :: ptts_backward ds [] (b2 :: bs)
  | d :: ds, e :: es, b :: b2 :: bs =>
    let rest := ptts_backward ds es (b2 :: bs)
    (b / d - rest.headD 0 * e) :: rest

/-- Modelled from the spec: the LAPACK routine behind `TRLIB_DPTTRS` is not among the
sources; §6 gives `tridiagonal_solve(n, diag_fac, offdiag_fac, rhs)` as the solve with a
previously computed factorization. For `L·D·Lᵀ` factors this is a forward and a back
substitution; the status is always `0`. -/
def dpttrs (n : Int) (d e b : List F) : List F × Int :=
  match b.take n.toNat with
  | [] => (b, 0)
  | b1 :: bs =>
    (ptts_backward (d.take n.toNat) (e.take (n - 1).toNat)
      (b1 :: ptts_forward b1 (e.take (n - 1).toNat) bs) ++ b.drop n.toNat, 0)

/-- The backend made of the primitives above and a given norm. -/
def reference_backend (nrm : Int → List F → F) : Backend F :=
  { dcopy := dcopy, daxpy := daxpy, dpttrf := dpttrf, dpttrs := dpttrs, dnrm2 := nrm,
    dscal := dscal }

/-- The diagonal of `T - lam·I`. -/
def shifted_diag (lam : F) (diag : List F) : List F :=
  diag.map fun d => d - lam

/-- The buffers have the sizes the interface prescribes: `n` diagonal and `n - 1`
off-diagonal entries, and `ones` holds `n` ones. -/
def well_sized (n : Int) (m : State F) : Prop :=
  m.diag.length = n.toNat ∧ m.offdiag.length = (n - 1).toNat ∧
    m.ones = List.replicate n.toNat 1 ∧ m.diag_fac.length = n.toNat ∧
    m.offdiag_fac.length = (n - 1).toNat ∧ m.eig.length = n.toNat

/-- The factorization works in place: it returns buffers of the sizes it was given. -/
def factor_in_place (B : Backend F) (n : Int) : Prop :=
  ∀ d e : List F, (B.dpttrf n d e).1.length = d.length ∧ (B.dpttrf n d e).2.1.length = e.length

/-- Attempt `a` (counted from 0) of the shift search is the first successful factorization:
the attempts before it were made and failed, and attempt `a` is made and succeeds. -/
def accepts (C : Consts F) (B : Backend F) (n : Int) (lam_init : F) (m : State F)
    (a : Nat) : Prop :=
  (∀ j, j < a → (shift_state C B n lam_init m j).pert ≤ 1 / C.TRLIB_EPS ∧
      (factor_attempt B n (shift_state C B n lam_init m j)).info_fac ≠ 0) ∧
    (shift_state C B n lam_init m a).pert ≤ 1 / C.TRLIB_EPS ∧
    (factor_attempt B n (shift_state C B n lam_init m a)).info_fac = 0

/-- The state in which the inverse-iteration loop is entered when attempt `a` was accepted:
lines 44-45 applied to `accepted`. -/
def loop_entry (C : Consts F) (B : Backend F) (n : Int) (lam_init : F) (m : State F)
    (a : Nat) : State F :=
  normalize B n (accepted C B n lam_init m a)

/-- The solve of iteration `k + 1` of the loop started in `s` (line 53), as a state. -/
def solved (B : Backend F) (n : Int) (s : State F) (k : Nat) : State F :=
  solve B n (count (inv_state B n s k))

/-- Row `i` of the product of the symmetric tridiagonal matrix with diagonal `d` and
off-diagonal `e` with the vector `x`: `e(i-1)·x(i-1) + d(i)·x(i) + e(i)·x(i+1)`; entries
outside the lists count as `0`. -/
def tri_row (d e x : List F) (i : Nat) : F :=
  d.getD i 0 * x.getD i 0 + (if i = 0 then 0 else e.getD (i - 1) 0 * x.getD (i - 1) 0) +
    e.getD i 0 * x.getD (i + 1) 0

/-- The backend is exact at the `n × n` matrix `(d, e)`: the linear system with that matrix
has at most one solution, and the solve with the factors computed from `(d, e)` reports
success and returns a solution. -/
@[reducible] def exact_at (B : Backend F) (n : Int) (d e : List F) : Prop :=
  (∀ x y : List F, x.length = n.toNat → y.length = n.toNat →
    (∀ i, i < n.toNat → tri_row d e x i = tri_row d e y i) → x = y) ∧
  ∀ b : List F, b.length = n.toNat →
    (B.dpttrs n (B.dpttrf n d e).1 (B.dpttrf n d e).2.1 b).2 = 0 ∧
    (B.dpttrs n (B.dpttrf n d e).1 (B.dpttrf n d e).2.1 b).1.length = n.toNat ∧
    ∀ i, i < n.toNat →
      tri_row d e (B.dpttrs n (B.dpttrf n d e).1 (B.dpttrf n d e).2.1 b).1 i = b.getD i 0

/-- An exact backend: it is exact at every matrix whose factorization reports success. -/
def exact_backend (B : Backend F) (n : Int) : Prop :=
  ∀ d e : List F, d.length = n.toNat → e.length = (n - 1).toNat → (B.dpttrf n d e).2.2 = 0 →
    exact_at B n d e

/-- The quadratic form `xᵀ·T·x` of the symmetric tridiagonal `n × n` matrix with diagonal `d`
and off-diagonal `e`. -/
def quad_form (n : Int) (d e x : List F) : F :=
  Finset.sum (Finset.range n.toNat) fun i => x.getD i 0 * tri_row d e x i

/-- Every eigenvalue of the symmetric tridiagonal `n × n` matrix `(d, e)` is at least `mu`:
the Rayleigh quotient of every vector is at least `mu`. -/
def rayleigh_bound (n : Int) (d e : List F) (mu : F) : Prop :=
  ∀ x : List F, x.length = n.toNat → mu * sumsq n x ≤ quad_form n d e x

/-- The state `s` with the vector `x` in the buffer `eig`. -/
def with_eig (x : List F) (s : State F) : State F := { s with eig := x }

/-- The state `s` with the value `a` in the automatic variable `invnorm`. -/
def with_invnorm (a : F) (s : State F) : State F := { s with invnorm := a }

/-- The memory `m` with the start vector multiplied by `c`. -/
def scaled (c : F) (m : State F) : State F := with_eig (m.eig.map fun x => c * x) m

/-- The memory `m` with the vector in `eig` negated. -/
def negated (m : State F) : State F := with_eig (m.eig.map fun x => -x) m

/-- The solve is odd in its right-hand side, as every linear solve is: negating the
right-hand side negates the solution and keeps the status. -/
def odd_solve (B : Backend F) (n : Int) : Prop :=
  ∀ d e b : List F, B.dpttrs n d e (b.map fun x => -x) =
    ((B.dpttrs n d e b).1.map (fun x => -x), (B.dpttrs n d e b).2)

/-- The vector `p·(0, 1, -4) + r·(0, 4, 1)` inside the 2×2 block of the reducible scenario,
written in the basis of the eigenvectors of the block for the eigenvalues `-2` and `2.25`. -/
def block_vec (p r : F) : List F := [0, p + 4 * r, -(4 * p) + r]

/-- The direction of the iterate after `k` passes in the reducible scenario with
perturbation `q`, for the start vector `a·(0, 1, -4) + b·(0, 4, 1)`: the component along the
eigenvector of `-2` has gained the factor `((17/4 + q)/q)^k` relative to the other one. -/
def block_iterate (q a b : F) (k : Nat) : List F :=
  block_vec (a * (17 / 4 + q) ^ k) (b * q ^ k)

/-! ### Sample data -/

/-- Sample constants: `eps = 2⁻⁵²` (double precision), `eps^(1/4) = 2⁻¹³`, and four
distinct status codes of which only `CONV` is `0`. -/
def sample_consts : Consts ℚ :=
  { TRLIB_EPS := 1 / 2 ^ 52, TRLIB_EPS_POW_4 := 1 / 2 ^ 13, TRLIB_EIR_CONV := 0,
    TRLIB_EIR_ITMAX := -1, TRLIB_EIR_FAIL_FACTOR := -2, TRLIB_EIR_FAIL_LINSOLVE := -3 }

/-- A norm on rational vectors that is the Euclidean norm whenever that norm is rational:
the quotient of the integer square roots of numerator and denominator of the sum of squares. -/
def rat_nrm2 (n : Int) (x : List ℚ) : ℚ :=
  (Nat.sqrt (sumsq n x).num.toNat : ℚ) / (Nat.sqrt (sumsq n x).den : ℚ)

/-- A memory image for `n = 1`: the matrix `(0)`, the vector `ones`, scratch factors and the
start vector `(1)`; the three output cells hold arbitrary values. -/
def sample_mem : State ℚ :=
  { diag := [0], offdiag := [], ones := [1], diag_fac := [7], offdiag_fac := [], eig := [1],
    lam_pert := 5, pert := 5, iter_inv := 5, info_fac := 5, invnorm := 5, minuslam := 5 }

/-- Constants with given `eps` and `eps^(1/4)` and the status codes of `sample_consts`. -/
def consts_of (eps root : F) : Consts F :=
  { TRLIB_EPS := eps, TRLIB_EPS_POW_4 := root, TRLIB_EIR_CONV := 0, TRLIB_EIR_ITMAX := -1,
    TRLIB_EIR_FAIL_FACTOR := -2, TRLIB_EIR_FAIL_LINSOLVE := -3 }

/-- A memory image for `n = 1` with the matrix `(d)` and the start vector `(x)`. -/
def mem_of (d x : F) : State F :=
  { diag := [d], offdiag := [], ones := [1], diag_fac := [0], offdiag_fac := [], eig := [x],
    lam_pert := 0, pert := 0, iter_inv := 0, info_fac := 0, invnorm := 0, minuslam := 0 }

/-- The standard copy, axpy, factorization and scaling with a given solve and norm. -/
def backend_with (slv : Int → List F → List F → List F → List F × Int)
    (nrm : Int → List F → F) : Backend F :=
  { dcopy := dcopy, daxpy := daxpy, dpttrf := dpttrf, dpttrs := slv, dnrm2 := nrm,
    dscal := dscal }

/-- The memory image of the scenario of `test_simple_reducible`: `n = 3`,
`diag = [1, 2, -1.75]`, `offdiag = [0, 1]`, and a start vector `(0, x, y)` inside the
2×2 block. -/
def reducible_mem (x y : F) : State F :=
  { diag := [1, 2, -(7 / 4)], offdiag := [0, 1], ones := [1, 1, 1], diag_fac := [0, 0, 0],
    offdiag_fac := [0, 0], eig := [0, x, y], lam_pert := 0, pert := 0, iter_inv := 0,
    info_fac := 0, invnorm := 0, minuslam := 0 }

/-- The reference backend with a solve that always reports failure. -/
def failing_solve_backend : Backend ℚ :=
  { reference_backend rat_nrm2 with dpttrs := fun _ _ _ b => (b, 1) }

/-- The memory at return of the run on `sample_mem` with `lam_init = 0`. -/
def sample_final : State ℚ :=
  { diag := [0], offdiag := [], ones := [1], diag_fac := [1 / 8192], offdiag_fac := [],
    eig := [1], lam_pert := -(1 / 8192), pert := 1 / 8192, iter_inv := 1, info_fac := 0,
    invnorm := 1 / 8192, minuslam := 1 / 8192 }

/-! ## The shift search -/

section ShiftSearch

variable (C : Consts F) (B : Backend F) (n : Int) (lam_init : F)

@[simp] theorem factor_attempt_pert (s : State F) : (factor_attempt B n s).pert = s.pert := rfl
@[simp] theorem factor_attempt_minuslam (s : State F) :
    (factor_attempt B n s).minuslam = s.minuslam := rfl
@[simp] theorem factor_attempt_iter_inv (s : State F) :
    (factor_attempt B n s).iter_inv = s.iter_inv := rfl
@[simp] theorem factor_attempt_eig (s : State F) : (factor_attempt B n s).eig = s.eig := rfl
@[simp] theorem factor_attempt_diag (s : State F) : (factor_attempt B n s).diag = s.diag := rfl
@[simp] theorem factor_attempt_offdiag (s : State F) :
    (factor_attempt B n s).offdiag = s.offdiag := rfl
@[simp] theorem factor_attempt_ones (s : State F) : (factor_attempt B n s).ones = s.ones := rfl

theorem shift_iter_pert (s : State F) :
    (shift_iter C B n lam_init s).pert =
      if s.pert = 0 then C.TRLIB_EPS_POW_4 * max 1 (-lam_init) else 10 * s.pert := rfl

theorem shift_iter_minuslam (s : State F) :
    (shift_iter C B n lam_init s).minuslam = (shift_iter C B n lam_init s).pert - lam_init := rfl

@[simp] theorem shift_iter_iter_inv (s : State F) :
    (shift_iter C B n lam_init s).iter_inv = s.iter_inv := rfl
@[simp] theorem shift_iter_eig (s : State F) : (shift_iter C B n lam_init s).eig = s.eig := rfl
@[simp] theorem shift_iter_diag (s : State F) : (shift_iter C B n lam_init s).diag = s.diag := rfl
@[simp] theorem shift_iter_offdiag (s : State F) :
    (shift_iter C B n lam_init s).offdiag = s.offdiag := rfl
@[simp] theorem shift_iter_ones (s : State F) : (shift_iter C B n lam_init s).ones = s.ones := rfl

theorem shift_state_zero (m : State F) :
    shift_state C B n lam_init m 0 = entry C lam_init m := rfl

theorem shift_state_succ (m : State F) (k : Nat) :
    shift_state C B n lam_init m (k + 1) =
      shift_iter C B n lam_init (shift_state C B n lam_init m k) := by
  unfold shift_state
  exact Function.iterate_succ_apply' _ _ _

/-- Closed form of the perturbation after `k + 1` failed attempts. -/
theorem shift_state_pert_succ (m : State F) (k : Nat) :
    (shift_state C B n lam_init m (k + 1)).pert =
      C.TRLIB_EPS_POW_4 * max 1 (-lam_init) * 10 ^ k := by
  induction k with
  | zero =>
    rw [shift_state_succ, shift_iter_pert, shift_state_zero]
    simp [entry]
  | succ k ih =>
    rw [shift_state_succ, shift_iter_pert, ih]
    split_ifs with h
    · have h10 : (10 : F) ^ k ≠ 0 := pow_ne_zero _ (by norm_num)
      have hb : C.TRLIB_EPS_POW_4 * max 1 (-lam_init) = 0 := by
        rcases mul_eq_zero.mp h with h | h
        · exact h
        · exact absurd h h10
      rw [hb]; simp
    · ring

theorem shift_state_minuslam (m : State F) (k : Nat) :
    (shift_state C B n lam_init m k).minuslam = (shift_state C B n lam_init m k).pert - lam_init := by
  cases k with
  | zero => simp [shift_state_zero, entry]
  | succ k => rw [shift_state_succ]; exact shift_iter_minuslam C B n lam_init _

theorem shift_state_iter_inv (m : State F) (k : Nat) :
    (shift_state C B n lam_init m k).iter_inv = C.TRLIB_EIR_FAIL_FACTOR := by
  induction k with
  | zero => rfl
  | succ k ih => rw [shift_state_succ, shift_iter_iter_inv, ih]

theorem shift_state_eig (m : State F) (k : Nat) :
    (shift_state C B n lam_init m k).eig = m.eig := by
  induction k with
  | zero => rfl
  | succ k ih => rw [shift_state_succ, shift_iter_eig, ih]

theorem shift_state_diag (m : State F) (k : Nat) :
    (shift_state C B n lam_init m k).diag = m.diag := by
  induction k with
  | zero => rfl
  | succ k ih => rw [shift_state_succ, shift_iter_diag, ih]

theorem shift_state_offdiag (m : State F) (k : Nat) :
    (shift_state C B n lam_init m k).offdiag = m.offdiag := by
  induction k with
  | zero => rfl
  | succ k ih => rw [shift_state_succ, shift_iter_offdiag, ih]

theorem shift_state_ones (m : State F) (k : Nat) :
    (shift_state C B n lam_init m k).ones = m.ones := by
  induction k with
  | zero => rfl
  | succ k ih => rw [shift_state_succ, shift_iter_ones, ih]

/-- What the shift loop returns: it went through `k` failed attempts and then either a
successful attempt (exit through `break`) or a failed loop condition. -/
theorem shift_search_spec (fuel : Nat) (s r : State F)
    (h : shift_search C B n lam_init fuel s = some r) :
    ∃ k : Nat, k < fuel ∧
      (∀ j, j < k → ((shift_iter C B n lam_init)^[j] s).pert ≤ 1 / C.TRLIB_EPS ∧
        (factor_attempt B n ((shift_iter C B n lam_init)^[j] s)).info_fac ≠ 0) ∧
      ((((shift_iter C B n lam_init)^[k] s).pert ≤ 1 / C.TRLIB_EPS ∧
          (factor_attempt B n ((shift_iter C B n lam_init)^[k] s)).info_fac = 0 ∧
          r = { factor_attempt B n ((shift_iter C B n lam_init)^[k] s) with iter_inv := 0 }) ∨
        (¬ ((shift_iter C B n lam_init)^[k] s).pert ≤ 1 / C.TRLIB_EPS ∧
          r = (shift_iter C B n lam_init)^[k] s)) := by
  induction fuel generalizing s with
  | zero => simp [shift_search] at h
  | succ fuel ih =>
    rw [shift_search] at h
    by_cases hg : s.pert ≤ 1 / C.TRLIB_EPS
    · rw [if_pos hg] at h
      by_cases hi : (factor_attempt B n s).info_fac = 0
      · rw [if_pos hi] at h
        refine ⟨0, Nat.succ_pos _, fun j hj => absurd hj (Nat.not_lt_zero _), Or.inl ⟨hg, hi, ?_⟩⟩
        exact (Option.some.inj h).symm
      · rw [if_neg hi] at h
        obtain ⟨k, hk, hfail, hlast⟩ := ih _ h
        refine ⟨k + 1, Nat.succ_lt_succ hk, ?_, ?_⟩
        · intro j hj
          cases j with
          | zero => exact ⟨hg, hi⟩
          | succ j =>
            rw [Function.iterate_succ_apply]
            exact hfail j (Nat.lt_of_succ_lt_succ hj)
        · rw [Function.iterate_succ_apply]
          exact hlast
    · rw [if_neg hg] at h
      refine ⟨0, Nat.succ_pos _, fun j hj => absurd hj (Nat.not_lt_zero _), Or.inr ⟨hg, ?_⟩⟩
      exact (Option.some.inj h).symm

/-- The shift loop returns as soon as the fuel exceeds the index of a state at which the
loop condition fails. -/
theorem shift_search_some_of_exit (j : Nat) :
    ∀ (fuel : Nat) (s : State F), j < fuel →
      ¬ ((shift_iter C B n lam_init)^[j] s).pert ≤ 1 / C.TRLIB_EPS →
      ∃ r, shift_search C B n lam_init fuel s = some r := by
  induction j with
  | zero =>
    intro fuel s hf hg
    obtain ⟨f, rfl⟩ := Nat.exists_eq_succ_of_ne_zero (Nat.pos_iff_ne_zero.mp hf)
    rw [shift_search]
    rw [Function.iterate_zero_apply] at hg
    exact ⟨s, by rw [if_neg hg]⟩
  | succ j ih =>
    intro fuel s hf hg
    obtain ⟨f, rfl⟩ := Nat.exists_eq_succ_of_ne_zero (Nat.pos_iff_ne_zero.mp (Nat.zero_lt_of_lt hf))
    rw [shift_search]
    by_cases hg0 : s.pert ≤ 1 / C.TRLIB_EPS
    · rw [if_pos hg0]
      by_cases hi : (factor_attempt B n s).info_fac = 0
      · exact ⟨_, by rw [if_pos hi]⟩
      · rw [if_neg hi]
        rw [Function.iterate_succ_apply] at hg
        exact ih f _ (Nat.lt_of_succ_lt_succ hf) hg
    · exact ⟨s, by rw [if_neg hg0]⟩

/-- With a positive first perturbation the loop condition eventually fails. -/
theorem shift_state_exit [Archimedean F] (h0 : 0 < C.TRLIB_EPS_POW_4) (m : State F) :
    ∃ K : Nat, ¬ (shift_state C B n lam_init m (K + 1)).pert ≤ 1 / C.TRLIB_EPS := by
  have hb : 0 < C.TRLIB_EPS_POW_4 * max 1 (-lam_init) :=
    mul_pos h0 (lt_of_lt_of_le one_pos (le_max_left _ _))
  obtain ⟨K, hK⟩ := pow_unbounded_of_one_lt
    (1 / C.TRLIB_EPS / (C.TRLIB_EPS_POW_4 * max 1 (-lam_init))) (by norm_num : (1 : F) < 10)
  refine ⟨K, ?_⟩
  rw [shift_state_pert_succ, not_le]
  rw [div_lt_iff₀ hb] at hK
  linarith [hK, mul_comm ((10 : F) ^ K) (C.TRLIB_EPS_POW_4 * max 1 (-lam_init))]

end ShiftSearch

/-! ## The inverse-iteration loop -/

section InverseIteration

variable (C : Consts F) (B : Backend F) (n : Int) (itmax : Int) (tol_abs : F)

@[simp] theorem count_iter_inv (s : State F) : (count s).iter_inv = s.iter_inv + 1 := rfl
@[simp] theorem count_pert (s : State F) : (count s).pert = s.pert := rfl
@[simp] theorem solve_iter_inv (s : State F) : (solve B n s).iter_inv = s.iter_inv := rfl
@[simp] theorem solve_pert (s : State F) : (solve B n s).pert = s.pert := rfl
@[simp] theorem normalize_iter_inv (s : State F) : (normalize B n s).iter_inv = s.iter_inv := rfl
@[simp] theorem normalize_pert (s : State F) : (normalize B n s).pert = s.pert := rfl
@[simp] theorem normalize_invnorm (s : State F) :
    (normalize B n s).invnorm = 1 / B.dnrm2 n s.eig := rfl
@[simp] theorem normalize_eig (s : State F) :
    (normalize B n s).eig = B.dscal n (1 / B.dnrm2 n s.eig) s.eig := rfl
@[simp] theorem inv_iter_iter_inv (s : State F) : (inv_iter B n s).iter_inv = s.iter_inv + 1 := rfl
@[simp] theorem inv_iter_pert (s : State F) : (inv_iter B n s).pert = s.pert := rfl

theorem inv_state_zero (s : State F) : inv_state B n s 0 = s := rfl

theorem inv_state_succ (s : State F) (k : Nat) :
    inv_state B n s (k + 1) = inv_iter B n (inv_state B n s k) := by
  unfold inv_state
  exact Function.iterate_succ_apply' _ _ _

theorem inv_state_succ_left (s : State F) (k : Nat) :
    inv_state B n s (k + 1) = inv_state B n (inv_iter B n s) k := by
  unfold inv_state
  exact Function.iterate_succ_apply _ _ _

theorem inv_state_iter_inv (s : State F) (k : Nat) :
    (inv_state B n s k).iter_inv = s.iter_inv + k := by
  induction k with
  | zero => simp [inv_state_zero]
  | succ k ih => rw [inv_state_succ, inv_iter_iter_inv, ih]; push_cast; ring

theorem inv_state_pert (s : State F) (k : Nat) : (inv_state B n s k).pert = s.pert := by
  induction k with
  | zero => rfl
  | succ k ih => rw [inv_state_succ, inv_iter_pert, ih]

theorem same_frame_refl (s : State F) : same_frame s s :=
  ⟨rfl, rfl, rfl, rfl, rfl, rfl, rfl, rfl⟩

theorem same_frame_trans {s t r : State F} (h1 : same_frame s t) (h2 : same_frame t r) :
    same_frame s r := by
  obtain ⟨a1, a2, a3, a4, a5, a6, a7, a8⟩ := h1
  obtain ⟨b1, b2, b3, b4, b5, b6, b7, b8⟩ := h2
  exact ⟨b1.trans a1, b2.trans a2, b3.trans a3, b4.trans a4, b5.trans a5, b6.trans a6,
    b7.trans a7, b8.trans a8⟩

theorem same_frame_count (s : State F) : same_frame s (count s) :=
  ⟨rfl, rfl, rfl, rfl, rfl, rfl, rfl, rfl⟩

theorem same_frame_solve (s : State F) : same_frame s (solve B n s) :=
  ⟨rfl, rfl, rfl, rfl, rfl, rfl, rfl, rfl⟩

theorem same_frame_normalize (s : State F) : same_frame s (normalize B n s) :=
  ⟨rfl, rfl, rfl, rfl, rfl, rfl, rfl, rfl⟩

theorem same_frame_inv_iter (s : State F) : same_frame s (inv_iter B n s) :=
  ⟨rfl, rfl, rfl, rfl, rfl, rfl, rfl, rfl⟩

theorem same_frame_inv_state (s : State F) (k : Nat) : same_frame s (inv_state B n s k) := by
  induction k with
  | zero => exact same_frame_refl s
  | succ k ih => rw [inv_state_succ]; exact same_frame_trans ih (same_frame_inv_iter B n _)

/-- One unfolding of the inverse-iteration loop. -/
theorem inverse_iteration_succ (fuel : Nat) (s : State F) :
    inverse_iteration C B n itmax tol_abs (fuel + 1) s =
      if itmax < s.iter_inv + 1 then some (C.TRLIB_EIR_ITMAX, count s)
      else if (solve B n (count s)).info_fac ≠ 0 then
        some (C.TRLIB_EIR_FAIL_LINSOLVE, solve B n (count s))
      else if |(inv_iter B n s).invnorm - (inv_iter B n s).pert| ≤ tol_abs then
        some (C.TRLIB_EIR_CONV, inv_iter B n s)
      else inverse_iteration C B n itmax tol_abs fuel (inv_iter B n s) := rfl

/-- What the inverse-iteration loop returns: `k` passes after which the loop continued,
then a pass that returned. -/
theorem inverse_iteration_spec (fuel : Nat) (s : State F) (code : Int) (r : State F)
    (h : inverse_iteration C B n itmax tol_abs fuel s = some (code, r)) :
    ∃ k : Nat, k < fuel ∧
      (∀ j, j < k → pass_continues B n itmax tol_abs (inv_state B n s j)) ∧
      last_pass C B n itmax tol_abs (inv_state B n s k) code r := by
  induction fuel generalizing s with
  | zero => simp [inverse_iteration] at h
  | succ fuel ih =>
    rw [inverse_iteration_succ] at h
    by_cases h1 : itmax < s.iter_inv + 1
    · rw [if_pos h1] at h
      have e := Option.some.inj h
      exact ⟨0, Nat.succ_pos _, fun j hj => absurd hj (Nat.not_lt_zero _),
        Or.inl ⟨h1, (congrArg Prod.fst e).symm, (congrArg Prod.snd e).symm⟩⟩
    · rw [if_neg h1] at h
      have hle : s.iter_inv + 1 ≤ itmax := not_lt.mp h1
      by_cases h2 : (solve B n (count s)).info_fac ≠ 0
      · rw [if_pos h2] at h
        have e := Option.some.inj h
        exact ⟨0, Nat.succ_pos _, fun j hj => absurd hj (Nat.not_lt_zero _),
          Or.inr (Or.inl ⟨hle, h2, (congrArg Prod.fst e).symm, (congrArg Prod.snd e).symm⟩)⟩
      · rw [if_neg h2] at h
        have h2' : (solve B n (count s)).info_fac = 0 := not_not.mp h2
        by_cases h3 : |(inv_iter B n s).invnorm - (inv_iter B n s).pert| ≤ tol_abs
        · rw [if_pos h3] at h
          have e := Option.some.inj h
          exact ⟨0, Nat.succ_pos _, fun j hj => absurd hj (Nat.not_lt_zero _),
            Or.inr (Or.inr ⟨hle, h2', h3, (congrArg Prod.fst e).symm,
              (congrArg Prod.snd e).symm⟩)⟩
        · rw [if_neg h3] at h
          obtain ⟨k, hk, hcont, hlast⟩ := ih _ h
          refine ⟨k + 1, Nat.succ_lt_succ hk, ?_, ?_⟩
          · intro j hj
            cases j with
            | zero => exact ⟨hle, h2', h3⟩
            | succ j =>
              rw [inv_state_succ_left]
              exact hcont j (Nat.lt_of_succ_lt_succ hj)
          · rw [inv_state_succ_left]
            exact hlast

/-- The inverse-iteration loop returns once the fuel exceeds the remaining budget. -/
theorem inverse_iteration_some (fuel : Nat) :
    ∀ s : State F, (itmax - s.iter_inv).toNat < fuel →
      ∃ res, inverse_iteration C B n itmax tol_abs fuel s = some res := by
  induction fuel with
  | zero => intro s h; exact absurd h (Nat.not_lt_zero _)
  | succ fuel ih =>
    intro s h
    rw [inverse_iteration_succ]
    by_cases h1 : itmax < s.iter_inv + 1
    · exact ⟨_, by rw [if_pos h1]⟩
    · rw [if_neg h1]
      by_cases h2 : (solve B n (count s)).info_fac ≠ 0
      · exact ⟨_, by rw [if_pos h2]⟩
      · rw [if_neg h2]
        by_cases h3 : |(inv_iter B n s).invnorm - (inv_iter B n s).pert| ≤ tol_abs
        · exact ⟨_, by rw [if_pos h3]⟩
        · rw [if_neg h3]
          apply ih
          rw [inv_iter_iter_inv]
          omega

theorem last_pass_frame (t : State F) (code : Int) (r : State F)
    (h : last_pass C B n itmax tol_abs t code r) : same_frame t r := by
  rcases h with ⟨-, -, rfl⟩ | ⟨-, -, -, rfl⟩ | ⟨-, -, -, -, rfl⟩
  · exact same_frame_count t
  · exact same_frame_trans (same_frame_count t) (same_frame_solve B n _)
  · exact same_frame_inv_iter B n t

/-- The inverse-iteration loop leaves the matrix, the factors, `pert` and `lam_pert` alone. -/
theorem inverse_iteration_frame (fuel : Nat) (s : State F) (code : Int) (r : State F)
    (h : inverse_iteration C B n itmax tol_abs fuel s = some (code, r)) : same_frame s r := by
  obtain ⟨k, -, -, hlast⟩ := inverse_iteration_spec C B n itmax tol_abs fuel s code r h
  exact same_frame_trans (same_frame_inv_state B n s k)
    (last_pass_frame C B n itmax tol_abs _ code r hlast)

end InverseIteration

/-! ## The whole routine -/

section Whole

variable (C : Consts F) (B : Backend F) (n : Int) (lam_init : F) (itmax : Int) (tol_abs : F)

theorem after_search_eq (fuel : Nat) (s1 : State F) :
    after_search C B n itmax tol_abs fuel s1 =
      if s1.iter_inv = C.TRLIB_EIR_FAIL_FACTOR then
        some (C.TRLIB_EIR_FAIL_FACTOR, store_lam_pert s1)
      else inverse_iteration C B n itmax tol_abs fuel (normalize B n (store_lam_pert s1)) := rfl

theorem trlib_eigen_inverse_eq (fuel : Nat) (m s1 : State F)
    (hs : shift_search C B n lam_init fuel (entry C lam_init m) = some s1) :
    trlib_eigen_inverse C B fuel n lam_init itmax tol_abs m =
      after_search C B n itmax tol_abs fuel s1 := by
  unfold trlib_eigen_inverse
  rw [hs]

/-- Every return of `trlib_eigen_inverse` is of one of three kinds: the loop condition of
the shift search failed after `k` failed attempts; or attempt `k` succeeded and the routine
went on to the inverse iteration; or attempt `k` succeeded but the sentinel
`TRLIB_EIR_FAIL_FACTOR` is the number `0` that `break` stores, so that line 42 returns. -/
theorem trlib_eigen_inverse_spec (fuel : Nat) (m : State F) (code : Int) (r : State F)
    (h : trlib_eigen_inverse C B fuel n lam_init itmax tol_abs m = some (code, r)) :
    ∃ k : Nat, k < fuel ∧
      (∀ j, j < k → (shift_state C B n lam_init m j).pert ≤ 1 / C.TRLIB_EPS ∧
        (factor_attempt B n (shift_state C B n lam_init m j)).info_fac ≠ 0) ∧
      ((¬ (shift_state C B n lam_init m k).pert ≤ 1 / C.TRLIB_EPS ∧
          code = C.TRLIB_EIR_FAIL_FACTOR ∧ r = rejected C B n lam_init m k) ∨
        ((shift_state C B n lam_init m k).pert ≤ 1 / C.TRLIB_EPS ∧
          (factor_attempt B n (shift_state C B n lam_init m k)).info_fac = 0 ∧
          ((C.TRLIB_EIR_FAIL_FACTOR = 0 ∧ code = C.TRLIB_EIR_FAIL_FACTOR ∧
              r = accepted C B n lam_init m k) ∨
            (C.TRLIB_EIR_FAIL_FACTOR ≠ 0 ∧
              inverse_iteration C B n itmax tol_abs fuel
                (normalize B n (accepted C B n lam_init m k)) = some (code, r))))) := by
  cases hs : shift_search C B n lam_init fuel (entry C lam_init m) with
  | none =>
    unfold trlib_eigen_inverse at h
    rw [hs] at h
    exact absurd h (by simp)
  | some s1 =>
    rw [trlib_eigen_inverse_eq C B n lam_init itmax tol_abs fuel m s1 hs, after_search_eq] at h
    obtain ⟨k, hk, hfail, hlast⟩ := shift_search_spec C B n lam_init fuel _ _ hs
    refine ⟨k, hk, hfail, ?_⟩
    rcases hlast with ⟨hg, hi, hr⟩ | ⟨hg, hr⟩
    · refine Or.inr ⟨hg, hi, ?_⟩
      have hz : s1.iter_inv = 0 := by rw [hr]
      have hacc : store_lam_pert s1 = accepted C B n lam_init m k := by rw [hr]; rfl
      rw [hz, hacc] at h
      by_cases hc : (0 : Int) = C.TRLIB_EIR_FAIL_FACTOR
      · rw [if_pos hc] at h
        have e := Option.some.inj h
        exact Or.inl ⟨hc.symm, (congrArg Prod.fst e).symm, (congrArg Prod.snd e).symm⟩
      · rw [if_neg hc] at h
        exact Or.inr ⟨fun h0 => hc h0.symm, h⟩
    · refine Or.inl ⟨hg, ?_⟩
      have hc : s1.iter_inv = C.TRLIB_EIR_FAIL_FACTOR := by
        rw [hr]; exact shift_state_iter_inv C B n lam_init m k
      rw [if_pos hc] at h
      have e := Option.some.inj h
      refine ⟨(congrArg Prod.fst e).symm, ?_⟩
      have e2 : store_lam_pert s1 = r := congrArg Prod.snd e
      rw [← e2, hr]
      rfl

/-- The routine returns for every input and every backend once the fuel is large enough. -/
theorem trlib_eigen_inverse_some [Archimedean F] (h0 : 0 < C.TRLIB_EPS_POW_4) (m : State F) :
    ∃ N : Nat, ∀ fuel, N ≤ fuel →
      ∃ code r, trlib_eigen_inverse C B fuel n lam_init itmax tol_abs m = some (code, r) := by
  obtain ⟨K, hK⟩ := shift_state_exit C B n lam_init h0 m
  refine ⟨max (K + 2) (itmax.toNat + 1), fun fuel hfuel => ?_⟩
  have hf1 : K + 1 < fuel := lt_of_lt_of_le (Nat.lt_succ_self _) (le_trans (le_max_left _ _) hfuel)
  have hf2 : itmax.toNat < fuel := lt_of_lt_of_le (Nat.lt_succ_self _) (le_trans (le_max_right _ _) hfuel)
  obtain ⟨s1, hs1⟩ := shift_search_some_of_exit C B n lam_init (K + 1) fuel _ hf1 hK
  rw [trlib_eigen_inverse_eq C B n lam_init itmax tol_abs fuel m s1 hs1, after_search_eq]
  by_cases hc : s1.iter_inv = C.TRLIB_EIR_FAIL_FACTOR
  · exact ⟨_, _, by rw [if_pos hc]⟩
  · rw [if_neg hc]
    have hz : s1.iter_inv = 0 := by
      obtain ⟨k, -, -, hlast⟩ := shift_search_spec C B n lam_init fuel _ _ hs1
      rcases hlast with ⟨-, -, hr⟩ | ⟨-, hr⟩
      · rw [hr]
      · rw [hr] at hc
        exact absurd (shift_state_iter_inv C B n lam_init m k) hc
    obtain ⟨⟨code, r⟩, hres⟩ := inverse_iteration_some C B n itmax tol_abs fuel
      (normalize B n (store_lam_pert s1)) (by
        rw [normalize_iter_inv]
        show (itmax - s1.iter_inv).toNat < fuel
        rw [hz, sub_zero]; exact hf2)
    exact ⟨code, r, hres⟩

/-- The value of `pert` at return is the one of the loop head the shift search left from. -/
theorem trlib_eigen_inverse_pert (fuel : Nat) (m : State F) (code : Int) (r : State F)
    (h : trlib_eigen_inverse C B fuel n lam_init itmax tol_abs m = some (code, r)) :
    ∃ k : Nat, k < fuel ∧ r.pert = (shift_state C B n lam_init m k).pert ∧
      (∀ j, j < k → (shift_state C B n lam_init m j).pert ≤ 1 / C.TRLIB_EPS ∧
        (factor_attempt B n (shift_state C B n lam_init m j)).info_fac ≠ 0) ∧
      (code ≠ C.TRLIB_EIR_FAIL_FACTOR →
        (shift_state C B n lam_init m k).pert ≤ 1 / C.TRLIB_EPS ∧
        (factor_attempt B n (shift_state C B n lam_init m k)).info_fac = 0) := by
  obtain ⟨k, hk, hfail, hlast⟩ :=
    trlib_eigen_inverse_spec C B n lam_init itmax tol_abs fuel m code r h
  refine ⟨k, hk, ?_, hfail, ?_⟩
  · rcases hlast with ⟨-, -, rfl⟩ | ⟨-, -, ⟨-, -, rfl⟩ | ⟨-, hit⟩⟩
    · rfl
    · rfl
    · have hfr := inverse_iteration_frame C B n itmax tol_abs fuel _ code r hit
      exact hfr.2.2.2.2.2.2.1
  · intro hcode
    rcases hlast with ⟨-, hc, -⟩ | ⟨hg, hi, ⟨-, hc, -⟩ | -⟩
    · exact absurd hc hcode
    · exact absurd hc hcode
    · exact ⟨hg, hi⟩

end Whole

/-! ## Counting the attempts of the shift search -/

/-- An attempt after the first is only made while `TRLIB_EPS_POW_4 * 10 ^ j ≤ 1 / TRLIB_EPS`. -/
theorem guard_bound (C : Consts F) (B : Backend F) (n : Int) (lam_init : F) (m : State F)
    (h0 : 0 < C.TRLIB_EPS_POW_4) (j : Nat)
    (hg : (shift_state C B n lam_init m (j + 1)).pert ≤ 1 / C.TRLIB_EPS) :
    C.TRLIB_EPS_POW_4 * 10 ^ j ≤ 1 / C.TRLIB_EPS := by
  rw [shift_state_pert_succ] at hg
  have h1 : C.TRLIB_EPS_POW_4 ≤ C.TRLIB_EPS_POW_4 * max 1 (-lam_init) :=
    le_mul_of_one_le_right h0.le (le_max_left _ _)
  exact le_trans (mul_le_mul_of_nonneg_right h1 (pow_nonneg (by norm_num) _)) hg

/-- The shift search does not call the solve, the norm or the scaling. -/
theorem shift_search_backend (C : Consts F) (B : Backend F) (n : Int) (lam_init : F)
    (slv : Int → List F → List F → List F → List F × Int) (nrm : Int → List F → F)
    (scl : Int → F → List F → List F) (fuel : Nat) (s : State F) :
    shift_search C { B with dpttrs := slv, dnrm2 := nrm, dscal := scl } n lam_init fuel s =
      shift_search C B n lam_init fuel s := by
  induction fuel generalizing s with
  | zero => rfl
  | succ fuel ih =>
    rw [shift_search, shift_search]
    by_cases hg : s.pert ≤ 1 / C.TRLIB_EPS
    · rw [if_pos hg, if_pos hg]
      have hfa : factor_attempt { B with dpttrs := slv, dnrm2 := nrm, dscal := scl } n s =
          factor_attempt B n s := rfl
      rw [hfa]
      by_cases hi : (factor_attempt B n s).info_fac = 0
      · rw [if_pos hi, if_pos hi]
      · rw [if_neg hi, if_neg hi]
        exact ih _
    · rw [if_neg hg, if_neg hg]

theorem attempts_log_bound (eps e : ℝ) (h0 : 0 < eps) (he : e = eps ^ (1 / 4 : ℝ)) (j : ℕ)
    (h : e * 10 ^ j ≤ 1 / eps) : (j : ℝ) ≤ Real.logb 10 (eps ^ (-(5 / 4) : ℝ)) := by
  have hepos : 0 < e := by rw [he]; exact Real.rpow_pos_of_pos h0 _
  have h54 : eps ^ (-(5 / 4) : ℝ) = 1 / (eps * e) := by
    rw [Real.rpow_neg h0.le, show (5 / 4 : ℝ) = 1 + 1 / 4 by norm_num, Real.rpow_add h0,
      Real.rpow_one, ← he, one_div]
  rw [Real.le_logb_iff_rpow_le (by norm_num) (Real.rpow_pos_of_pos h0 _), Real.rpow_natCast, h54,
    le_div_iff₀ (mul_pos h0 hepos)]
  have := (le_div_iff₀ h0).mp h
  nlinarith [this]

theorem fourth_root_double : ((1 : ℝ) / 2 ^ 52) ^ (1 / 4 : ℝ) = 1 / 2 ^ 13 := by
  have h : ((1 : ℝ) / 2 ^ 52) = (1 / 2 ^ 13) ^ 4 := by norm_num
  rw [h, show (1 / 4 : ℝ) = ((4 : ℕ) : ℝ)⁻¹ by norm_num]
  exact Real.pow_rpow_inv_natCast (by positivity) (by norm_num)

theorem attempts_double (j : ℕ) (h : ((1 : ℝ) / 2 ^ 13) * 10 ^ j ≤ 1 / (1 / 2 ^ 52)) :
    j ≤ 19 := by
  by_contra hj
  have hj' : 20 ≤ j := by omega
  have h10 : (10 : ℝ) ^ 20 ≤ 10 ^ j := pow_le_pow_right₀ (by norm_num) hj'
  have h65 : (10 : ℝ) ^ j ≤ 2 ^ 65 := by
    have h2 : (1 : ℝ) / (1 / 2 ^ 52) = 2 ^ 52 := by norm_num
    rw [h2] at h
    have e : (10 : ℝ) ^ j = 2 ^ 13 * (1 / 2 ^ 13 * 10 ^ j) := by field_simp
    rw [e]
    calc (2 : ℝ) ^ 13 * (1 / 2 ^ 13 * 10 ^ j) ≤ 2 ^ 13 * 2 ^ 52 :=
          mul_le_mul_of_nonneg_left h (by positivity)
      _ = 2 ^ 65 := by norm_num
  have h' : (10 : ℝ) ^ 20 ≤ 2 ^ 65 := le_trans h10 h65
  norm_num at h'

/-- The index of an attempt of the shift search is bounded logarithmically in `1/eps`. -/
theorem guard_index_bound (C : Consts ℝ) (B : Backend ℝ) (n : Int) (lam_init : ℝ) (m : State ℝ)
    (heps0 : 0 < C.TRLIB_EPS) (heps1 : C.TRLIB_EPS < 1)
    (hpow : C.TRLIB_EPS_POW_4 = C.TRLIB_EPS ^ (1 / 4 : ℝ)) (j : Nat)
    (hg : (shift_state C B n lam_init m j).pert ≤ 1 / C.TRLIB_EPS) :
    ((j + 1 : Nat) : ℝ) ≤ 2 + Real.logb 10 (C.TRLIB_EPS ^ (-(5 / 4) : ℝ)) := by
  have h0 : 0 < C.TRLIB_EPS_POW_4 := by rw [hpow]; exact Real.rpow_pos_of_pos heps0 _
  have hlog : 0 ≤ Real.logb 10 (C.TRLIB_EPS ^ (-(5 / 4) : ℝ)) :=
    Real.logb_nonneg (by norm_num)
      (Real.one_le_rpow_of_pos_of_le_one_of_nonpos heps0 heps1.le (by norm_num))
  cases j with
  | zero => push_cast; linarith
  | succ i =>
    have := attempts_log_bound C.TRLIB_EPS C.TRLIB_EPS_POW_4 heps0 hpow i
      (guard_bound C B n lam_init m h0 i hg)
    push_cast
    linarith

/-- With `eps = 2⁻⁵²` no attempt has an index beyond 20. -/
theorem guard_index_double (C : Consts ℝ) (B : Backend ℝ) (n : Int) (lam_init : ℝ) (m : State ℝ)
    (hpow : C.TRLIB_EPS_POW_4 = C.TRLIB_EPS ^ (1 / 4 : ℝ)) (hd : C.TRLIB_EPS = 1 / 2 ^ 52)
    (j : Nat) (hg : (shift_state C B n lam_init m j).pert ≤ 1 / C.TRLIB_EPS) : j + 1 ≤ 21 := by
  have he : C.TRLIB_EPS_POW_4 = 1 / 2 ^ 13 := by rw [hpow, hd]; exact fourth_root_double
  have h0 : 0 < C.TRLIB_EPS_POW_4 := by rw [he]; positivity
  cases j with
  | zero => omega
  | succ i =>
    have h := guard_bound C B n lam_init m h0 i hg
    rw [he, hd] at h
    have := attempts_double i h
    omega

/-! ## The factorization input with the standard copy and axpy -/

theorem dcopy_full (n : Int) (x y : List F) (hx : x.length = n.toNat) (hy : y.length = n.toNat) :
    dcopy n x y = x := by
  unfold dcopy
  rw [List.take_of_length_le hx.le, List.drop_of_length_le hy.le, List.append_nil]

theorem zipWith_replicate_left {α β γ : Type} (f : α → β → γ) (c : α) :
    ∀ (l : List β) (k : Nat), l.length = k → List.zipWith f (List.replicate k c) l = l.map (f c)
  | [], k, h => by subst h; rfl
  | b :: l, k, h => by
    subst h
    simp only [List.length_cons, List.replicate_succ, List.zipWith_cons_cons, List.map_cons]
    rw [zipWith_replicate_left f c l l.length rfl]

theorem daxpy_ones (n : Int) (a : F) (y : List F) (hy : y.length = n.toNat) :
    daxpy n a (List.replicate n.toNat 1) y = shifted_diag (-a) y := by
  unfold daxpy shifted_diag
  rw [List.take_of_length_le hy.le, List.drop_of_length_le hy.le, List.append_nil,
    List.take_of_length_le (by simp), zipWith_replicate_left _ _ y n.toNat hy]
  apply List.map_congr_left
  intro d _
  ring

/-- With the standard copy and axpy and well-sized buffers, an attempt factorizes the matrix
with diagonal `diag[i] - (-minuslam)` and off-diagonal `offdiag`. -/
theorem factor_attempt_std (B : Backend F) (n : Int) (s : State F)
    (hc : B.dcopy = dcopy) (ha : B.daxpy = daxpy) (hs : well_sized n s) :
    (factor_attempt B n s).diag_fac = (B.dpttrf n (shifted_diag (-s.minuslam) s.diag) s.offdiag).1 ∧
    (factor_attempt B n s).offdiag_fac =
      (B.dpttrf n (shifted_diag (-s.minuslam) s.diag) s.offdiag).2.1 ∧
    (factor_attempt B n s).info_fac =
      (B.dpttrf n (shifted_diag (-s.minuslam) s.diag) s.offdiag).2.2 := by
  obtain ⟨h1, h2, h3, h4, h5, -⟩ := hs
  have e1 : B.daxpy n s.minuslam s.ones (B.dcopy n s.diag s.diag_fac) =
      shifted_diag (-s.minuslam) s.diag := by
    rw [hc, ha, dcopy_full n _ _ h1 h4, h3, daxpy_ones n _ _ h1]
  have e2 : B.dcopy (n - 1) s.offdiag s.offdiag_fac = s.offdiag := by
    rw [hc, dcopy_full (n - 1) _ _ h2 h5]
  unfold factor_attempt
  simp only [e1, e2, and_self]

theorem well_sized_factor_attempt (B : Backend F) (n : Int) (s : State F)
    (hc : B.dcopy = dcopy) (ha : B.daxpy = daxpy) (hf : factor_in_place B n)
    (hs : well_sized n s) : well_sized n (factor_attempt B n s) := by
  obtain ⟨e1, e2, -⟩ := factor_attempt_std B n s hc ha hs
  obtain ⟨h1, h2, h3, h4, h5, h6⟩ := hs
  refine ⟨h1, h2, h3, ?_, ?_, h6⟩
  · rw [e1, (hf _ _).1]
    unfold shifted_diag
    rw [List.length_map, h1]
  · rw [e2, (hf _ _).2, h2]

theorem well_sized_shift_state (C : Consts F) (B : Backend F) (n : Int) (lam_init : F)
    (m : State F) (hc : B.dcopy = dcopy) (ha : B.daxpy = daxpy) (hf : factor_in_place B n)
    (hm : well_sized n m) (k : Nat) : well_sized n (shift_state C B n lam_init m k) := by
  induction k with
  | zero => exact hm
  | succ k ih =>
    rw [shift_state_succ]
    exact well_sized_factor_attempt B n _ hc ha hf ih

theorem pttrf_from_length_cons (ds : List F) :
    ∀ (d : F) (i : Int) (e : List F),
      (pttrf_from i (d :: ds) e).1.length = (d :: ds).length ∧
        (pttrf_from i (d :: ds) e).2.1.length = e.length := by
  induction ds with
  | nil => intro d i e; simp [pttrf_from]
  | cons d2 ds ih =>
    intro d i e
    cases e with
    | nil =>
      rw [pttrf_from]
      split_ifs
      · simp
      · have := ih d2 (i + 1) []
        simp only [List.length_cons] at this ⊢
        omega
    | cons e es =>
      rw [pttrf_from]
      split_ifs
      · simp
      · have := ih (d2 - e / d * e) (i + 1) es
        simp only [List.length_cons] at this ⊢
        omega

theorem pttrf_from_length (i : Int) (d e : List F) :
    (pttrf_from i d e).1.length = d.length ∧ (pttrf_from i d e).2.1.length = e.length := by
  cases d with
  | nil => simp [pttrf_from]
  | cons d ds => exact pttrf_from_length_cons ds d i e

/-- The reference factorization works in place. -/
theorem dpttrf_in_place (B : Backend F) (hB : B.dpttrf = dpttrf) (n : Int) :
    factor_in_place B n := by
  intro d e
  rw [hB]
  unfold dpttrf
  have h := pttrf_from_length 1 (d.take n.toNat) (e.take (n - 1).toNat)
  constructor
  · simp only [List.length_append, h.1, List.length_take, List.length_drop]
    omega
  · simp only [List.length_append, h.2, List.length_take, List.length_drop]
    omega

/-! ## Running the loops forward -/

/-- If the first `a` attempts fail and attempt `a` succeeds, the shift search returns the
factors of attempt `a` with `iter_inv = 0`. -/
theorem shift_search_of_success (C : Consts F) (B : Backend F) (n : Int) (lam_init : F)
    (a : Nat) : ∀ (fuel : Nat) (s : State F), a < fuel →
      (∀ j, j < a → ((shift_iter C B n lam_init)^[j] s).pert ≤ 1 / C.TRLIB_EPS ∧
        (factor_attempt B n ((shift_iter C B n lam_init)^[j] s)).info_fac ≠ 0) →
      ((shift_iter C B n lam_init)^[a] s).pert ≤ 1 / C.TRLIB_EPS →
      (factor_attempt B n ((shift_iter C B n lam_init)^[a] s)).info_fac = 0 →
      shift_search C B n lam_init fuel s =
        some { factor_attempt B n ((shift_iter C B n lam_init)^[a] s) with iter_inv := 0 } := by
  induction a with
  | zero =>
    intro fuel s hf _ hg hi
    obtain ⟨f, rfl⟩ := Nat.exists_eq_succ_of_ne_zero (Nat.pos_iff_ne_zero.mp hf)
    rw [Function.iterate_zero_apply] at hg hi ⊢
    rw [shift_search, if_pos hg, if_pos hi]
  | succ a ih =>
    intro fuel s hf hfail hg hi
    obtain ⟨f, rfl⟩ := Nat.exists_eq_succ_of_ne_zero (Nat.pos_iff_ne_zero.mp (Nat.zero_lt_of_lt hf))
    have h0 := hfail 0 (Nat.succ_pos _)
    rw [Function.iterate_zero_apply] at h0
    rw [shift_search, if_pos h0.1, if_neg h0.2]
    rw [Function.iterate_succ_apply] at hg hi ⊢
    refine ih f _ (Nat.lt_of_succ_lt_succ hf) (fun j hj => ?_) hg hi
    have := hfail (j + 1) (Nat.succ_lt_succ hj)
    rwa [Function.iterate_succ_apply] at this

/-- After an accepted attempt the routine is the inverse-iteration loop started in
`loop_entry`, provided the sentinel differs from the `0` stored by `break`. -/
theorem trlib_eigen_inverse_of_accepts (C : Consts F) (B : Backend F) (n : Int) (lam_init : F)
    (itmax : Int) (tol_abs : F) (m : State F) (a : Nat) (hacc : accepts C B n lam_init m a)
    (hff : C.TRLIB_EIR_FAIL_FACTOR ≠ 0) (fuel : Nat) (hfuel : a < fuel) :
    trlib_eigen_inverse C B fuel n lam_init itmax tol_abs m =
      inverse_iteration C B n itmax tol_abs fuel (loop_entry C B n lam_init m a) := by
  obtain ⟨hfail, hg, hi⟩ := hacc
  have hs := shift_search_of_success C B n lam_init a fuel (entry C lam_init m) hfuel hfail hg hi
  rw [trlib_eigen_inverse_eq C B n lam_init itmax tol_abs fuel m _ hs, after_search_eq]
  have hne : ¬ (0 : Int) = C.TRLIB_EIR_FAIL_FACTOR := fun h => hff h.symm
  rw [if_neg hne]
  rfl

theorem loop_entry_iter_inv (C : Consts F) (B : Backend F) (n : Int) (lam_init : F)
    (m : State F) (a : Nat) : (loop_entry C B n lam_init m a).iter_inv = 0 := rfl

theorem loop_entry_pert (C : Consts F) (B : Backend F) (n : Int) (lam_init : F)
    (m : State F) (a : Nat) :
    (loop_entry C B n lam_init m a).pert = (shift_state C B n lam_init m a).pert := rfl

theorem loop_entry_lam_pert (C : Consts F) (B : Backend F) (n : Int) (lam_init : F)
    (m : State F) (a : Nat) :
    (loop_entry C B n lam_init m a).lam_pert =
      lam_init - (shift_state C B n lam_init m a).pert := by
  show -(shift_state C B n lam_init m a).minuslam = _
  rw [shift_state_minuslam]; ring

/-- The loop runs through its continuing passes. -/
theorem inverse_iteration_skip (C : Consts F) (B : Backend F) (n : Int) (itmax : Int)
    (tol_abs : F) (k : Nat) : ∀ (fuel : Nat) (s : State F),
      (∀ j, j < k → pass_continues B n itmax tol_abs (inv_state B n s j)) →
      inverse_iteration C B n itmax tol_abs (fuel + k) s =
        inverse_iteration C B n itmax tol_abs fuel (inv_state B n s k) := by
  induction k with
  | zero => intro fuel s _; rfl
  | succ k ih =>
    intro fuel s hcont
    obtain ⟨h1, h2, h3⟩ := hcont 0 (Nat.succ_pos _)
    rw [inv_state_zero] at h1 h2 h3
    rw [← Nat.add_assoc, inverse_iteration_succ, if_neg (not_lt.mpr h1),
      if_neg (not_not.mpr h2), if_neg h3, inv_state_succ_left]
    refine ih fuel _ fun j hj => ?_
    rw [← inv_state_succ_left]
    exact hcont (j + 1) (Nat.succ_lt_succ hj)

/-- After an accepted attempt the routine returns, and its result is that of the
inverse-iteration loop started in `loop_entry`, described by `inverse_iteration_spec`. -/
theorem trlib_eigen_inverse_loop (C : Consts F) (B : Backend F) (n : Int) (lam_init : F)
    (itmax : Int) (tol_abs : F) (m : State F) (a : Nat) (hacc : accepts C B n lam_init m a)
    (hff : C.TRLIB_EIR_FAIL_FACTOR ≠ 0) (fuel : Nat)
    (hfuel : max (a + 1) (itmax.toNat + 1) ≤ fuel) :
    ∃ code r, trlib_eigen_inverse C B fuel n lam_init itmax tol_abs m = some (code, r) ∧
      ∃ k : Nat,
        (∀ j, j < k →
          pass_continues B n itmax tol_abs (inv_state B n (loop_entry C B n lam_init m a) j)) ∧
        last_pass C B n itmax tol_abs (inv_state B n (loop_entry C B n lam_init m a) k) code r := by
  have hf1 : a < fuel := lt_of_lt_of_le (Nat.lt_succ_self _) (le_trans (le_max_left _ _) hfuel)
  have hf2 : itmax.toNat < fuel :=
    lt_of_lt_of_le (Nat.lt_succ_self _) (le_trans (le_max_right _ _) hfuel)
  rw [trlib_eigen_inverse_of_accepts C B n lam_init itmax tol_abs m a hacc hff fuel hf1]
  obtain ⟨⟨code, r⟩, hres⟩ := inverse_iteration_some C B n itmax tol_abs fuel
    (loop_entry C B n lam_init m a) (by
      rw [loop_entry_iter_inv, sub_zero]; exact hf2)
  obtain ⟨k, -, hcont, hlast⟩ := inverse_iteration_spec C B n itmax tol_abs fuel _ code r hres
  exact ⟨code, r, hres, k, hcont, hlast⟩

theorem inv_state_entry_iter_inv (C : Consts F) (B : Backend F) (n : Int) (lam_init : F)
    (m : State F) (a k : Nat) :
    (inv_state B n (loop_entry C B n lam_init m a) k).iter_inv = (k : Int) := by
  rw [inv_state_iter_inv, loop_entry_iter_inv, zero_add]

theorem inv_state_entry_pert (C : Consts F) (B : Backend F) (n : Int) (lam_init : F)
    (m : State F) (a k : Nat) :
    (inv_state B n (loop_entry C B n lam_init m a) k).pert =
      (shift_state C B n lam_init m a).pert := by
  rw [inv_state_pert, loop_entry_pert]

/-- On `sample_mem` with `lam_init = 0` and the reference copy, axpy and factorization, the
attempt at `pert = 0` fails and the one at `pert = 2⁻¹³` succeeds. -/
theorem sample_accepts_std (B : Backend ℚ) (hc : B.dcopy = dcopy) (ha : B.daxpy = daxpy)
    (hf : B.dpttrf = dpttrf) : accepts sample_consts B 1 0 sample_mem 1 := by
  have e0 : shift_state sample_consts B 1 0 sample_mem 0 = entry sample_consts 0 sample_mem := rfl
  have e1 : shift_state sample_consts B 1 0 sample_mem 1 =
      shift_iter sample_consts B 1 0 (entry sample_consts 0 sample_mem) := rfl
  refine ⟨fun j hj => ?_, ?_, ?_⟩
  · obtain rfl : j = 0 := by omega
    rw [e0]
    constructor
    · norm_num [entry, sample_consts]
    · norm_num [entry, sample_mem, sample_consts, hc, ha, hf, factor_attempt, dcopy, daxpy,
        dpttrf, pttrf_from]
  · rw [e1]
    norm_num [shift_iter, perturb, entry, sample_consts]
  · rw [e1]
    norm_num [shift_iter, perturb, entry, sample_mem, sample_consts, hc, ha, hf,
      factor_attempt, dcopy, daxpy, dpttrf, pttrf_from]

theorem sample_accepts : accepts sample_consts (reference_backend rat_nrm2) 1 0 sample_mem 1 :=
  sample_accepts_std _ rfl rfl rfl

/-! ## Normalisation -/

theorem take_dscal (n : Int) (c : F) (x : List F) :
    (dscal n c x).take n.toNat = (x.take n.toNat).map fun xi => c * xi := by
  unfold dscal
  rw [List.take_append_eq_append_take, List.take_of_length_le (by simp)]
  rcases le_total n.toNat x.length with h | h
  · have : (List.map (fun xi => c * xi) (List.take n.toNat x)).length = n.toNat := by
      simp [h]
    rw [this, Nat.sub_self, List.take_zero, List.append_nil]
  · rw [List.drop_of_length_le h, List.take_nil, List.append_nil]

theorem sumsq_dscal (n : Int) (c : F) (x : List F) :
    sumsq n (dscal n c x) = c * c * sumsq n x := by
  unfold sumsq
  rw [take_dscal, List.map_map, ← List.sum_map_mul_left]
  congr 1
  apply List.map_congr_left
  intro a _
  simp only [Function.comp]
  ring

theorem sumsq_nonneg (n : Int) (x : List F) : 0 ≤ sumsq n x := by
  unfold sumsq
  apply List.sum_nonneg
  intro y hy
  obtain ⟨z, -, rfl⟩ := List.mem_map.mp hy
  exact mul_self_nonneg z

/-- Scaling by the reciprocal of the Euclidean norm gives a vector of unit norm. -/
theorem sumsq_normalize (B : Backend F) (n : Int) (s : State F) (hs : B.dscal = dscal)
    (hn : B.dnrm2 n s.eig ^ 2 = sumsq n s.eig) (hne : sumsq n s.eig ≠ 0) :
    sumsq n (normalize B n s).eig = 1 := by
  rw [normalize_eig, hs, sumsq_dscal, ← hn]
  have h0 : B.dnrm2 n s.eig ≠ 0 := by
    intro h
    rw [h] at hn
    exact hne (by rw [← hn]; ring)
  field_simp
  ring

theorem nrm_eq_one (v q : F) (h0 : 0 ≤ v) (hv : v ^ 2 = q) (hq : q = 1) : v = 1 := by
  have h : (v - 1) * (v + 1) = 0 := by rw [← sub_eq_zero] at hq; rw [← hq, ← hv]; ring
  rcases mul_eq_zero.mp h with h | h
  · exact sub_eq_zero.mp h
  · exact absurd h0 (by linarith)

/-- With a solve that returns its right-hand side, every iterate keeps unit norm. -/
theorem identity_solve_unit (B : Backend F) (n : Int) (s : State F) (hs : B.dscal = dscal)
    (hslv : B.dpttrs = fun _ _ _ b => (b, 0)) (hn : ∀ x, B.dnrm2 n x ^ 2 = sumsq n x)
    (h1 : sumsq n s.eig = 1) (k : Nat) : sumsq n (inv_state B n s k).eig = 1 := by
  induction k with
  | zero => exact h1
  | succ k ih =>
    rw [inv_state_succ]
    have he : (solve B n (count (inv_state B n s k))).eig = (inv_state B n s k).eig := by
      show (B.dpttrs n _ _ _).1 = _
      rw [hslv]; rfl
    refine sumsq_normalize B n _ hs (hn _) ?_
    rw [he, ih]
    exact one_ne_zero

/-- For the 1×1 matrix `(0)` with `lam_init = 0`, `eps = 2⁻⁵²` and the standard copy, axpy and
factorization, the attempt at `pert = 0` fails and the one at `pert = 2⁻¹³` succeeds. -/
theorem accepts_1x1 (B : Backend F) (x : F) (hc : B.dcopy = dcopy) (ha : B.daxpy = daxpy)
    (hf : B.dpttrf = dpttrf) :
    accepts (consts_of (1 / 2 ^ 52) (1 / 2 ^ 13)) B 1 0 (mem_of 0 x) 1 := by
  have e0 : shift_state (consts_of (1 / 2 ^ 52) (1 / 2 ^ 13)) B 1 0 (mem_of 0 x) 0 =
      entry (consts_of (1 / 2 ^ 52) (1 / 2 ^ 13)) 0 (mem_of 0 x) := rfl
  have e1 : shift_state (consts_of (1 / 2 ^ 52) (1 / 2 ^ 13)) B 1 0 (mem_of 0 x) 1 =
      shift_iter (consts_of (1 / 2 ^ 52) (1 / 2 ^ 13)) B 1 0
        (entry (consts_of (1 / 2 ^ 52) (1 / 2 ^ 13)) 0 (mem_of 0 x)) := rfl
  refine ⟨fun j hj => ?_, ?_, ?_⟩
  · obtain rfl : j = 0 := by omega
    rw [e0]
    constructor
    · norm_num [entry, consts_of]
    · norm_num [entry, mem_of, consts_of, hc, ha, hf, factor_attempt, dcopy, daxpy,
        dpttrf, pttrf_from]
  · rw [e1]
    norm_num [shift_iter, perturb, entry, consts_of]
  · rw [e1]
    norm_num [shift_iter, perturb, entry, mem_of, consts_of, hc, ha, hf,
      factor_attempt, dcopy, daxpy, dpttrf, pttrf_from]

/-! ## Eigenvectors and an exact backend -/

theorem dscal_full (n : Int) (c : F) (x : List F) (hx : x.length = n.toNat) :
    dscal n c x = x.map fun xi => c * xi := by
  unfold dscal
  rw [List.take_of_length_le hx.le, List.drop_of_length_le hx.le, List.append_nil]

theorem getD_map_mul (c : F) (x : List F) (i : Nat) :
    (x.map fun xi => c * xi).getD i 0 = c * x.getD i 0 := by
  have h := List.getD_map (l := x) (d := (0 : F)) (n := i) (fun xi => c * xi)
  simp only [mul_zero] at h
  exact h

theorem tri_row_map_mul (d e x : List F) (c : F) (i : Nat) :
    tri_row d e (x.map fun xi => c * xi) i = c * tri_row d e x i := by
  unfold tri_row
  rw [getD_map_mul, getD_map_mul, getD_map_mul]
  split_ifs <;> ring

theorem getD_shifted_diag (s : F) (d : List F) (i : Nat) (hi : i < d.length) :
    (shifted_diag s d).getD i 0 = d.getD i 0 - s := by
  unfold shifted_diag
  rw [List.getD_eq_getElem _ _ (by rw [List.length_map]; exact hi), List.getD_eq_getElem _ _ hi,
    List.getElem_map]

theorem tri_row_shifted (s : F) (d e x : List F) (i : Nat) (hi : i < d.length) :
    tri_row (shifted_diag s d) e x i = tri_row d e x i - s * x.getD i 0 := by
  unfold tri_row
  rw [getD_shifted_diag s d i hi]
  ring

theorem map_mul_mul (a b : F) (x : List F) :
    (x.map fun xi => b * xi).map (fun xi => a * xi) = x.map fun xi => a * b * xi := by
  rw [List.map_map]
  apply List.map_congr_left
  intro y _
  simp only [Function.comp]
  ring

theorem nrm_map_mul (B : Backend F) (n : Int)
    (hnrm : ∀ x, 0 ≤ B.dnrm2 n x ∧ B.dnrm2 n x ^ 2 = sumsq n x) (c : F) (hc : 0 ≤ c)
    (x : List F) (hx : x.length = n.toNat) :
    B.dnrm2 n (x.map fun xi => c * xi) = c * B.dnrm2 n x := by
  rw [← sq_eq_sq₀ (hnrm _).1 (mul_nonneg hc (hnrm x).1), (hnrm _).2, ← dscal_full n c x hx,
    sumsq_dscal, mul_pow, (hnrm x).2]
  ring

/-- The first pass of the inverse iteration when the start vector is a positive multiple of
an eigenvector `v` for the eigenvalue `lam_init` and the backend is exact: the solve
succeeds, `invnorm` equals `pert`, and the normalised result is `v/‖v‖`. -/
theorem eigen_first_pass (C : Consts F) (B : Backend F) (n : Int) (lam : F) (m : State F)
    (v : List F) (c : F) (k : Nat)
    (h0 : 0 < C.TRLIB_EPS_POW_4)
    (hc : B.dcopy = dcopy) (ha : B.daxpy = daxpy) (hs : B.dscal = dscal)
    (hf : factor_in_place B n)
    (hnrm : ∀ x, 0 ≤ B.dnrm2 n x ∧ B.dnrm2 n x ^ 2 = sumsq n x)
    (hex : exact_backend B n) (hm : well_sized n m)
    (hv : v.length = n.toNat) (hv0 : sumsq n v ≠ 0)
    (heigen : ∀ i, i < n.toNat → tri_row m.diag m.offdiag v i = lam * v.getD i 0)
    (hc0 : 0 < c) (hseed : m.eig = v.map fun x => c * x)
    (hi : (factor_attempt B n (shift_state C B n lam m k)).info_fac = 0) :
    (solve B n (count (loop_entry C B n lam m k))).info_fac = 0 ∧
    (inv_iter B n (loop_entry C B n lam m k)).invnorm = (inv_iter B n (loop_entry C B n lam m k)).pert ∧
    (inv_iter B n (loop_entry C B n lam m k)).eig = v.map fun x => 1 / B.dnrm2 n v * x := by
  -- the matrix of the accepted attempt
  have hws := well_sized_shift_state C B n lam m hc ha hf hm k
  obtain ⟨e1, e2, e3⟩ := factor_attempt_std B n (shift_state C B n lam m k) hc ha hws
  have hneg : -(shift_state C B n lam m k).minuslam = lam - (shift_state C B n lam m k).pert := by
    rw [shift_state_minuslam]; ring
  rw [hneg, shift_state_diag, shift_state_offdiag] at e1 e2 e3
  obtain ⟨hd, he, -, -, -, heg⟩ := hm
  have hDlen : (shifted_diag (lam - (shift_state C B n lam m k).pert) m.diag).length = n.toNat := by
    unfold shifted_diag; rw [List.length_map, hd]
  rw [e3] at hi
  obtain ⟨huniq, hsolve⟩ := hex _ _ hDlen he hi
  -- the perturbation is positive
  have hp0 : (shift_state C B n lam m k).pert ≠ 0 := by
    intro hp
    rw [hp, sub_zero] at huniq
    have hker : ∀ i, i < n.toNat →
        tri_row (shifted_diag lam m.diag) m.offdiag v i =
          tri_row (shifted_diag lam m.diag) m.offdiag (v.map fun x => 2 * x) i := by
      intro i hin
      rw [tri_row_map_mul, tri_row_shifted lam _ _ _ i (by rw [hd]; exact hin), heigen i hin]
      ring
    have hvv := huniq v (v.map fun x => 2 * x) hv (by rw [List.length_map, hv]) hker
    have hss : sumsq n v = 2 * 2 * sumsq n v := by
      conv_lhs => rw [hvv]
      rw [← dscal_full n 2 v hv, sumsq_dscal]
    exact hv0 (by linarith)
  have hp : 0 < (shift_state C B n lam m k).pert := by
    cases k with
    | zero => exact absurd rfl hp0
    | succ j =>
      rw [shift_state_pert_succ]
      exact mul_pos (mul_pos h0 (lt_of_lt_of_le one_pos (le_max_left _ _)))
        (pow_pos (by norm_num) _)
  -- the norm of `v`
  have hnu : 0 < B.dnrm2 n v := by
    rcases (hnrm v).1.lt_or_eq with h | h
    · exact h
    · exact absurd (by rw [← (hnrm v).2, ← h]; ring) hv0
  -- the start vector of the loop
  have hu : (loop_entry C B n lam m k).eig = v.map fun x => 1 / B.dnrm2 n v * x := by
    show (normalize B n (accepted C B n lam m k)).eig = _
    rw [normalize_eig]
    have hacc_eig : (accepted C B n lam m k).eig = m.eig := shift_state_eig C B n lam m k
    rw [hacc_eig, hs, dscal_full n _ _ heg, hseed, nrm_map_mul B n hnrm c hc0.le v hv, map_mul_mul]
    apply List.map_congr_left
    intro x _
    field_simp
    ring
  have hulen : (v.map fun x => 1 / B.dnrm2 n v * x).length = n.toNat := by
    rw [List.length_map, hv]
  have hunrm : B.dnrm2 n (v.map fun x => 1 / B.dnrm2 n v * x) = 1 := by
    rw [nrm_map_mul B n hnrm _ (by positivity) v hv]
    field_simp
  -- the solve
  have hsol : solve B n (count (loop_entry C B n lam m k)) =
      { count (loop_entry C B n lam m k) with
        eig := (B.dpttrs n (factor_attempt B n (shift_state C B n lam m k)).diag_fac
          (factor_attempt B n (shift_state C B n lam m k)).offdiag_fac
          (loop_entry C B n lam m k).eig).1
        info_fac := (B.dpttrs n (factor_attempt B n (shift_state C B n lam m k)).diag_fac
          (factor_attempt B n (shift_state C B n lam m k)).offdiag_fac
          (loop_entry C B n lam m k).eig).2 } := rfl
  rw [e1, e2, hu] at hsol
  obtain ⟨hinfo, hylen, hyrow⟩ := hsolve _ hulen
  have hy : (B.dpttrs n
      (B.dpttrf n (shifted_diag (lam - (shift_state C B n lam m k).pert) m.diag) m.offdiag).1
      (B.dpttrf n (shifted_diag (lam - (shift_state C B n lam m k).pert) m.diag) m.offdiag).2.1
      (v.map fun x => 1 / B.dnrm2 n v * x)).1 =
      (v.map fun x => 1 / B.dnrm2 n v * x).map fun x => 1 / (shift_state C B n lam m k).pert * x := by
    refine huniq _ _ hylen (by rw [List.length_map, hulen]) fun i hin => ?_
    rw [hyrow i hin, tri_row_map_mul, tri_row_shifted _ _ _ _ i (by rw [hd]; exact hin),
      tri_row_map_mul, heigen i hin, getD_map_mul]
    field_simp
    ring
  rw [hy] at hsol
  have hwlen : ((v.map fun x => 1 / B.dnrm2 n v * x).map
      fun x => 1 / (shift_state C B n lam m k).pert * x).length = n.toNat := by
    rw [List.length_map, hulen]
  have hwnrm : B.dnrm2 n ((v.map fun x => 1 / B.dnrm2 n v * x).map
      fun x => 1 / (shift_state C B n lam m k).pert * x) = 1 / (shift_state C B n lam m k).pert := by
    rw [nrm_map_mul B n hnrm _ (by positivity) _ hulen, hunrm, mul_one]
  refine ⟨?_, ?_, ?_⟩
  · rw [hsol]; exact hinfo
  · show 1 / B.dnrm2 n (solve B n (count (loop_entry C B n lam m k))).eig =
      (shift_state C B n lam m k).pert
    rw [hsol]
    show 1 / B.dnrm2 n ((v.map fun x => 1 / B.dnrm2 n v * x).map
      fun x => 1 / (shift_state C B n lam m k).pert * x) = _
    rw [hwnrm]
    field_simp
  · show B.dscal n (1 / B.dnrm2 n (solve B n (count (loop_entry C B n lam m k))).eig)
      (solve B n (count (loop_entry C B n lam m k))).eig = _
    rw [hsol]
    show B.dscal n (1 / B.dnrm2 n ((v.map fun x => 1 / B.dnrm2 n v * x).map
      fun x => 1 / (shift_state C B n lam m k).pert * x))
      ((v.map fun x => 1 / B.dnrm2 n v * x).map
        fun x => 1 / (shift_state C B n lam m k).pert * x) = _
    rw [hwnrm, hs, dscal_full n _ _ hwlen, map_mul_mul, map_mul_mul]
    apply List.map_congr_left
    intro x _
    field_simp

/-- For `n = 1` the reference factorization and solve form an exact backend. -/
theorem exact_backend_1x1 (B : Backend F) (hf : B.dpttrf = dpttrf) (hslv : B.dpttrs = dpttrs) :
    exact_backend B 1 := by
  intro d e hd he hi
  obtain ⟨d0, rfl⟩ := List.length_eq_one.mp hd
  obtain rfl := List.length_eq_zero.mp he
  unfold exact_at
  rw [hf] at hi ⊢
  rw [hslv]
  have hd0 : 0 < d0 := by
    by_contra h
    have h' : d0 ≤ 0 := not_lt.mp h
    simp [dpttrf, pttrf_from, h'] at hi
  constructor
  · intro x y hx hy hrow
    obtain ⟨x0, rfl⟩ := List.length_eq_one.mp hx
    obtain ⟨y0, rfl⟩ := List.length_eq_one.mp hy
    have h := hrow 0 (by decide)
    simp [tri_row] at h
    rcases h with h | h
    · rw [h]
    · exact absurd h hd0.ne'
  · intro b hb
    obtain ⟨b0, rfl⟩ := List.length_eq_one.mp hb
    refine ⟨by simp [dpttrs], by simp [dpttrf, pttrf_from, dpttrs, ptts_forward, ptts_backward],
      fun i hin => ?_⟩
    obtain rfl : i = 0 := by
      have : i < 1 := hin
      omega
    simp [dpttrf, pttrf_from, dpttrs, ptts_forward, ptts_backward, tri_row]
    field_simp

/-- One pass of the inverse iteration on a unit eigenvector `u` of the factorized matrix
`(D, e)` for an eigenvalue `δ > 0`, with a backend exact at `(D, e)`: the solve succeeds,
`invnorm = δ`, and the normalised result is `u` again. -/
theorem eigen_pass (B : Backend F) (n : Int) (D e : List F) (s : State F) (u : List F) (δ : F)
    (hs : B.dscal = dscal)
    (hnrm : ∀ x, 0 ≤ B.dnrm2 n x ∧ B.dnrm2 n x ^ 2 = sumsq n x)
    (hex : exact_at B n D e)
    (hfac : s.diag_fac = (B.dpttrf n D e).1) (hofac : s.offdiag_fac = (B.dpttrf n D e).2.1)
    (hu : s.eig = u) (hulen : u.length = n.toNat) (hunrm : B.dnrm2 n u = 1)
    (heig : ∀ i, i < n.toNat → tri_row D e u i = δ * u.getD i 0) (hδ : 0 < δ) :
    (solve B n (count s)).info_fac = 0 ∧ (inv_iter B n s).invnorm = δ ∧
      (inv_iter B n s).eig = u := by
  obtain ⟨huniq, hsolve⟩ := hex
  have hsol : solve B n (count s) =
      { count s with
        eig := (B.dpttrs n s.diag_fac s.offdiag_fac s.eig).1
        info_fac := (B.dpttrs n s.diag_fac s.offdiag_fac s.eig).2 } := rfl
  rw [hfac, hofac, hu] at hsol
  obtain ⟨hinfo, hylen, hyrow⟩ := hsolve u hulen
  have hy : (B.dpttrs n (B.dpttrf n D e).1 (B.dpttrf n D e).2.1 u).1 =
      u.map fun x => 1 / δ * x := by
    refine huniq _ _ hylen (by rw [List.length_map, hulen]) fun i hin => ?_
    rw [hyrow i hin, tri_row_map_mul, heig i hin]
    field_simp
  rw [hy] at hsol
  have hwlen : (u.map fun x => 1 / δ * x).length = n.toNat := by
    rw [List.length_map, hulen]
  have hwnrm : B.dnrm2 n (u.map fun x => 1 / δ * x) = 1 / δ := by
    rw [nrm_map_mul B n hnrm _ (by positivity) _ hulen, hunrm, mul_one]
  refine ⟨?_, ?_, ?_⟩
  · rw [hsol]; exact hinfo
  · show 1 / B.dnrm2 n (solve B n (count s)).eig = δ
    rw [hsol]
    show 1 / B.dnrm2 n (u.map fun x => 1 / δ * x) = _
    rw [hwnrm]
    field_simp
  · show B.dscal n (1 / B.dnrm2 n (solve B n (count s)).eig) (solve B n (count s)).eig = _
    rw [hsol]
    show B.dscal n (1 / B.dnrm2 n (u.map fun x => 1 / δ * x)) (u.map fun x => 1 / δ * x) = _
    rw [hwnrm, hs, dscal_full n _ _ hwlen, map_mul_mul]
    conv_rhs => rw [← List.map_id u]
    apply List.map_congr_left
    intro x _
    simp only [id]
    field_simp

/-- Under the hypotheses of `eigen_pass` every pass reproduces `u` with `invnorm = δ`. -/
theorem eigen_passes (B : Backend F) (n : Int) (D e : List F) (s : State F) (u : List F) (δ : F)
    (hs : B.dscal = dscal)
    (hnrm : ∀ x, 0 ≤ B.dnrm2 n x ∧ B.dnrm2 n x ^ 2 = sumsq n x)
    (hex : exact_at B n D e)
    (hfac : s.diag_fac = (B.dpttrf n D e).1) (hofac : s.offdiag_fac = (B.dpttrf n D e).2.1)
    (hu : s.eig = u) (hulen : u.length = n.toNat) (hunrm : B.dnrm2 n u = 1)
    (heig : ∀ i, i < n.toNat → tri_row D e u i = δ * u.getD i 0) (hδ : 0 < δ) (k : Nat) :
    (inv_state B n s k).eig = u ∧ (solved B n s k).info_fac = 0 ∧
      (inv_state B n s (k + 1)).invnorm = δ := by
  have hk : (inv_state B n s k).eig = u := by
    induction k with
    | zero => exact hu
    | succ k ih =>
      obtain ⟨-, -, -, f4, f5, -⟩ := same_frame_inv_state B n s k
      rw [inv_state_succ]
      exact (eigen_pass B n D e _ u δ hs hnrm hex (f4.trans hfac) (f5.trans hofac) ih hulen hunrm
        heig hδ).2.2
  obtain ⟨-, -, -, f4, f5, -⟩ := same_frame_inv_state B n s k
  obtain ⟨p1, p2, -⟩ := eigen_pass B n D e _ u δ hs hnrm hex (f4.trans hfac) (f5.trans hofac) hk
    hulen hunrm heig hδ
  refine ⟨hk, p1, ?_⟩
  rw [inv_state_succ]
  exact p2

theorem shifted_reducible (q : F) :
    shifted_diag (-2 - q) [1, 2, -(7 / 4)] = [3 + q, 4 + q, 1 / 4 + q] := by
  show [1 - (-2 - q), 2 - (-2 - q), -(7 / 4) - (-2 - q)] = _
  congr 1
  · ring
  congr 1
  · ring
  congr 1
  ring

theorem pttrf_reducible (q : F) (hq : 0 < q) :
    dpttrf 3 [3 + q, 4 + q, 1 / 4 + q] [0, 1] =
      ([3 + q, 4 + q, 1 / 4 + q - 1 / (4 + q)], [0, 1 / (4 + q)], 0) := by
  have h1 : ¬ 3 + q ≤ 0 := by linarith
  have h2 : ¬ 4 + q ≤ 0 := by linarith
  have h3 : (4 + q)⁻¹ < 4⁻¹ + q := by
    rw [inv_lt_iff_one_lt_mul₀ (by linarith)]
    nlinarith
  have e3 : (3 : Int).toNat = 3 := rfl
  have e2 : ((3 : Int) - 1).toNat = 2 := rfl
  unfold dpttrf
  rw [e3, e2]
  simp only [List.take, List.drop, pttrf_from, h1, h2, if_false, zero_div, zero_mul, sub_zero,
    List.append_nil, mul_one]
  simp
  exact h3

theorem pttrf_reducible_zero :
    (dpttrf 3 [3, 4, (1 / 4 : F)] [0, 1]).2.2 = 3 := by
  have e3 : (3 : Int).toNat = 3 := rfl
  have e2 : ((3 : Int) - 1).toNat = 2 := rfl
  unfold dpttrf
  rw [e3, e2]
  norm_num [pttrf_from]

theorem dpttrs_three (d0 d1 d2 l0 l1 b0 b1 b2 : F) :
    dpttrs 3 [d0, d1, d2] [l0, l1] [b0, b1, b2] =
      ([b0 / d0 - ((b1 - b0 * l0) / d1 - (b2 - (b1 - b0 * l0) * l1) / d2 * l1) * l0,
        (b1 - b0 * l0) / d1 - (b2 - (b1 - b0 * l0) * l1) / d2 * l1,
        (b2 - (b1 - b0 * l0) * l1) / d2], 0) := rfl

/-- The reference solve with 3×3 factors `L·D·Lᵀ` (pivots `d`, multipliers `l`) solves the
system of the factorized matrix exactly. -/
theorem ldl_rows (d0 d1 d2 l0 l1 b0 b1 b2 : F) (h0 : d0 ≠ 0) (h1 : d1 ≠ 0) (h2 : d2 ≠ 0)
    (i : Nat) (hi : i < 3) :
    tri_row [d0, d1 + l0 * l0 * d0, d2 + l1 * l1 * d1] [l0 * d0, l1 * d1]
      (dpttrs 3 [d0, d1, d2] [l0, l1] [b0, b1, b2]).1 i = [b0, b1, b2].getD i 0 := by
  rw [dpttrs_three]
  have hi' : i = 0 ∨ i = 1 ∨ i = 2 := by omega
  rcases hi' with rfl | rfl | rfl
  · show d0 * (b0 / d0 - ((b1 - b0 * l0) / d1 - (b2 - (b1 - b0 * l0) * l1) / d2 * l1) * l0) + 0 +
      l0 * d0 * ((b1 - b0 * l0) / d1 - (b2 - (b1 - b0 * l0) * l1) / d2 * l1) = b0
    field_simp
    ring
  · show (d1 + l0 * l0 * d0) * ((b1 - b0 * l0) / d1 - (b2 - (b1 - b0 * l0) * l1) / d2 * l1) +
      l0 * d0 * (b0 / d0 - ((b1 - b0 * l0) / d1 - (b2 - (b1 - b0 * l0) * l1) / d2 * l1) * l0) +
      l1 * d1 * ((b2 - (b1 - b0 * l0) * l1) / d2) = b1
    field_simp
    ring
  · show (d2 + l1 * l1 * d1) * ((b2 - (b1 - b0 * l0) * l1) / d2) +
      l1 * d1 * ((b1 - b0 * l0) / d1 - (b2 - (b1 - b0 * l0) * l1) / d2 * l1) +
      0 * 0 = b2
    field_simp
    ring

/-- The reference solve is exact at the matrix of the reducible scenario shifted by `2 + q`. -/
theorem exact_at_reducible (B : Backend F) (hf : B.dpttrf = dpttrf) (hslv : B.dpttrs = dpttrs)
    (q : F) (hq : 0 < q) : exact_at B 3 [3 + q, 4 + q, 1 / 4 + q] [0, 1] := by
  unfold exact_at
  rw [hf, hslv, pttrf_reducible q hq]
  have e3 : (3 : Int).toNat = 3 := rfl
  have h3 : (3 : F) + q ≠ 0 := by linarith
  have h4 : (4 : F) + q ≠ 0 := by linarith
  have hdet : (4 + q) * (1 / 4 + q) - 1 ≠ 0 := by
    have : 0 < (4 + q) * (1 / 4 + q) - 1 := by nlinarith
    exact this.ne'
  have h5 : (1 : F) / 4 + q - 1 / (4 + q) ≠ 0 := by
    have : (1 / 4 + q - 1 / (4 + q)) * (4 + q) = (4 + q) * (1 / 4 + q) - 1 := by
      field_simp
      ring
    intro h
    rw [h, zero_mul] at this
    exact hdet this.symm
  constructor
  · intro x y hx hy hrow
    rw [e3] at hx hy hrow
    obtain ⟨x0, x1, x2, rfl⟩ := List.length_eq_three.mp hx
    obtain ⟨y0, y1, y2, rfl⟩ := List.length_eq_three.mp hy
    have r0 : (3 + q) * x0 + 0 + 0 * x1 = (3 + q) * y0 + 0 + 0 * y1 := hrow 0 (by decide)
    have r1 : (4 + q) * x1 + 0 * x0 + 1 * x2 = (4 + q) * y1 + 0 * y0 + 1 * y2 :=
      hrow 1 (by decide)
    have r2 : (1 / 4 + q) * x2 + 1 * x1 + 0 * 0 = (1 / 4 + q) * y2 + 1 * y1 + 0 * 0 :=
      hrow 2 (by decide)
    have h0 : x0 = y0 := by
      have : (3 + q) * (x0 - y0) = 0 := by linear_combination r0
      rcases mul_eq_zero.mp this with h | h
      · exact absurd h h3
      · exact sub_eq_zero.mp h
    have h1 : (x1 - y1) * ((4 + q) * (1 / 4 + q) - 1) = 0 := by
      linear_combination (1 / 4 + q) * r1 - r2
    have h1' : x1 = y1 := by
      rcases mul_eq_zero.mp h1 with h | h
      · exact sub_eq_zero.mp h
      · exact absurd h hdet
    have h2 : x2 = y2 := by
      rw [h1'] at r1
      linarith
    rw [h0, h1', h2]
  · intro b hb
    rw [e3] at hb ⊢
    obtain ⟨b0, b1, b2, rfl⟩ := List.length_eq_three.mp hb
    have hD : [3 + q, 4 + q, 1 / 4 + q] =
        [3 + q, 4 + q + 0 * 0 * (3 + q),
          1 / 4 + q - 1 / (4 + q) + 1 / (4 + q) * (1 / (4 + q)) * (4 + q)] := by
      congr 1
      congr 1
      · ring
      congr 1
      field_simp
      ring
    have hE : [(0 : F), 1] = [0 * (3 + q), 1 / (4 + q) * (4 + q)] := by
      congr 1
      · ring
      congr 1
      field_simp
    refine ⟨rfl, rfl, fun i hi => ?_⟩
    rw [hD, hE]
    exact ldl_rows _ _ _ _ _ _ _ _ h3 h4 h5 i hi

/-- The vector with which the loop is entered is the start vector scaled to unit norm. -/
theorem loop_entry_unit (C : Consts F) (B : Backend F) (n : Int) (lam_init : F) (m : State F)
    (k : Nat) (hs : B.dscal = dscal)
    (hnrm : ∀ x, 0 ≤ B.dnrm2 n x ∧ B.dnrm2 n x ^ 2 = sumsq n x)
    (heg : m.eig.length = n.toNat) (hne : sumsq n m.eig ≠ 0) :
    (loop_entry C B n lam_init m k).eig = m.eig.map (fun x => 1 / B.dnrm2 n m.eig * x) ∧
    B.dnrm2 n (m.eig.map fun x => 1 / B.dnrm2 n m.eig * x) = 1 := by
  have hnu : 0 < B.dnrm2 n m.eig := by
    rcases (hnrm m.eig).1.lt_or_eq with h | h
    · exact h
    · exact absurd (by rw [← (hnrm m.eig).2, ← h]; ring) hne
  constructor
  · show (normalize B n (accepted C B n lam_init m k)).eig = _
    rw [normalize_eig]
    have hacc_eig : (accepted C B n lam_init m k).eig = m.eig := shift_state_eig C B n lam_init m k
    rw [hacc_eig, hs, dscal_full n _ _ heg]
  · rw [nrm_map_mul B n hnrm _ (by positivity) _ heg]
    field_simp

/-- In the reducible scenario every attempt factorizes the matrix with diagonal
`(3 + pert, 4 + pert, 1/4 + pert)` and off-diagonal `(0, 1)`. -/
theorem factor_attempt_reducible (C : Consts F) (B : Backend F) (m : State F)
    (hc : B.dcopy = dcopy) (ha : B.daxpy = daxpy) (hf : B.dpttrf = dpttrf)
    (hm : well_sized 3 m) (hdiag : m.diag = [1, 2, -(7 / 4)]) (hoff : m.offdiag = [0, 1])
    (k : Nat) :
    (factor_attempt B 3 (shift_state C B 3 (-2) m k)).diag_fac =
      (B.dpttrf 3 [3 + (shift_state C B 3 (-2) m k).pert, 4 + (shift_state C B 3 (-2) m k).pert,
        1 / 4 + (shift_state C B 3 (-2) m k).pert] [0, 1]).1 ∧
    (factor_attempt B 3 (shift_state C B 3 (-2) m k)).offdiag_fac =
      (B.dpttrf 3 [3 + (shift_state C B 3 (-2) m k).pert, 4 + (shift_state C B 3 (-2) m k).pert,
        1 / 4 + (shift_state C B 3 (-2) m k).pert] [0, 1]).2.1 ∧
    (factor_attempt B 3 (shift_state C B 3 (-2) m k)).info_fac =
      (B.dpttrf 3 [3 + (shift_state C B 3 (-2) m k).pert, 4 + (shift_state C B 3 (-2) m k).pert,
        1 / 4 + (shift_state C B 3 (-2) m k).pert] [0, 1]).2.2 := by
  obtain ⟨e1, e2, e3⟩ := factor_attempt_std B 3 (shift_state C B 3 (-2) m k) hc ha
    (well_sized_shift_state C B 3 (-2) m hc ha (dpttrf_in_place B hf 3) hm k)
  have hneg : -(shift_state C B 3 (-2) m k).minuslam = -2 - (shift_state C B 3 (-2) m k).pert := by
    rw [shift_state_minuslam]; ring
  rw [hneg, shift_state_diag, shift_state_offdiag, hdiag, hoff, shifted_reducible] at e1 e2 e3
  exact ⟨e1, e2, e3⟩

/-- In the reducible scenario with `lam_init = -2` the factorization fails at `pert = 0`
(the shifted matrix is singular) and succeeds at the first perturbation
`2·TRLIB_EPS_POW_4`. -/
theorem accepts_reducible (C : Consts F) (B : Backend F) (m : State F)
    (h0 : 0 < C.TRLIB_EPS_POW_4) (hg : 2 * C.TRLIB_EPS_POW_4 ≤ 1 / C.TRLIB_EPS)
    (hc : B.dcopy = dcopy) (ha : B.daxpy = daxpy) (hf : B.dpttrf = dpttrf)
    (hm : well_sized 3 m) (hdiag : m.diag = [1, 2, -(7 / 4)]) (hoff : m.offdiag = [0, 1]) :
    accepts C B 3 (-2) m 1 ∧ (shift_state C B 3 (-2) m 1).pert = 2 * C.TRLIB_EPS_POW_4 := by
  have hp1 : (shift_state C B 3 (-2) m 1).pert = 2 * C.TRLIB_EPS_POW_4 := by
    rw [shift_state_pert_succ, neg_neg, max_eq_right (by norm_num : (1 : F) ≤ 2)]
    ring
  refine ⟨⟨fun j hj => ?_, ?_, ?_⟩, hp1⟩
  · obtain rfl : j = 0 := by omega
    constructor
    · show (0 : F) ≤ _
      linarith
    · rw [(factor_attempt_reducible C B m hc ha hf hm hdiag hoff 0).2.2, hf]
      have hz : (shift_state C B 3 (-2) m 0).pert = 0 := rfl
      rw [hz, add_zero, add_zero, add_zero, pttrf_reducible_zero]
      decide
  · rw [hp1]; exact hg
  · rw [(factor_attempt_reducible C B m hc ha hf hm hdiag hoff 1).2.2, hf,
      pttrf_reducible _ (by rw [hp1]; linarith)]

/-- In the reducible scenario a start vector that is an eigenvector of the matrix for the
eigenvalue `mu > lam_pert` is reproduced by every pass, with `invnorm = mu - lam_pert`. -/
theorem reducible_passes (C : Consts F) (B : Backend F) (m : State F)
    (h0 : 0 < C.TRLIB_EPS_POW_4)
    (hc : B.dcopy = dcopy) (ha : B.daxpy = daxpy) (hf : B.dpttrf = dpttrf)
    (hslv : B.dpttrs = dpttrs) (hs : B.dscal = dscal)
    (hnrm : ∀ x, 0 ≤ B.dnrm2 3 x ∧ B.dnrm2 3 x ^ 2 = sumsq 3 x)
    (hm : well_sized 3 m) (hdiag : m.diag = [1, 2, -(7 / 4)]) (hoff : m.offdiag = [0, 1])
    (hne : sumsq 3 m.eig ≠ 0) (δ : F) (hδ : 0 < δ)
    (heig : ∀ i, i < 3 → tri_row [3 + 2 * C.TRLIB_EPS_POW_4, 4 + 2 * C.TRLIB_EPS_POW_4,
      1 / 4 + 2 * C.TRLIB_EPS_POW_4] [0, 1] m.eig i = δ * m.eig.getD i 0) (k : Nat) :
    (inv_state B 3 (loop_entry C B 3 (-2) m 1) k).eig =
      m.eig.map (fun x => 1 / B.dnrm2 3 m.eig * x) ∧
    (solved B 3 (loop_entry C B 3 (-2) m 1) k).info_fac = 0 ∧
    (inv_state B 3 (loop_entry C B 3 (-2) m 1) (k + 1)).invnorm = δ := by
  have hp1 : (shift_state C B 3 (-2) m 1).pert = 2 * C.TRLIB_EPS_POW_4 := by
    rw [shift_state_pert_succ, neg_neg, max_eq_right (by norm_num : (1 : F) ≤ 2)]
    ring
  obtain ⟨e1, e2, -⟩ := factor_attempt_reducible C B m hc ha hf hm hdiag hoff 1
  rw [hp1] at e1 e2
  obtain ⟨hu, hunrm⟩ := loop_entry_unit C B 3 (-2) m 1 hs hnrm hm.2.2.2.2.2 hne
  have e1' : (loop_entry C B 3 (-2) m 1).diag_fac = _ := e1
  have e2' : (loop_entry C B 3 (-2) m 1).offdiag_fac = _ := e2
  refine eigen_passes B 3 _ _ (loop_entry C B 3 (-2) m 1) _ δ hs hnrm
    (exact_at_reducible B hf hslv (2 * C.TRLIB_EPS_POW_4) (by linarith)) e1' e2' hu
    (by rw [List.length_map]; exact hm.2.2.2.2.2) hunrm (fun i hi => ?_) hδ k
  rw [tri_row_map_mul, getD_map_mul, heig i hi]
  ring

theorem reducible_rows_upper (q : F) (i : Nat) (hi : i < 3) :
    tri_row [3 + q, 4 + q, 1 / 4 + q] [0, 1] [0, 4, 1] i = (17 / 4 + q) * [0, 4, 1].getD i 0 := by
  have hi' : i = 0 ∨ i = 1 ∨ i = 2 := by omega
  rcases hi' with rfl | rfl | rfl
  · show (3 + q) * 0 + 0 + 0 * 4 = (17 / 4 + q) * 0
    ring
  · show (4 + q) * 4 + 0 * 0 + 1 * 1 = (17 / 4 + q) * 4
    ring
  · show (1 / 4 + q) * 1 + 1 * 4 + 0 * 0 = (17 / 4 + q) * 1
    ring

theorem reducible_rows_lower (q c : F) (i : Nat) (hi : i < 3) :
    tri_row [3 + q, 4 + q, 1 / 4 + q] [0, 1] [0, c, -(4 * c)] i =
      q * [0, c, -(4 * c)].getD i 0 := by
  have hi' : i = 0 ∨ i = 1 ∨ i = 2 := by omega
  rcases hi' with rfl | rfl | rfl
  · show (3 + q) * 0 + 0 + 0 * c = q * 0
    ring
  · show (4 + q) * c + 0 * 0 + 1 * -(4 * c) = q * c
    ring
  · show (1 / 4 + q) * -(4 * c) + 1 * c + 0 * 0 = q * -(4 * c)
    ring

/-! ## Helpers for the exhausted budget and the failed shift search -/

/-- The reference solve always reports success. -/
theorem dpttrs_info (n : Int) (d e b : List F) : (dpttrs n d e b).2 = 0 := by
  unfold dpttrs
  split <;> rfl

/-- On the 1×1 matrix `(1)` with `lam_init = 0` the unperturbed factorization succeeds. -/
theorem accepts_unperturbed (B : Backend F) (x : F) (hc : B.dcopy = dcopy)
    (ha : B.daxpy = daxpy) (hf : B.dpttrf = dpttrf) :
    accepts (consts_of (1 / 2 ^ 52) (1 / 2 ^ 13)) B 1 0 (mem_of 1 x) 0 := by
  have e0 : shift_state (consts_of (1 / 2 ^ 52) (1 / 2 ^ 13)) B 1 0 (mem_of 1 x) 0 =
      entry (consts_of (1 / 2 ^ 52) (1 / 2 ^ 13)) 0 (mem_of 1 x) := rfl
  refine ⟨fun j hj => absurd hj (Nat.not_lt_zero _), ?_, ?_⟩
  · rw [e0]
    norm_num [entry, consts_of]
  · rw [e0]
    norm_num [entry, mem_of, consts_of, hc, ha, hf, factor_attempt, dcopy, daxpy,
      dpttrf, pttrf_from]

/-- The first pass on the 1×1 matrix `(1)` from the start vector `(1)`: `invnorm = 1`. -/
theorem unperturbed_first_invnorm :
    (inv_state (reference_backend rat_nrm2) 1
      (loop_entry (consts_of (1 / 2 ^ 52 : ℚ) (1 / 2 ^ 13)) (reference_backend rat_nrm2) 1 0
        (mem_of 1 1) 0) 1).invnorm = 1 := by
  rw [inv_state_succ, inv_state_zero]
  norm_num [inv_iter, normalize, solve, count, loop_entry, accepted, store_lam_pert, shift_state,
    entry, mem_of, consts_of, reference_backend, factor_attempt, dcopy, daxpy, dpttrf, pttrf_from,
    dpttrs, ptts_forward, ptts_backward, dscal, rat_nrm2, sumsq]

/-- A failed pass of the shift loop leaves in the factor buffers what the factorization
attempt wrote. -/
theorem shift_iter_factors (C : Consts F) (B : Backend F) (n : Int) (lam_init : F)
    (s : State F) :
    (shift_iter C B n lam_init s).diag_fac = (factor_attempt B n s).diag_fac ∧
      (shift_iter C B n lam_init s).offdiag_fac = (factor_attempt B n s).offdiag_fac :=
  ⟨rfl, rfl⟩

/-! ## Positive definite matrices -/

theorem list_sum_map_getD (f : F → F) : ∀ l : List F,
    (l.map f).sum = Finset.sum (Finset.range l.length) fun i => f (l.getD i 0)
  | [] => rfl
  | a :: l => by
    rw [List.map_cons, List.sum_cons, List.length_cons, Finset.sum_range_succ',
      list_sum_map_getD f l, add_comm]
    rfl

theorem sumsq_eq_sum (n : Int) (x : List F) (hx : x.length = n.toNat) :
    sumsq n x = Finset.sum (Finset.range n.toNat) fun i => x.getD i 0 ^ 2 := by
  unfold sumsq
  rw [List.take_of_length_le hx.le, list_sum_map_getD, hx]
  exact Finset.sum_congr rfl fun i _ => (sq _).symm

/-- The solution `y` of `T·y = x` for a unit vector `x` and a matrix `T` whose eigenvalues
are at least `mu` is not zero and satisfies `mu ≤ 1/‖y‖`. -/
theorem pd_bound (n : Int) (d e : List F) (mu : F)
    (hpd : rayleigh_bound n d e mu) (x y : List F) (hx : x.length = n.toNat)
    (hy : y.length = n.toNat) (hunit : sumsq n x = 1)
    (hrow : ∀ i, i < n.toNat → tri_row d e y i = x.getD i 0) (ν : F) (hν : 0 ≤ ν)
    (hνy : ν ^ 2 = sumsq n y) : 0 < ν ∧ mu ≤ 1 / ν := by
  have hq : quad_form n d e y =
      Finset.sum (Finset.range n.toNat) fun i => y.getD i 0 * x.getD i 0 := by
    unfold quad_form
    exact Finset.sum_congr rfl fun i hi => by rw [hrow i (Finset.mem_range.mp hi)]
  have h1 := hpd y hy
  rw [hq] at h1
  have h2 := Finset.sum_mul_sq_le_sq_mul_sq (Finset.range n.toNat) (fun i => y.getD i 0)
    (fun i => x.getD i 0)
  rw [← sumsq_eq_sum n y hy, ← sumsq_eq_sum n x hx, hunit, mul_one, ← hνy] at h2
  have hpos : 0 < ν := by
    rcases hν.lt_or_eq with h | h
    · exact h
    · exfalso
      have hs0 : sumsq n y = 0 := by rw [← hνy, ← h]; ring
      rw [sumsq_eq_sum n y hy] at hs0
      have hz := (Finset.sum_eq_zero_iff_of_nonneg fun i _ => sq_nonneg (y.getD i 0)).mp hs0
      have hy0 : ∀ j, y.getD j 0 = 0 := by
        intro j
        rcases lt_or_le j n.toNat with hj | hj
        · exact pow_eq_zero_iff (two_ne_zero) |>.mp (hz j (Finset.mem_range.mpr hj))
        · exact List.getD_eq_default _ _ (hy.le.trans hj)
      have hx0 : ∀ i, i < n.toNat → x.getD i 0 = 0 := by
        intro i hi
        rw [← hrow i hi]
        unfold tri_row
        rw [hy0, hy0, hy0]
        split_ifs <;> ring
      have : sumsq n x = 0 := by
        rw [sumsq_eq_sum n x hx]
        exact Finset.sum_eq_zero fun i hi => by rw [hx0 i (Finset.mem_range.mp hi)]; ring
      rw [hunit] at this
      exact one_ne_zero this
  refine ⟨hpos, ?_⟩
  have h3 : Finset.sum (Finset.range n.toNat) (fun i => y.getD i 0 * x.getD i 0) ≤ ν :=
    le_trans (le_abs_self _) (abs_le_of_sq_le_sq h2 hν)
  rw [← hνy] at h1
  rw [le_div_iff₀ hpos]
  have h4 : mu * ν * ν ≤ 1 * ν := by nlinarith
  exact le_of_mul_le_mul_right h4 hpos

/-- One pass of the inverse iteration on a unit vector, with a backend exact at the
factorized matrix `(D, e)` whose eigenvalues are at least `mu`: the solve succeeds,
`mu ≤ invnorm`, and the normalised result is a unit vector again. -/
theorem pd_pass (B : Backend F) (n : Int) (D e : List F) (s : State F) (mu : F)
    (hs : B.dscal = dscal)
    (hnrm : ∀ x, 0 ≤ B.dnrm2 n x ∧ B.dnrm2 n x ^ 2 = sumsq n x)
    (hex : exact_at B n D e)
    (hfac : s.diag_fac = (B.dpttrf n D e).1) (hofac : s.offdiag_fac = (B.dpttrf n D e).2.1)
    (hlen : s.eig.length = n.toNat) (hunit : sumsq n s.eig = 1)
    (hpd : rayleigh_bound n D e mu) :
    (solve B n (count s)).info_fac = 0 ∧ mu ≤ (inv_iter B n s).invnorm ∧
      (inv_iter B n s).eig.length = n.toNat ∧ sumsq n (inv_iter B n s).eig = 1 := by
  obtain ⟨-, hsolve⟩ := hex
  obtain ⟨hinfo, hylen, hyrow⟩ := hsolve s.eig hlen
  have hsy : (solve B n (count s)).eig =
      (B.dpttrs n (B.dpttrf n D e).1 (B.dpttrf n D e).2.1 s.eig).1 := by
    show (B.dpttrs n s.diag_fac s.offdiag_fac s.eig).1 = _
    rw [hfac, hofac]
  have hsi : (solve B n (count s)).info_fac = 0 := by
    show (B.dpttrs n s.diag_fac s.offdiag_fac s.eig).2 = 0
    rw [hfac, hofac]
    exact hinfo
  obtain ⟨hpos, hbound⟩ := pd_bound n D e mu hpd s.eig _ hlen hylen hunit hyrow
    (B.dnrm2 n (B.dpttrs n (B.dpttrf n D e).1 (B.dpttrf n D e).2.1 s.eig).1) (hnrm _).1 (hnrm _).2
  have hne : sumsq n (solve B n (count s)).eig ≠ 0 := by
    rw [hsy, ← (hnrm _).2]
    exact (pow_pos hpos 2).ne'
  refine ⟨hsi, ?_, ?_, sumsq_normalize B n _ hs (hnrm _).2 hne⟩
  · show mu ≤ 1 / B.dnrm2 n (solve B n (count s)).eig
    rw [hsy]
    exact hbound
  · show (normalize B n (solve B n (count s))).eig.length = _
    rw [normalize_eig, hs, hsy, dscal_full n _ _ hylen, List.length_map, hylen]

/-- Under the hypotheses of `pd_pass` every solve succeeds and every pass has
`mu ≤ invnorm`. -/
theorem pd_passes (B : Backend F) (n : Int) (D e : List F) (s : State F) (mu : F)
    (hs : B.dscal = dscal)
    (hnrm : ∀ x, 0 ≤ B.dnrm2 n x ∧ B.dnrm2 n x ^ 2 = sumsq n x)
    (hex : exact_at B n D e)
    (hfac : s.diag_fac = (B.dpttrf n D e).1) (hofac : s.offdiag_fac = (B.dpttrf n D e).2.1)
    (hlen : s.eig.length = n.toNat) (hunit : sumsq n s.eig = 1)
    (hpd : rayleigh_bound n D e mu) (k : Nat) :
    (solved B n s k).info_fac = 0 ∧ mu ≤ (inv_state B n s (k + 1)).invnorm := by
  have hk : (inv_state B n s k).eig.length = n.toNat ∧ sumsq n (inv_state B n s k).eig = 1 := by
    induction k with
    | zero => exact ⟨hlen, hunit⟩
    | succ k ih =>
      obtain ⟨-, -, -, f4, f5, -⟩ := same_frame_inv_state B n s k
      rw [inv_state_succ]
      exact (pd_pass B n D e _ mu hs hnrm hex (f4.trans hfac) (f5.trans hofac) ih.1 ih.2 hpd).2.2
  obtain ⟨-, -, -, f4, f5, -⟩ := same_frame_inv_state B n s k
  obtain ⟨p1, p2, -⟩ := pd_pass B n D e _ mu hs hnrm hex (f4.trans hfac) (f5.trans hofac)
    hk.1 hk.2 hpd
  refine ⟨p1, ?_⟩
  rw [inv_state_succ]
  exact p2

/-- When every pass up to `itmax` continues, the routine returns `ITMAX` from the pass after
them. -/
theorem exhausted_run (C : Consts F) (B : Backend F) (n : Int) (lam_init : F) (itmax : Int)
    (tol_abs : F) (m : State F) (a : Nat) (hacc : accepts C B n lam_init m a)
    (hff : C.TRLIB_EIR_FAIL_FACTOR ≠ 0)
    (hcont : ∀ j, j < itmax.toNat →
      pass_continues B n itmax tol_abs (inv_state B n (loop_entry C B n lam_init m a) j))
    (fuel : Nat) (hfuel : max (a + 1) (itmax.toNat + 1) ≤ fuel) :
    trlib_eigen_inverse C B fuel n lam_init itmax tol_abs m =
      some (C.TRLIB_EIR_ITMAX,
        count (inv_state B n (loop_entry C B n lam_init m a) itmax.toNat)) := by
  have hf1 : a < fuel := lt_of_lt_of_le (Nat.lt_succ_self _) (le_trans (le_max_left _ _) hfuel)
  have hf2 : itmax.toNat + 1 ≤ fuel := le_trans (le_max_right _ _) hfuel
  rw [trlib_eigen_inverse_of_accepts C B n lam_init itmax tol_abs m a hacc hff fuel hf1]
  obtain ⟨f, rfl⟩ : ∃ f, fuel = f + 1 + itmax.toNat := ⟨fuel - (itmax.toNat + 1), by omega⟩
  rw [inverse_iteration_skip C B n itmax tol_abs itmax.toNat (f + 1) _ hcont,
    inverse_iteration_succ]
  have hlt : itmax < (inv_state B n (loop_entry C B n lam_init m a) itmax.toNat).iter_inv + 1 := by
    rw [inv_state_entry_iter_inv]
    omega
  rw [if_pos hlt]

/-! ## Scaling the start vector -/

/-- The shift search neither reads nor writes `eig`. -/
theorem shift_search_with_eig (C : Consts F) (B : Backend F) (n : Int) (lam_init : F)
    (x : List F) : ∀ (fuel : Nat) (s : State F),
      shift_search C B n lam_init fuel (with_eig x s) =
        (shift_search C B n lam_init fuel s).map (with_eig x)
  | 0, _ => rfl
  | fuel + 1, s => by
    rw [shift_search, shift_search]
    by_cases hg : s.pert ≤ 1 / C.TRLIB_EPS
    · have hg' : (with_eig x s).pert ≤ 1 / C.TRLIB_EPS := hg
      rw [if_pos hg, if_pos hg']
      by_cases hi : (factor_attempt B n s).info_fac = 0
      · have hi' : (factor_attempt B n (with_eig x s)).info_fac = 0 := hi
        rw [if_pos hi, if_pos hi']
        rfl
      · have hi' : ¬ (factor_attempt B n (with_eig x s)).info_fac = 0 := hi
        rw [if_neg hi, if_neg hi']
        exact shift_search_with_eig C B n lam_init x fuel
          (perturb C lam_init (factor_attempt B n s))
    · have hg' : ¬ (with_eig x s).pert ≤ 1 / C.TRLIB_EPS := hg
      rw [if_neg hg, if_neg hg']
      rfl

/-- The shift search returns with `eig` as it found it. -/
theorem shift_search_eig (C : Consts F) (B : Backend F) (n : Int) (lam_init : F)
    (fuel : Nat) (s r : State F) (h : shift_search C B n lam_init fuel s = some r) :
    r.eig = s.eig := by
  have h1 := shift_search_with_eig C B n lam_init s.eig fuel s
  have h2 : with_eig s.eig s = s := rfl
  rw [h2, h] at h1
  have h3 : r = with_eig s.eig r := Option.some.inj h1
  rw [h3]
  rfl

/-- The inverse iteration overwrites `invnorm` before reading it: its value on entry
affects at most the value of `invnorm` at return. -/
theorem inverse_iteration_with_invnorm (C : Consts F) (B : Backend F) (n : Int) (itmax : Int)
    (tol_abs : F) (a : F) (fuel : Nat) (s : State F) (code : Int) (r : State F)
    (h : inverse_iteration C B n itmax tol_abs fuel s = some (code, r)) :
    ∃ r', inverse_iteration C B n itmax tol_abs fuel (with_invnorm a s) = some (code, r') ∧
      (r' = r ∨ r' = with_invnorm a r) := by
  cases fuel with
  | zero => exact absurd h (by simp [inverse_iteration])
  | succ fuel =>
    rw [inverse_iteration_succ] at h ⊢
    have e1 : (with_invnorm a s).iter_inv = s.iter_inv := rfl
    have e2 : solve B n (count (with_invnorm a s)) = with_invnorm a (solve B n (count s)) := rfl
    have e3 : inv_iter B n (with_invnorm a s) = inv_iter B n s := rfl
    rw [e1, e2, e3]
    have e4 : (with_invnorm a (solve B n (count s))).info_fac = (solve B n (count s)).info_fac :=
      rfl
    rw [e4]
    by_cases h1 : itmax < s.iter_inv + 1
    · rw [if_pos h1] at h ⊢
      obtain ⟨rfl, rfl⟩ := Prod.mk.inj (Option.some.inj h)
      exact ⟨_, rfl, Or.inr rfl⟩
    · rw [if_neg h1] at h ⊢
      by_cases h2 : (solve B n (count s)).info_fac ≠ 0
      · rw [if_pos h2] at h ⊢
        obtain ⟨rfl, rfl⟩ := Prod.mk.inj (Option.some.inj h)
        exact ⟨_, rfl, Or.inr rfl⟩
      · rw [if_neg h2] at h ⊢
        exact ⟨r, h, Or.inl rfl⟩

/-- Normalising `c·x` for `c > 0` gives the same vector as normalising `x`. -/
theorem normalize_scaled (B : Backend F) (n : Int) (c : F) (s : State F) (hc : 0 < c)
    (hs : B.dscal = dscal)
    (hnrm : ∀ x, 0 ≤ B.dnrm2 n x ∧ B.dnrm2 n x ^ 2 = sumsq n x)
    (hlen : s.eig.length = n.toNat) :
    normalize B n (scaled c s) =
      with_invnorm (1 / B.dnrm2 n (s.eig.map fun x => c * x)) (normalize B n s) := by
  have he : B.dscal n (1 / B.dnrm2 n (s.eig.map fun x => c * x)) (s.eig.map fun x => c * x) =
      B.dscal n (1 / B.dnrm2 n s.eig) s.eig := by
    rw [hs, dscal_full n _ _ (by rw [List.length_map, hlen]), dscal_full n _ _ hlen,
      nrm_map_mul B n hnrm c hc.le _ hlen, map_mul_mul]
    have hk : 1 / (c * B.dnrm2 n s.eig) * c = 1 / B.dnrm2 n s.eig := by
      rw [one_div, mul_inv, one_div, mul_comm c⁻¹, mul_assoc, inv_mul_cancel₀ hc.ne', mul_one]
    rw [hk]
  show ({ scaled c s with
      invnorm := 1 / B.dnrm2 n (s.eig.map fun x => c * x)
      eig := B.dscal n (1 / B.dnrm2 n (s.eig.map fun x => c * x))
        (s.eig.map fun x => c * x) } : State F) = _
  rw [he]
  rfl

theorem sumsq_neg (n : Int) (x : List F) : sumsq n (x.map fun y => -y) = sumsq n x := by
  unfold sumsq
  rw [← List.map_take, List.map_map]
  apply congrArg
  apply List.map_congr_left
  intro y _
  simp only [Function.comp]
  ring

theorem dscal_neg (n : Int) (a : F) (x : List F) :
    dscal n a (x.map fun y => -y) = (dscal n a x).map fun y => -y := by
  unfold dscal
  rw [← List.map_take, ← List.map_drop, List.map_append, List.map_map, List.map_map]
  congr 1
  apply List.map_congr_left
  intro y _
  simp only [Function.comp]
  ring

theorem nrm_neg (B : Backend F) (n : Int)
    (hnrm : ∀ x, 0 ≤ B.dnrm2 n x ∧ B.dnrm2 n x ^ 2 = sumsq n x) (x : List F) :
    B.dnrm2 n (x.map fun y => -y) = B.dnrm2 n x := by
  rw [← sq_eq_sq₀ (hnrm _).1 (hnrm x).1, (hnrm _).2, (hnrm x).2, sumsq_neg]

theorem normalize_negated (B : Backend F) (n : Int) (s : State F) (hs : B.dscal = dscal)
    (hnrm : ∀ x, 0 ≤ B.dnrm2 n x ∧ B.dnrm2 n x ^ 2 = sumsq n x) :
    normalize B n (negated s) = negated (normalize B n s) := by
  have he : B.dscal n (1 / B.dnrm2 n (s.eig.map fun x => -x)) (s.eig.map fun x => -x) =
      (B.dscal n (1 / B.dnrm2 n s.eig) s.eig).map fun x => -x := by
    rw [nrm_neg B n hnrm, hs, dscal_neg]
  show ({ negated s with
      invnorm := 1 / B.dnrm2 n (s.eig.map fun x => -x)
      eig := B.dscal n (1 / B.dnrm2 n (s.eig.map fun x => -x)) (s.eig.map fun x => -x) } :
        State F) = _
  rw [he, nrm_neg B n hnrm]
  rfl

theorem solve_negated (B : Backend F) (n : Int) (s : State F) (hodd : odd_solve B n) :
    solve B n (negated s) = negated (solve B n s) := by
  show ({ negated s with
      eig := (B.dpttrs n s.diag_fac s.offdiag_fac (s.eig.map fun x => -x)).1
      info_fac := (B.dpttrs n s.diag_fac s.offdiag_fac (s.eig.map fun x => -x)).2 } :
        State F) = _
  rw [hodd]
  rfl

/-- With an odd solve the inverse iteration started from `-x` runs through the negated
states of the iteration started from `x`. -/
theorem inverse_iteration_negated (C : Consts F) (B : Backend F) (n : Int) (itmax : Int)
    (tol_abs : F) (hs : B.dscal = dscal)
    (hnrm : ∀ x, 0 ≤ B.dnrm2 n x ∧ B.dnrm2 n x ^ 2 = sumsq n x) (hodd : odd_solve B n) :
    ∀ (fuel : Nat) (s : State F),
      inverse_iteration C B n itmax tol_abs fuel (negated s) =
        (inverse_iteration C B n itmax tol_abs fuel s).map fun p => (p.1, negated p.2)
  | 0, _ => rfl
  | fuel + 1, s => by
    rw [inverse_iteration_succ, inverse_iteration_succ]
    have e1 : (negated s).iter_inv = s.iter_inv := rfl
    have e2 : solve B n (count (negated s)) = negated (solve B n (count s)) :=
      solve_negated B n (count s) hodd
    have e3 : inv_iter B n (negated s) = negated (inv_iter B n s) := by
      show normalize B n (solve B n (count (negated s))) = _
      rw [e2, normalize_negated B n _ hs hnrm]
      rfl
    rw [e1, e2, e3]
    have e4 : (negated (solve B n (count s))).info_fac = (solve B n (count s)).info_fac := rfl
    have e5 : (negated (inv_iter B n s)).invnorm = (inv_iter B n s).invnorm := rfl
    have e6 : (negated (inv_iter B n s)).pert = (inv_iter B n s).pert := rfl
    rw [e4, e5, e6]
    by_cases h1 : itmax < s.iter_inv + 1
    · rw [if_pos h1, if_pos h1]
      rfl
    · rw [if_neg h1, if_neg h1]
      by_cases h2 : (solve B n (count s)).info_fac ≠ 0
      · rw [if_pos h2, if_pos h2]
        rfl
      · rw [if_neg h2, if_neg h2]
        by_cases h3 : |(inv_iter B n s).invnorm - (inv_iter B n s).pert| ≤ tol_abs
        · rw [if_pos h3, if_pos h3]
          rfl
        · rw [if_neg h3, if_neg h3]
          exact inverse_iteration_negated C B n itmax tol_abs hs hnrm hodd fuel _

/-- With an odd solve, the run started from `-eig` returns the status of the run started
from `eig` and the same memory except that `eig` is negated. -/
theorem trlib_eigen_inverse_negated (C : Consts F) (B : Backend F) (n : Int) (lam_init : F)
    (itmax : Int) (tol_abs : F) (hs : B.dscal = dscal)
    (hnrm : ∀ x, 0 ≤ B.dnrm2 n x ∧ B.dnrm2 n x ^ 2 = sumsq n x) (hodd : odd_solve B n)
    (fuel : Nat) (m : State F) (code : Int) (r : State F)
    (h : trlib_eigen_inverse C B fuel n lam_init itmax tol_abs m = some (code, r)) :
    trlib_eigen_inverse C B fuel n lam_init itmax tol_abs (negated m) =
      some (code, negated r) := by
  have hss := shift_search_with_eig C B n lam_init (m.eig.map fun x => -x) fuel
    (entry C lam_init m)
  cases hsr : shift_search C B n lam_init fuel (entry C lam_init m) with
  | none =>
    unfold trlib_eigen_inverse at h
    rw [hsr] at h
    exact absurd h (by simp)
  | some s1 =>
    have h1 : s1.eig = m.eig := shift_search_eig C B n lam_init fuel (entry C lam_init m) s1 hsr
    have h2 : with_eig (m.eig.map fun x => -x) s1 = negated s1 := by
      unfold negated
      rw [h1]
    rw [hsr, Option.map_some', h2] at hss
    rw [trlib_eigen_inverse_eq C B n lam_init itmax tol_abs fuel m s1 hsr, after_search_eq] at h
    rw [trlib_eigen_inverse_eq C B n lam_init itmax tol_abs fuel (negated m) (negated s1) hss,
      after_search_eq]
    have e1 : (negated s1).iter_inv = s1.iter_inv := rfl
    have e2 : store_lam_pert (negated s1) = negated (store_lam_pert s1) := rfl
    rw [e1, e2]
    by_cases hff : s1.iter_inv = C.TRLIB_EIR_FAIL_FACTOR
    · rw [if_pos hff] at h ⊢
      obtain ⟨rfl, rfl⟩ := Prod.mk.inj (Option.some.inj h)
      rfl
    · rw [if_neg hff] at h ⊢
      rw [normalize_negated B n _ hs hnrm,
        inverse_iteration_negated C B n itmax tol_abs hs hnrm hodd, h]
      rfl

/-- The run started from `c·eig`, `c > 0`, returns the status of the run started from `eig`
and the same outputs, except that on the `FAIL_FACTOR` return of line 42 — taken before the
first normalisation — `eig` is returned as supplied. -/
theorem trlib_eigen_inverse_scaled (C : Consts F) (B : Backend F) (n : Int) (lam_init : F)
    (itmax : Int) (tol_abs : F) (c : F) (hc : 0 < c) (hs : B.dscal = dscal)
    (hnrm : ∀ x, 0 ≤ B.dnrm2 n x ∧ B.dnrm2 n x ^ 2 = sumsq n x)
    (fuel : Nat) (m : State F) (hlen : m.eig.length = n.toNat) (code : Int) (r : State F)
    (h : trlib_eigen_inverse C B fuel n lam_init itmax tol_abs m = some (code, r)) :
    ∃ r', trlib_eigen_inverse C B fuel n lam_init itmax tol_abs (scaled c m) = some (code, r') ∧
      r'.pert = r.pert ∧ r'.lam_pert = r.lam_pert ∧ r'.iter_inv = r.iter_inv ∧
      r'.diag_fac = r.diag_fac ∧ r'.offdiag_fac = r.offdiag_fac ∧
      (r'.eig = r.eig ∨
        (code = C.TRLIB_EIR_FAIL_FACTOR ∧ r.eig = m.eig ∧ r'.eig = (scaled c m).eig)) := by
  have hss := shift_search_with_eig C B n lam_init (m.eig.map fun x => c * x) fuel
    (entry C lam_init m)
  cases hsr : shift_search C B n lam_init fuel (entry C lam_init m) with
  | none =>
    unfold trlib_eigen_inverse at h
    rw [hsr] at h
    exact absurd h (by simp)
  | some s1 =>
    have h1 : s1.eig = m.eig := shift_search_eig C B n lam_init fuel (entry C lam_init m) s1 hsr
    have h2 : with_eig (m.eig.map fun x => c * x) s1 = scaled c s1 := by
      unfold scaled
      rw [h1]
    rw [hsr, Option.map_some', h2] at hss
    rw [trlib_eigen_inverse_eq C B n lam_init itmax tol_abs fuel m s1 hsr, after_search_eq] at h
    rw [trlib_eigen_inverse_eq C B n lam_init itmax tol_abs fuel (scaled c m) (scaled c s1) hss,
      after_search_eq]
    have e1 : (scaled c s1).iter_inv = s1.iter_inv := rfl
    have e2 : store_lam_pert (scaled c s1) = scaled c (store_lam_pert s1) := rfl
    rw [e1, e2]
    by_cases hff : s1.iter_inv = C.TRLIB_EIR_FAIL_FACTOR
    · rw [if_pos hff] at h ⊢
      obtain ⟨rfl, rfl⟩ := Prod.mk.inj (Option.some.inj h)
      refine ⟨_, rfl, rfl, rfl, rfl, rfl, rfl, Or.inr ⟨rfl, h1, ?_⟩⟩
      show s1.eig.map (fun x => c * x) = m.eig.map fun x => c * x
      rw [h1]
    · rw [if_neg hff] at h ⊢
      have hl : (store_lam_pert s1).eig.length = n.toNat := by
        show s1.eig.length = _
        rw [h1, hlen]
      rw [normalize_scaled B n c _ hc hs hnrm hl]
      obtain ⟨r', hr', hcase⟩ := inverse_iteration_with_invnorm C B n itmax tol_abs
        (1 / B.dnrm2 n ((store_lam_pert s1).eig.map fun x => c * x)) fuel _ code r h
      refine ⟨r', hr', ?_⟩
      rcases hcase with rfl | rfl
      · exact ⟨rfl, rfl, rfl, rfl, rfl, Or.inl rfl⟩
      · exact ⟨rfl, rfl, rfl, rfl, rfl, Or.inl rfl⟩

/-- When every attempted factorization fails and the loop condition fails at index `K`, the
routine returns `FAIL_FACTOR` with `eig` as supplied. -/
theorem rejected_run (C : Consts F) (B : Backend F) (n : Int) (lam_init : F) (itmax : Int)
    (tol_abs : F) (m : State F) (K fuel : Nat) (hK : K < fuel)
    (hall : ∀ j, (shift_state C B n lam_init m j).pert ≤ 1 / C.TRLIB_EPS →
      (factor_attempt B n (shift_state C B n lam_init m j)).info_fac ≠ 0)
    (hexit : ¬ (shift_state C B n lam_init m K).pert ≤ 1 / C.TRLIB_EPS) :
    ∃ r, trlib_eigen_inverse C B fuel n lam_init itmax tol_abs m =
        some (C.TRLIB_EIR_FAIL_FACTOR, r) ∧ r.eig = m.eig := by
  obtain ⟨s1, hs1⟩ := shift_search_some_of_exit C B n lam_init K fuel (entry C lam_init m) hK hexit
  rw [trlib_eigen_inverse_eq C B n lam_init itmax tol_abs fuel m s1 hs1, after_search_eq]
  obtain ⟨k, -, -, hlast⟩ := shift_search_spec C B n lam_init fuel _ _ hs1
  rcases hlast with ⟨hg, hi, -⟩ | ⟨-, rfl⟩
  · exact absurd hi (hall k hg)
  · rw [if_pos (show ((shift_iter C B n lam_init)^[k] (entry C lam_init m)).iter_inv =
      C.TRLIB_EIR_FAIL_FACTOR from shift_state_iter_inv C B n lam_init m k)]
    exact ⟨_, rfl, shift_state_eig C B n lam_init m k⟩

/-- For the 1×1 matrix `(0)` with `lam_init = 2^60` and `eps = 2⁻⁵²` every attempt the shift
search makes has the non-positive pivot `pert - 2^60` and fails. -/
theorem huge_shift_fails (B : Backend F) (x : F) (hc : B.dcopy = dcopy) (ha : B.daxpy = daxpy)
    (hf : B.dpttrf = dpttrf) (j : Nat)
    (hg : (shift_state (consts_of (1 / 2 ^ 52) (1 / 2 ^ 13)) B 1 (2 ^ 60) (mem_of 0 x) j).pert ≤
      1 / (consts_of (1 / 2 ^ 52 : F) (1 / 2 ^ 13)).TRLIB_EPS) :
    (factor_attempt B 1
      (shift_state (consts_of (1 / 2 ^ 52) (1 / 2 ^ 13)) B 1 (2 ^ 60) (mem_of 0 x) j)).info_fac ≠
        0 := by
  have hm : well_sized 1 (mem_of (0 : F) x) := ⟨rfl, rfl, rfl, rfl, rfl, rfl⟩
  obtain ⟨-, -, e3⟩ := factor_attempt_std B 1 _ hc ha
    (well_sized_shift_state (consts_of (1 / 2 ^ 52) (1 / 2 ^ 13)) B 1 (2 ^ 60) (mem_of 0 x) hc ha
      (dpttrf_in_place B hf 1) hm j)
  rw [e3, shift_state_minuslam, shift_state_diag, shift_state_offdiag, hf]
  have hp : (shift_state (consts_of (1 / 2 ^ 52) (1 / 2 ^ 13)) B 1 (2 ^ 60) (mem_of 0 x) j).pert ≤
      2 ^ 52 := by
    refine le_trans hg (le_of_eq ?_)
    norm_num [consts_of]
  have h2 : (2 : F) ^ 52 ≤ 2 ^ 60 := by norm_num
  generalize (shift_state (consts_of (1 / 2 ^ 52) (1 / 2 ^ 13)) B 1 (2 ^ 60)
    (mem_of 0 x) j).pert = p at hp ⊢
  simp [dpttrf, pttrf_from, shifted_diag, mem_of]
  linarith

/-- For `lam_init = 2^60` and `eps = 2⁻⁵²` the loop condition of the shift search fails at
index 22. -/
theorem huge_shift_exit (B : Backend F) (m : State F) :
    ¬ (shift_state (consts_of (1 / 2 ^ 52) (1 / 2 ^ 13)) B 1 (2 ^ 60) m 22).pert ≤
      1 / (consts_of (1 / 2 ^ 52 : F) (1 / 2 ^ 13)).TRLIB_EPS := by
  rw [shift_state_pert_succ]
  norm_num [consts_of]

theorem ptts_forward_neg : ∀ (b : List F) (prev : F) (e : List F),
    ptts_forward (-prev) e (b.map fun x => -x) = (ptts_forward prev e b).map fun x => -x
  | [], _, _ => by simp [ptts_forward]
  | b :: bs, prev, [] => by
    simp only [List.map_cons, ptts_forward]
    rw [ptts_forward_neg bs b []]
  | b :: bs, prev, e :: es => by
    simp only [List.map_cons, ptts_forward]
    rw [← ptts_forward_neg bs (b - prev * e) es]
    have h : -b - -prev * e = -(b - prev * e) := by ring
    rw [h]

theorem headD_neg (l : List F) : (l.map fun x => -x).headD 0 = -(l.headD 0) := by
  cases l with
  | nil => simp
  | cons a l => rfl

theorem ptts_backward_neg : ∀ (b d e : List F),
    ptts_backward d e (b.map fun x => -x) = (ptts_backward d e b).map fun x => -x
  | [], _, _ => by simp [ptts_backward]
  | b :: bs, [], _ => by simp [ptts_backward]
  | [b], d :: ds, _ => by
    simp only [List.map_cons, List.map_nil, ptts_backward]
    rw [neg_div]
  | b :: b2 :: bs, d :: ds, [] => by
    have ih := ptts_backward_neg (b2 :: bs) ds []
    simp only [List.map_cons] at ih ⊢
    simp only [ptts_backward, List.map_cons]
    rw [ih, neg_div]
  | b :: b2 :: bs, d :: ds, e :: es => by
    have ih := ptts_backward_neg (b2 :: bs) ds es
    simp only [List.map_cons] at ih ⊢
    simp only [ptts_backward, List.map_cons]
    rw [ih, headD_neg]
    congr 1
    ring

/-- The reference solve is odd in its right-hand side. -/
theorem dpttrs_odd (B : Backend F) (n : Int) (hslv : B.dpttrs = dpttrs) : odd_solve B n := by
  intro d e b
  rw [hslv]
  unfold dpttrs
  rw [← List.map_take]
  cases hb : b.take n.toNat with
  | nil => rfl
  | cons b1 bs =>
    simp only [List.map_cons]
    rw [ptts_forward_neg, ← List.map_cons, ptts_backward_neg, ← List.map_drop, List.map_append]

/-! ## Inverse iteration in the reducible scenario -/

/-- One pass of the inverse iteration on the unit vector `v/‖v‖`, with a backend exact at the
factorized matrix `(D, e)`, when `v'` solves `(D, e)·v' = c·v` with `c > 0`: the solve
succeeds, `invnorm = c·‖v‖/‖v'‖`, and the normalised result is `v'/‖v'‖`. -/
theorem exact_pass (B : Backend F) (n : Int) (D e : List F) (s : State F) (v v' : List F)
    (c : F) (hs : B.dscal = dscal)
    (hnrm : ∀ x, 0 ≤ B.dnrm2 n x ∧ B.dnrm2 n x ^ 2 = sumsq n x)
    (hex : exact_at B n D e)
    (hfac : s.diag_fac = (B.dpttrf n D e).1) (hofac : s.offdiag_fac = (B.dpttrf n D e).2.1)
    (hv : s.eig = v.map fun x => 1 / B.dnrm2 n v * x) (hvlen : v.length = n.toNat)
    (hvpos : 0 < B.dnrm2 n v) (hwlen : v'.length = n.toNat) (hwpos : 0 < B.dnrm2 n v')
    (hrow : ∀ i, i < n.toNat → tri_row D e v' i = c * v.getD i 0) (hc : 0 < c) :
    (solve B n (count s)).info_fac = 0 ∧
      (inv_iter B n s).invnorm = c * B.dnrm2 n v / B.dnrm2 n v' ∧
      (inv_iter B n s).eig = v'.map fun x => 1 / B.dnrm2 n v' * x := by
  obtain ⟨huniq, hsolve⟩ := hex
  have hsol : solve B n (count s) =
      { count s with
        eig := (B.dpttrs n s.diag_fac s.offdiag_fac s.eig).1
        info_fac := (B.dpttrs n s.diag_fac s.offdiag_fac s.eig).2 } := rfl
  rw [hfac, hofac, hv] at hsol
  have hulen : (v.map fun x => 1 / B.dnrm2 n v * x).length = n.toNat := by
    rw [List.length_map, hvlen]
  obtain ⟨hinfo, hylen, hyrow⟩ := hsolve _ hulen
  have hy : (B.dpttrs n (B.dpttrf n D e).1 (B.dpttrf n D e).2.1
      (v.map fun x => 1 / B.dnrm2 n v * x)).1 =
      v'.map fun x => 1 / (c * B.dnrm2 n v) * x := by
    refine huniq _ _ hylen (by rw [List.length_map, hwlen]) fun i hin => ?_
    rw [hyrow i hin, tri_row_map_mul, hrow i hin, getD_map_mul]
    field_simp
    ring
  rw [hy] at hsol
  have hzlen : (v'.map fun x => 1 / (c * B.dnrm2 n v) * x).length = n.toNat := by
    rw [List.length_map, hwlen]
  have hznrm : B.dnrm2 n (v'.map fun x => 1 / (c * B.dnrm2 n v) * x) =
      1 / (c * B.dnrm2 n v) * B.dnrm2 n v' :=
    nrm_map_mul B n hnrm _ (by positivity) _ hwlen
  refine ⟨?_, ?_, ?_⟩
  · rw [hsol]; exact hinfo
  · show 1 / B.dnrm2 n (solve B n (count s)).eig = _
    rw [hsol]
    show 1 / B.dnrm2 n (v'.map fun x => 1 / (c * B.dnrm2 n v) * x) = _
    rw [hznrm]
    field_simp
  · show B.dscal n (1 / B.dnrm2 n (solve B n (count s)).eig) (solve B n (count s)).eig = _
    rw [hsol]
    show B.dscal n (1 / B.dnrm2 n (v'.map fun x => 1 / (c * B.dnrm2 n v) * x))
      (v'.map fun x => 1 / (c * B.dnrm2 n v) * x) = _
    rw [hznrm, hs, dscal_full n _ _ hzlen, map_mul_mul]
    apply List.map_congr_left
    intro x _
    field_simp
    ring

theorem block_vec_rows (q p r : F) (i : Nat) (hi : i < 3) :
    tri_row [3 + q, 4 + q, 1 / 4 + q] [0, 1] (block_vec p r) i =
      (block_vec (q * p) ((17 / 4 + q) * r)).getD i 0 := by
  have hi' : i = 0 ∨ i = 1 ∨ i = 2 := by omega
  rcases hi' with rfl | rfl | rfl
  · show (3 + q) * 0 + 0 + 0 * (p + 4 * r) = 0
    ring
  · show (4 + q) * (p + 4 * r) + 0 * 0 + 1 * (-(4 * p) + r) = q * p + 4 * ((17 / 4 + q) * r)
    ring
  · show (1 / 4 + q) * (-(4 * p) + r) + 1 * (p + 4 * r) + 0 * 0 =
      -(4 * (q * p)) + (17 / 4 + q) * r
    ring

theorem block_vec_getD_mul (c p r : F) (i : Nat) (hi : i < 3) :
    (block_vec (c * p) (c * r)).getD i 0 = c * (block_vec p r).getD i 0 := by
  have hi' : i = 0 ∨ i = 1 ∨ i = 2 := by omega
  rcases hi' with rfl | rfl | rfl
  · show (0 : F) = c * 0
    ring
  · show c * p + 4 * (c * r) = c * (p + 4 * r)
    ring
  · show -(4 * (c * p)) + c * r = c * (-(4 * p) + r)
    ring

theorem sumsq_block_vec (p r : F) : sumsq 3 (block_vec p r) = 17 * (p * p + r * r) := by
  show 0 * 0 + ((p + 4 * r) * (p + 4 * r) + ((-(4 * p) + r) * (-(4 * p) + r) + 0)) = _
  ring

theorem block_vec_seed (x y : F) :
    block_vec ((x - 4 * y) / 17) ((4 * x + y) / 17) = [0, x, y] := by
  unfold block_vec
  congr 1
  congr 1
  · ring
  congr 1
  ring

theorem block_norm_pos (B : Backend F)
    (hnrm : ∀ x, 0 ≤ B.dnrm2 3 x ∧ B.dnrm2 3 x ^ 2 = sumsq 3 x) (p r : F) (hp : p ≠ 0) :
    0 < B.dnrm2 3 (block_vec p r) := by
  rcases (hnrm (block_vec p r)).1.lt_or_eq with h | h
  · exact h
  · exfalso
    have h2 := (hnrm (block_vec p r)).2
    rw [← h, sumsq_block_vec, zero_pow two_ne_zero] at h2
    have hpp : 0 < p * p := mul_self_pos.mpr hp
    have hrr : 0 ≤ r * r := mul_self_nonneg r
    linarith

/-- The gap between `invnorm` and the perturbation `q` after a pass that maps the direction
`P·u₁ + R·u₂` to `δ·P·u₁ + q·R·u₂`: `invnorm ≥ q`, and the gap is controlled by `R²/P²`. -/
theorem invnorm_gap (q δ P R I : F) (hq : 0 < q) (hδ : q < δ) (hP : P ≠ 0) (hI0 : 0 ≤ I)
    (hI : I ^ 2 * (δ * P * (δ * P) + q * R * (q * R)) = q ^ 2 * δ ^ 2 * (P * P + R * R)) :
    q ≤ I ∧ (I - q) * (P * P) ≤ q * (R * R) := by
  have hδ0 : 0 < δ := lt_trans hq hδ
  have hPP : 0 < P * P := mul_self_pos.mpr hP
  have hRR : 0 ≤ R * R := mul_self_nonneg R
  have hX : (I ^ 2 - q ^ 2) * (δ * P * (δ * P) + q * R * (q * R)) =
      q ^ 2 * (R * R) * (δ ^ 2 - q ^ 2) := by
    rw [sub_mul, hI]
    ring
  have hdq : 0 < δ ^ 2 - q ^ 2 := by
    have he : δ ^ 2 - q ^ 2 = (δ - q) * (δ + q) := by ring
    rw [he]
    exact mul_pos (sub_pos.mpr hδ) (add_pos hδ0 hq)
  have hlow : δ ^ 2 * (P * P) ≤ δ * P * (δ * P) + q * R * (q * R) := by
    have hnn : 0 ≤ q * R * (q * R) := mul_self_nonneg _
    have he : δ * P * (δ * P) = δ ^ 2 * (P * P) := by ring
    linarith
  have hD : 0 < δ * P * (δ * P) + q * R * (q * R) :=
    lt_of_lt_of_le (mul_pos (pow_pos hδ0 2) hPP) hlow
  have hXnn : 0 ≤ I ^ 2 - q ^ 2 := by
    by_contra h
    have hneg : (I ^ 2 - q ^ 2) * (δ * P * (δ * P) + q * R * (q * R)) < 0 :=
      mul_neg_of_neg_of_pos (not_le.mp h) hD
    rw [hX] at hneg
    have : 0 ≤ q ^ 2 * (R * R) * (δ ^ 2 - q ^ 2) :=
      mul_nonneg (mul_nonneg (pow_pos hq 2).le hRR) hdq.le
    exact absurd hneg (not_lt.mpr this)
  have hqI : q ≤ I := by
    by_contra h
    have hlt : I ^ 2 < q ^ 2 := pow_lt_pow_left₀ (not_le.mp h) hI0 two_ne_zero
    linarith
  refine ⟨hqI, ?_⟩
  have h1 : (I ^ 2 - q ^ 2) * (δ ^ 2 * (P * P)) ≤ q ^ 2 * (R * R) * δ ^ 2 := by
    calc (I ^ 2 - q ^ 2) * (δ ^ 2 * (P * P))
        ≤ (I ^ 2 - q ^ 2) * (δ * P * (δ * P) + q * R * (q * R)) :=
          mul_le_mul_of_nonneg_left hlow hXnn
      _ = q ^ 2 * (R * R) * (δ ^ 2 - q ^ 2) := hX
      _ ≤ q ^ 2 * (R * R) * δ ^ 2 := by
          have hle : δ ^ 2 - q ^ 2 ≤ δ ^ 2 := by
            have := sq_nonneg q
            linarith
          exact mul_le_mul_of_nonneg_left hle (mul_nonneg (pow_pos hq 2).le hRR)
  have h2 : (I ^ 2 - q ^ 2) * (P * P) ≤ q ^ 2 * (R * R) := by
    have hδ2 : (0 : F) < δ ^ 2 := pow_pos hδ0 2
    have : (I ^ 2 - q ^ 2) * (P * P) * δ ^ 2 ≤ q ^ 2 * (R * R) * δ ^ 2 := by
      calc (I ^ 2 - q ^ 2) * (P * P) * δ ^ 2
          = (I ^ 2 - q ^ 2) * (δ ^ 2 * (P * P)) := by ring
        _ ≤ q ^ 2 * (R * R) * δ ^ 2 := h1
    exact le_of_mul_le_mul_right this hδ2
  have h3 : (I - q) * q ≤ I ^ 2 - q ^ 2 := by
    have hnn : 0 ≤ (I - q) * I := mul_nonneg (sub_nonneg.mpr hqI) hI0
    have he : I ^ 2 - q ^ 2 - (I - q) * q = (I - q) * I := by ring
    linarith
  have h4 : (I - q) * (P * P) * q ≤ q * (R * R) * q := by
    calc (I - q) * (P * P) * q = (I - q) * q * (P * P) := by ring
      _ ≤ (I ^ 2 - q ^ 2) * (P * P) := mul_le_mul_of_nonneg_right h3 hPP.le
      _ ≤ q ^ 2 * (R * R) := h2
      _ = q * (R * R) * q := by ring
  exact le_of_mul_le_mul_right h4 hq

/-- If the solves of iterations `1, …, k0 + 1` succeed and the test holds at iteration
`k0 + 1 ≤ itmax`, the routine returns `CONV` from an iteration up to `k0 + 1`. -/
theorem conv_of_test (C : Consts F) (B : Backend F) (n : Int) (lam_init : F) (itmax : Int)
    (tol_abs : F) (m : State F) (a : Nat) (hacc : accepts C B n lam_init m a)
    (hff : C.TRLIB_EIR_FAIL_FACTOR ≠ 0) (k0 : Nat) (hk : ((k0 + 1 : Nat) : Int) ≤ itmax)
    (hsolves : ∀ j, j ≤ k0 → (solved B n (loop_entry C B n lam_init m a) j).info_fac = 0)
    (htest : |(inv_state B n (loop_entry C B n lam_init m a) (k0 + 1)).invnorm -
      (shift_state C B n lam_init m a).pert| ≤ tol_abs)
    (fuel : Nat) (hfuel : max (a + 1) (itmax.toNat + 1) ≤ fuel) :
    ∃ r, trlib_eigen_inverse C B fuel n lam_init itmax tol_abs m =
        some (C.TRLIB_EIR_CONV, r) ∧
      1 ≤ r.iter_inv ∧ r.iter_inv ≤ ((k0 + 1 : Nat) : Int) ∧
      r.pert = (shift_state C B n lam_init m a).pert ∧
      r.lam_pert = lam_init - (shift_state C B n lam_init m a).pert := by
  obtain ⟨code, r, hrun, k, hcont, hlast⟩ :=
    trlib_eigen_inverse_loop C B n lam_init itmax tol_abs m a hacc hff fuel hfuel
  have hfr := same_frame_trans (same_frame_inv_state B n (loop_entry C B n lam_init m a) k)
    (last_pass_frame C B n itmax tol_abs _ code r hlast)
  have hkk : k ≤ k0 := by
    by_contra h
    have h3 := (hcont k0 (not_le.mp h)).2.2
    rw [← inv_state_succ, inv_state_entry_pert] at h3
    exact h3 htest
  have hkk' : ((k + 1 : Nat) : Int) ≤ ((k0 + 1 : Nat) : Int) := by
    exact_mod_cast Nat.succ_le_succ hkk
  rcases hlast with ⟨hlt, -, -⟩ | ⟨-, hs, -, -⟩ | ⟨-, -, -, hcode, hr⟩
  · rw [inv_state_entry_iter_inv] at hlt
    push_cast at hkk' hk
    omega
  · exact absurd (hsolves k hkk) hs
  · rw [hcode] at hrun
    refine ⟨r, hrun, ?_, ?_, ?_, ?_⟩
    · rw [hr, inv_iter_iter_inv, inv_state_entry_iter_inv]
      omega
    · rw [hr, inv_iter_iter_inv, inv_state_entry_iter_inv]
      push_cast at hkk' ⊢
      exact hkk'
    · rw [hfr.2.2.2.2.2.2.1, loop_entry_pert]
    · rw [hfr.2.2.2.2.2.1, loop_entry_lam_pert]

theorem block_iterate_zero (q a b : F) : block_iterate q a b 0 = block_vec a b := by
  unfold block_iterate
  rw [pow_zero, pow_zero, mul_one, mul_one]

theorem block_iterate_rows (q a b : F) (k i : Nat) (hi : i < 3) :
    tri_row [3 + q, 4 + q, 1 / 4 + q] [0, 1] (block_iterate q a b (k + 1)) i =
      q * (17 / 4 + q) * (block_iterate q a b k).getD i 0 := by
  unfold block_iterate
  rw [block_vec_rows q _ _ i hi]
  have e1 : q * (a * (17 / 4 + q) ^ (k + 1)) = q * (17 / 4 + q) * (a * (17 / 4 + q) ^ k) := by
    ring
  have e2 : (17 / 4 + q) * (b * q ^ (k + 1)) = q * (17 / 4 + q) * (b * q ^ k) := by ring
  rw [e1, e2, block_vec_getD_mul _ _ _ i hi]

/-- In the reducible scenario with the reference solve and the Euclidean norm, a start vector
`a·(0, 1, -4) + b·(0, 4, 1)` with `a ≠ 0`: after `k` passes `eig` is the normalised
`block_iterate`, every solve succeeds, and `invnorm` of pass `k + 1` is
`q·(17/4 + q)·‖w_k‖/‖w_{k+1}‖` with `q = pert`. -/
theorem reducible_iterates (C : Consts F) (B : Backend F) (m : State F)
    (h0 : 0 < C.TRLIB_EPS_POW_4)
    (hc : B.dcopy = dcopy) (ha : B.daxpy = daxpy) (hf : B.dpttrf = dpttrf)
    (hslv : B.dpttrs = dpttrs) (hs : B.dscal = dscal)
    (hnrm : ∀ x, 0 ≤ B.dnrm2 3 x ∧ B.dnrm2 3 x ^ 2 = sumsq 3 x)
    (hm : well_sized 3 m) (hdiag : m.diag = [1, 2, -(7 / 4)]) (hoff : m.offdiag = [0, 1])
    (a b : F) (ha0 : a ≠ 0) (hseed : m.eig = block_vec a b) (k : Nat) :
    (inv_state B 3 (loop_entry C B 3 (-2) m 1) k).eig =
      (block_iterate (2 * C.TRLIB_EPS_POW_4) a b k).map
        (fun x => 1 / B.dnrm2 3 (block_iterate (2 * C.TRLIB_EPS_POW_4) a b k) * x) ∧
    (solved B 3 (loop_entry C B 3 (-2) m 1) k).info_fac = 0 ∧
    (inv_state B 3 (loop_entry C B 3 (-2) m 1) (k + 1)).invnorm =
      2 * C.TRLIB_EPS_POW_4 * (17 / 4 + 2 * C.TRLIB_EPS_POW_4) *
        B.dnrm2 3 (block_iterate (2 * C.TRLIB_EPS_POW_4) a b k) /
        B.dnrm2 3 (block_iterate (2 * C.TRLIB_EPS_POW_4) a b (k + 1)) := by
  have hq : 0 < 2 * C.TRLIB_EPS_POW_4 := by linarith
  have hδ : 0 < 17 / 4 + 2 * C.TRLIB_EPS_POW_4 := by linarith
  have hp1 : (shift_state C B 3 (-2) m 1).pert = 2 * C.TRLIB_EPS_POW_4 := by
    rw [shift_state_pert_succ, neg_neg, max_eq_right (by norm_num : (1 : F) ≤ 2)]
    ring
  obtain ⟨e1, e2, -⟩ := factor_attempt_reducible C B m hc ha hf hm hdiag hoff 1
  rw [hp1] at e1 e2
  have hne : sumsq 3 m.eig ≠ 0 := by
    rw [hseed, sumsq_block_vec]
    have hpp : 0 < a * a := mul_self_pos.mpr ha0
    have hrr : 0 ≤ b * b := mul_self_nonneg b
    exact (by linarith : 0 < 17 * (a * a + b * b)).ne'
  obtain ⟨hu, -⟩ := loop_entry_unit C B 3 (-2) m 1 hs hnrm hm.2.2.2.2.2 hne
  rw [hseed, ← block_iterate_zero (2 * C.TRLIB_EPS_POW_4) a b] at hu
  have e1' : (loop_entry C B 3 (-2) m 1).diag_fac = _ := e1
  have e2' : (loop_entry C B 3 (-2) m 1).offdiag_fac = _ := e2
  have hpos : ∀ j, 0 < B.dnrm2 3 (block_iterate (2 * C.TRLIB_EPS_POW_4) a b j) := fun j =>
    block_norm_pos B hnrm _ _ (mul_ne_zero ha0 (pow_ne_zero _ hδ.ne'))
  have hex := exact_at_reducible B hf hslv (2 * C.TRLIB_EPS_POW_4) hq
  have hstep : ∀ j (s : State F),
      s.diag_fac = (loop_entry C B 3 (-2) m 1).diag_fac →
      s.offdiag_fac = (loop_entry C B 3 (-2) m 1).offdiag_fac →
      s.eig = (block_iterate (2 * C.TRLIB_EPS_POW_4) a b j).map
        (fun x => 1 / B.dnrm2 3 (block_iterate (2 * C.TRLIB_EPS_POW_4) a b j) * x) →
      (solve B 3 (count s)).info_fac = 0 ∧
      (inv_iter B 3 s).invnorm =
        2 * C.TRLIB_EPS_POW_4 * (17 / 4 + 2 * C.TRLIB_EPS_POW_4) *
          B.dnrm2 3 (block_iterate (2 * C.TRLIB_EPS_POW_4) a b j) /
          B.dnrm2 3 (block_iterate (2 * C.TRLIB_EPS_POW_4) a b (j + 1)) ∧
      (inv_iter B 3 s).eig = (block_iterate (2 * C.TRLIB_EPS_POW_4) a b (j + 1)).map
        (fun x => 1 / B.dnrm2 3 (block_iterate (2 * C.TRLIB_EPS_POW_4) a b (j + 1)) * x) :=
    fun j s f4 f5 hse =>
      exact_pass B 3 _ _ s _ _ _ hs hnrm hex (f4.trans e1') (f5.trans e2') hse rfl (hpos j) rfl
        (hpos (j + 1)) (block_iterate_rows _ a b j) (mul_pos hq hδ)
  have hk : (inv_state B 3 (loop_entry C B 3 (-2) m 1) k).eig =
      (block_iterate (2 * C.TRLIB_EPS_POW_4) a b k).map
        (fun x => 1 / B.dnrm2 3 (block_iterate (2 * C.TRLIB_EPS_POW_4) a b k) * x) := by
    induction k with
    | zero => exact hu
    | succ k ih =>
      obtain ⟨-, -, -, f4, f5, -⟩ := same_frame_inv_state B 3 (loop_entry C B 3 (-2) m 1) k
      rw [inv_state_succ]
      exact (hstep k _ f4 f5 ih).2.2
  obtain ⟨-, -, -, f4, f5, -⟩ := same_frame_inv_state B 3 (loop_entry C B 3 (-2) m 1) k
  obtain ⟨p1, p2, -⟩ := hstep k _ f4 f5 hk
  refine ⟨hk, p1, ?_⟩
  rw [inv_state_succ]
  exact p2

/-- In the setting of `reducible_iterates`, the square of `invnorm` of pass `k + 1` in terms
of the two components of the iterate. -/
theorem reducible_invnorm_sq (C : Consts F) (B : Backend F) (m : State F)
    (h0 : 0 < C.TRLIB_EPS_POW_4)
    (hc : B.dcopy = dcopy) (ha : B.daxpy = daxpy) (hf : B.dpttrf = dpttrf)
    (hslv : B.dpttrs = dpttrs) (hs : B.dscal = dscal)
    (hnrm : ∀ x, 0 ≤ B.dnrm2 3 x ∧ B.dnrm2 3 x ^ 2 = sumsq 3 x)
    (hm : well_sized 3 m) (hdiag : m.diag = [1, 2, -(7 / 4)]) (hoff : m.offdiag = [0, 1])
    (a b : F) (ha0 : a ≠ 0) (hseed : m.eig = block_vec a b) (k : Nat) :
    0 ≤ (inv_state B 3 (loop_entry C B 3 (-2) m 1) (k + 1)).invnorm ∧
    (inv_state B 3 (loop_entry C B 3 (-2) m 1) (k + 1)).invnorm ^ 2 *
      ((17 / 4 + 2 * C.TRLIB_EPS_POW_4) * (a * (17 / 4 + 2 * C.TRLIB_EPS_POW_4) ^ k) *
          ((17 / 4 + 2 * C.TRLIB_EPS_POW_4) * (a * (17 / 4 + 2 * C.TRLIB_EPS_POW_4) ^ k)) +
        2 * C.TRLIB_EPS_POW_4 * (b * (2 * C.TRLIB_EPS_POW_4) ^ k) *
          (2 * C.TRLIB_EPS_POW_4 * (b * (2 * C.TRLIB_EPS_POW_4) ^ k))) =
      (2 * C.TRLIB_EPS_POW_4) ^ 2 * (17 / 4 + 2 * C.TRLIB_EPS_POW_4) ^ 2 *
        (a * (17 / 4 + 2 * C.TRLIB_EPS_POW_4) ^ k * (a * (17 / 4 + 2 * C.TRLIB_EPS_POW_4) ^ k) +
          b * (2 * C.TRLIB_EPS_POW_4) ^ k * (b * (2 * C.TRLIB_EPS_POW_4) ^ k)) := by
  have hq : 0 < 2 * C.TRLIB_EPS_POW_4 := by linarith
  have hδ : 0 < 17 / 4 + 2 * C.TRLIB_EPS_POW_4 := by linarith
  obtain ⟨-, -, hinv⟩ := reducible_iterates C B m h0 hc ha hf hslv hs hnrm hm hdiag hoff a b ha0
    hseed k
  have hpos : ∀ j, 0 < B.dnrm2 3 (block_iterate (2 * C.TRLIB_EPS_POW_4) a b j) := fun j =>
    block_norm_pos B hnrm _ _ (mul_ne_zero ha0 (pow_ne_zero _ hδ.ne'))
  have hN : B.dnrm2 3 (block_iterate (2 * C.TRLIB_EPS_POW_4) a b k) ^ 2 =
      17 * (a * (17 / 4 + 2 * C.TRLIB_EPS_POW_4) ^ k * (a * (17 / 4 + 2 * C.TRLIB_EPS_POW_4) ^ k) +
        b * (2 * C.TRLIB_EPS_POW_4) ^ k * (b * (2 * C.TRLIB_EPS_POW_4) ^ k)) := by
    rw [(hnrm _).2]
    exact sumsq_block_vec _ _
  have hN' : B.dnrm2 3 (block_iterate (2 * C.TRLIB_EPS_POW_4) a b (k + 1)) ^ 2 =
      17 * ((17 / 4 + 2 * C.TRLIB_EPS_POW_4) * (a * (17 / 4 + 2 * C.TRLIB_EPS_POW_4) ^ k) *
          ((17 / 4 + 2 * C.TRLIB_EPS_POW_4) * (a * (17 / 4 + 2 * C.TRLIB_EPS_POW_4) ^ k)) +
        2 * C.TRLIB_EPS_POW_4 * (b * (2 * C.TRLIB_EPS_POW_4) ^ k) *
          (2 * C.TRLIB_EPS_POW_4 * (b * (2 * C.TRLIB_EPS_POW_4) ^ k))) := by
    rw [(hnrm _).2]
    unfold block_iterate
    rw [sumsq_block_vec]
    ring
  have hI0 : 0 ≤ (inv_state B 3 (loop_entry C B 3 (-2) m 1) (k + 1)).invnorm := by
    rw [hinv]
    exact div_nonneg (mul_nonneg (mul_pos hq hδ).le (hpos k).le) (hpos (k + 1)).le
  have hI : (inv_state B 3 (loop_entry C B 3 (-2) m 1) (k + 1)).invnorm *
      B.dnrm2 3 (block_iterate (2 * C.TRLIB_EPS_POW_4) a b (k + 1)) =
      2 * C.TRLIB_EPS_POW_4 * (17 / 4 + 2 * C.TRLIB_EPS_POW_4) *
        B.dnrm2 3 (block_iterate (2 * C.TRLIB_EPS_POW_4) a b k) := by
    rw [hinv, div_mul_cancel₀ _ (hpos (k + 1)).ne']
  refine ⟨hI0, ?_⟩
  have hsq : (inv_state B 3 (loop_entry C B 3 (-2) m 1) (k + 1)).invnorm ^ 2 *
      B.dnrm2 3 (block_iterate (2 * C.TRLIB_EPS_POW_4) a b (k + 1)) ^ 2 =
      (2 * C.TRLIB_EPS_POW_4) ^ 2 * (17 / 4 + 2 * C.TRLIB_EPS_POW_4) ^ 2 *
        B.dnrm2 3 (block_iterate (2 * C.TRLIB_EPS_POW_4) a b k) ^ 2 := by
    rw [← mul_pow, hI, mul_pow, mul_pow]
  rw [hN, hN'] at hsq
  linear_combination (1 / 17) * hsq

/-- In the setting of `reducible_iterates`, `invnorm` of pass `k + 1` is at least `pert`, and
its distance to `pert` is controlled by the ratio of the two components of the iterate. -/
theorem reducible_gap (C : Consts F) (B : Backend F) (m : State F)
    (h0 : 0 < C.TRLIB_EPS_POW_4)
    (hc : B.dcopy = dcopy) (ha : B.daxpy = daxpy) (hf : B.dpttrf = dpttrf)
    (hslv : B.dpttrs = dpttrs) (hs : B.dscal = dscal)
    (hnrm : ∀ x, 0 ≤ B.dnrm2 3 x ∧ B.dnrm2 3 x ^ 2 = sumsq 3 x)
    (hm : well_sized 3 m) (hdiag : m.diag = [1, 2, -(7 / 4)]) (hoff : m.offdiag = [0, 1])
    (a b : F) (ha0 : a ≠ 0) (hseed : m.eig = block_vec a b) (k : Nat) :
    2 * C.TRLIB_EPS_POW_4 ≤ (inv_state B 3 (loop_entry C B 3 (-2) m 1) (k + 1)).invnorm ∧
    ((inv_state B 3 (loop_entry C B 3 (-2) m 1) (k + 1)).invnorm - 2 * C.TRLIB_EPS_POW_4) *
        (a * a * (17 / 4 + 2 * C.TRLIB_EPS_POW_4) ^ (2 * k)) ≤
      2 * C.TRLIB_EPS_POW_4 * (b * b) * (2 * C.TRLIB_EPS_POW_4) ^ (2 * k) := by
  have hq : 0 < 2 * C.TRLIB_EPS_POW_4 := by linarith
  have hδ : 0 < 17 / 4 + 2 * C.TRLIB_EPS_POW_4 := by linarith
  have hqδ : 2 * C.TRLIB_EPS_POW_4 < 17 / 4 + 2 * C.TRLIB_EPS_POW_4 := by linarith
  have hd : 0 < (17 / 4 + 2 * C.TRLIB_EPS_POW_4) ^ k := pow_pos hδ k
  obtain ⟨hI0, hI⟩ := reducible_invnorm_sq C B m h0 hc ha hf hslv hs hnrm hm hdiag hoff a b ha0
    hseed k
  obtain ⟨hge, hgap⟩ := invnorm_gap (2 * C.TRLIB_EPS_POW_4) (17 / 4 + 2 * C.TRLIB_EPS_POW_4)
    (a * (17 / 4 + 2 * C.TRLIB_EPS_POW_4) ^ k) (b * (2 * C.TRLIB_EPS_POW_4) ^ k) _ hq hqδ
    (mul_ne_zero ha0 hd.ne') hI0 hI
  refine ⟨hge, ?_⟩
  have e1 : a * a * (17 / 4 + 2 * C.TRLIB_EPS_POW_4) ^ (2 * k) =
      a * (17 / 4 + 2 * C.TRLIB_EPS_POW_4) ^ k * (a * (17 / 4 + 2 * C.TRLIB_EPS_POW_4) ^ k) := by
    ring
  have e2 : 2 * C.TRLIB_EPS_POW_4 * (b * b) * (2 * C.TRLIB_EPS_POW_4) ^ (2 * k) =
      2 * C.TRLIB_EPS_POW_4 *
        (b * (2 * C.TRLIB_EPS_POW_4) ^ k * (b * (2 * C.TRLIB_EPS_POW_4) ^ k)) := by
    ring
  rw [e1, e2]
  exact hgap

/-- Powers of a smaller positive number are eventually dominated: for `0 < q < δ`, `A > 0`,
`G ≥ 0` and `tol > 0` some `k` has `G·q^(2k) ≤ tol·A·δ^(2k)`. -/
theorem exists_power_bound [Archimedean F] (q δ tol A G : F) (hq : 0 < q) (hqδ : q < δ)
    (hA : 0 < A) (hG : 0 ≤ G) (htol : 0 < tol) :
    ∃ k : Nat, G * q ^ (2 * k) ≤ tol * A * δ ^ (2 * k) := by
  have hδ : 0 < δ := lt_trans hq hqδ
  have hden : 0 < G + 1 := by linarith
  have hε : 0 < tol * A / (G + 1) := div_pos (mul_pos htol hA) hden
  have hρ : q / δ < 1 := (div_lt_one hδ).mpr hqδ
  obtain ⟨k, hk⟩ := exists_pow_lt_of_lt_one hε hρ
  refine ⟨k, ?_⟩
  have hd : 0 < δ ^ k := pow_pos hδ k
  have hg : 0 ≤ q ^ k := (pow_pos hq k).le
  have hg1 : q ^ k ≤ tol * A / (G + 1) * δ ^ k := by
    rw [div_pow, div_lt_iff₀ hd] at hk
    exact hk.le
  have hg2 : q ^ k ≤ δ ^ k := pow_le_pow_left₀ hq.le hqδ.le k
  have hgg : q ^ k * q ^ k ≤ tol * A / (G + 1) * δ ^ k * δ ^ k :=
    mul_le_mul hg1 hg2 hg (mul_nonneg hε.le hd.le)
  have hεb : G * (tol * A / (G + 1)) ≤ tol * A := by
    have e : (G + 1) * (tol * A / (G + 1)) = tol * A := mul_div_cancel₀ _ hden.ne'
    have : 0 ≤ tol * A / (G + 1) := hε.le
    linarith
  have hdd : 0 ≤ δ ^ k * δ ^ k := (mul_pos hd hd).le
  calc G * q ^ (2 * k) = G * (q ^ k * q ^ k) := by rw [two_mul, pow_add]
    _ ≤ G * (tol * A / (G + 1) * δ ^ k * δ ^ k) := mul_le_mul_of_nonneg_left hgg hG
    _ = G * (tol * A / (G + 1)) * (δ ^ k * δ ^ k) := by ring
    _ ≤ tol * A * (δ ^ k * δ ^ k) := mul_le_mul_of_nonneg_right hεb hdd
    _ = tol * A * δ ^ (2 * k) := by rw [two_mul, pow_add]

theorem reducible_rows_other (q y : F) (i : Nat) (hi : i < 3) :
    tri_row [3 + q, 4 + q, 1 / 4 + q] [0, 1] [0, 4 * y, y] i =
      (17 / 4 + q) * [0, 4 * y, y].getD i 0 := by
  have hi' : i = 0 ∨ i = 1 ∨ i = 2 := by omega
  rcases hi' with rfl | rfl | rfl
  · show (3 + q) * 0 + 0 + 0 * (4 * y) = (17 / 4 + q) * 0
    ring
  · show (4 + q) * (4 * y) + 0 * 0 + 1 * y = (17 / 4 + q) * (4 * y)
    ring
  · show (1 / 4 + q) * y + 1 * (4 * y) + 0 * 0 = (17 / 4 + q) * y
    ring

/-! ## The norms of the sample run -/

theorem sample_start_norm : (reference_backend rat_nrm2).dnrm2 1 sample_mem.eig = 1 := by
  norm_num [reference_backend, rat_nrm2, sumsq, sample_mem]

/-- A pass of the sample run from a state with `eig = (1)` and the factor `(1/8192)`: the solve
returns `(8192)` and the normalised result is `(1)` again. -/
theorem sample_pass (s : State ℚ) (h1 : s.eig = [1]) (h2 : s.diag_fac = [1 / 8192])
    (h3 : s.offdiag_fac = []) :
    (solve (reference_backend rat_nrm2) 1 (count s)).eig = [8192] ∧
      (inv_iter (reference_backend rat_nrm2) 1 s).eig = [1] := by
  have hs : Nat.sqrt (Int.toNat 67108864) = 8192 := by
    rw [show Int.toNat 67108864 = 8192 * 8192 from rfl]
    exact Nat.sqrt_eq 8192
  have e : (solve (reference_backend rat_nrm2) 1 (count s)).eig = [8192] := by
    show (dpttrs 1 s.diag_fac s.offdiag_fac s.eig).1 = _
    rw [h1, h2, h3]
    norm_num [dpttrs, ptts_forward, ptts_backward]
  refine ⟨e, ?_⟩
  show dscal 1 (1 / rat_nrm2 1 (solve (reference_backend rat_nrm2) 1 (count s)).eig)
    (solve (reference_backend rat_nrm2) 1 (count s)).eig = _
  rw [e]
  norm_num [hs, rat_nrm2, sumsq, dscal]

theorem sample_solved_norm (j : Nat) :
    (reference_backend rat_nrm2).dnrm2 1 (solved (reference_backend rat_nrm2) 1
      (loop_entry sample_consts (reference_backend rat_nrm2) 1 0 sample_mem 1) j).eig = 8192 := by
  have hs : Nat.sqrt (Int.toNat 67108864) = 8192 := by
    rw [show Int.toNat 67108864 = 8192 * 8192 from rfl]
    exact Nat.sqrt_eq 8192
  have h0 : (loop_entry sample_consts (reference_backend rat_nrm2) 1 0 sample_mem 1).eig = [1] ∧
      (loop_entry sample_consts (reference_backend rat_nrm2) 1 0 sample_mem 1).diag_fac =
        [1 / 8192] ∧
      (loop_entry sample_consts (reference_backend rat_nrm2) 1 0 sample_mem 1).offdiag_fac =
        [] := by
    have e1 : shift_state sample_consts (reference_backend rat_nrm2) 1 0 sample_mem 1 =
        shift_iter sample_consts (reference_backend rat_nrm2) 1 0
          (entry sample_consts 0 sample_mem) := rfl
    refine ⟨?_, ?_, ?_⟩ <;>
    · unfold loop_entry accepted
      rw [e1]
      norm_num [normalize, store_lam_pert, shift_iter, perturb, entry, sample_mem,
        sample_consts, reference_backend, factor_attempt, dcopy, daxpy, dpttrf, pttrf_from,
        rat_nrm2, sumsq, dscal]
  have hk : (inv_state (reference_backend rat_nrm2) 1
      (loop_entry sample_consts (reference_backend rat_nrm2) 1 0 sample_mem 1) j).eig = [1] := by
    induction j with
    | zero => exact h0.1
    | succ j ih =>
      obtain ⟨-, -, -, f4, f5, -⟩ := same_frame_inv_state (reference_backend rat_nrm2) 1
        (loop_entry sample_consts (reference_backend rat_nrm2) 1 0 sample_mem 1) j
      rw [inv_state_succ]
      exact (sample_pass _ ih (f4.trans h0.2.1) (f5.trans h0.2.2)).2
  obtain ⟨-, -, -, f4, f5, -⟩ := same_frame_inv_state (reference_backend rat_nrm2) 1
    (loop_entry sample_consts (reference_backend rat_nrm2) 1 0 sample_mem 1) j
  have he := (sample_pass _ hk (f4.trans h0.2.1) (f5.trans h0.2.2)).1
  show rat_nrm2 1 (solve (reference_backend rat_nrm2) 1 (count (inv_state
    (reference_backend rat_nrm2) 1
    (loop_entry sample_consts (reference_backend rat_nrm2) 1 0 sample_mem 1) j))).eig = 8192
  rw [he]
  norm_num [hs, rat_nrm2, sumsq]

/-! ## Claims -/

/-- C1. The perturbations at which a factorization is attempted are, in order, `0`, then
`TRLIB_EPS_POW_4 * max 1 (-lam_init)`, then ten times the previous one; each attempt is
made at the shift `pert - lam_init`; the values of `pert` never decrease; the routine
returns, and the returned `pert` is the one of an attempt `k` before which every attempt
was made and failed and which, unless the outcome is `FAIL_FACTOR`, was made and
succeeded. -/
theorem pert_sequence [Archimedean F] (C : Consts F) (B : Backend F) (n : Int) (lam_init : F)
    (itmax : Int) (tol_abs : F) (m : State F) (h0 : 0 < C.TRLIB_EPS_POW_4) :
    (shift_state C B n lam_init m 0).pert = 0 ∧
    (shift_state C B n lam_init m 1).pert = C.TRLIB_EPS_POW_4 * max 1 (-lam_init) ∧
    (∀ j, 1 ≤ j → (shift_state C B n lam_init m (j + 1)).pert =
      10 * (shift_state C B n lam_init m j).pert) ∧
    (∀ j, (shift_state C B n lam_init m j).pert ≤ (shift_state C B n lam_init m (j + 1)).pert) ∧
    (∀ j, (shift_state C B n lam_init m j).minuslam =
      (shift_state C B n lam_init m j).pert - lam_init) ∧
    ∃ N : Nat, ∀ fuel, N ≤ fuel → ∃ code r k,
      trlib_eigen_inverse C B fuel n lam_init itmax tol_abs m = some (code, r) ∧
      r.pert = (shift_state C B n lam_init m k).pert ∧
      (∀ j, j < k → (shift_state C B n lam_init m j).pert ≤ 1 / C.TRLIB_EPS ∧
        (factor_attempt B n (shift_state C B n lam_init m j)).info_fac ≠ 0) ∧
      (code ≠ C.TRLIB_EIR_FAIL_FACTOR →
        (shift_state C B n lam_init m k).pert ≤ 1 / C.TRLIB_EPS ∧
        (factor_attempt B n (shift_state C B n lam_init m k)).info_fac = 0) := by
  have hb : 0 < C.TRLIB_EPS_POW_4 * max 1 (-lam_init) :=
    mul_pos h0 (lt_of_lt_of_le one_pos (le_max_left _ _))
  refine ⟨rfl, ?_, ?_, ?_, shift_state_minuslam C B n lam_init m, ?_⟩
  · rw [shift_state_pert_succ]; simp
  · intro j hj
    obtain ⟨i, rfl⟩ := Nat.exists_eq_succ_of_ne_zero (Nat.one_le_iff_ne_zero.mp hj)
    rw [shift_state_pert_succ, shift_state_pert_succ]
    ring
  · intro j
    cases j with
    | zero =>
      rw [shift_state_pert_succ]
      show (0 : F) ≤ _
      simpa using hb.le
    | succ i =>
      rw [shift_state_pert_succ, shift_state_pert_succ, pow_succ]
      have : 0 ≤ C.TRLIB_EPS_POW_4 * max 1 (-lam_init) * 10 ^ i :=
        mul_nonneg hb.le (pow_nonneg (by norm_num) _)
      linarith
  · obtain ⟨N, hN⟩ := trlib_eigen_inverse_some C B n lam_init itmax tol_abs h0 m
    refine ⟨N, fun fuel hfuel => ?_⟩
    obtain ⟨code, r, hrun⟩ := hN fuel hfuel
    obtain ⟨k, -, hp, hfail, hsucc⟩ :=
      trlib_eigen_inverse_pert C B n lam_init itmax tol_abs fuel m code r hrun
    exact ⟨code, r, k, hrun, hp, hfail, hsucc⟩


/-- An instance on `sample_mem` with `lam_init = 0`, `itmax = 3`, `tol_abs = 10⁻³`. -/
theorem pert_sequence_witness :
    (0 : ℚ) < sample_consts.TRLIB_EPS_POW_4 ∧
    (shift_state sample_consts (reference_backend rat_nrm2) 1 0 sample_mem 1).pert =
      sample_consts.TRLIB_EPS_POW_4 * max 1 (-0) ∧
    ∃ N : Nat, ∀ fuel, N ≤ fuel → ∃ code r k,
      trlib_eigen_inverse sample_consts (reference_backend rat_nrm2) fuel 1 0 3 (1 / 1000)
        sample_mem = some (code, r) ∧
      r.pert = (shift_state sample_consts (reference_backend rat_nrm2) 1 0 sample_mem k).pert :=
  have h0 : (0 : ℚ) < sample_consts.TRLIB_EPS_POW_4 := by norm_num [sample_consts]
  have h := pert_sequence sample_consts (reference_backend rat_nrm2) 1 0 3 (1 / 1000)
    sample_mem h0
  ⟨h0, h.2.1, h.2.2.2.2.2.imp fun _ hN fuel hf =>
    (hN fuel hf).imp fun _ hc => hc.imp fun _ hr => hr.imp fun _ hk => ⟨hk.1, hk.2.1⟩⟩

/-- The perturbations of the shift search increase strictly from one attempt to the next. -/
theorem shift_state_pert_strictMono (C : Consts F) (B : Backend F) (n : Int) (lam_init : F)
    (m : State F) (h0 : 0 < C.TRLIB_EPS_POW_4) :
    StrictMono fun j => (shift_state C B n lam_init m j).pert := by
  have hb : 0 < C.TRLIB_EPS_POW_4 * max 1 (-lam_init) :=
    mul_pos h0 (lt_of_lt_of_le one_pos (le_max_left _ _))
  refine strictMono_nat_of_lt_succ fun j => ?_
  cases j with
  | zero =>
    show (shift_state C B n lam_init m 0).pert < (shift_state C B n lam_init m 1).pert
    rw [shift_state_pert_succ]
    show (0 : F) < _
    simpa using hb
  | succ i =>
    show (shift_state C B n lam_init m (i + 1)).pert < (shift_state C B n lam_init m (i + 1 + 1)).pert
    rw [shift_state_pert_succ, shift_state_pert_succ, pow_succ]
    have : 0 < C.TRLIB_EPS_POW_4 * max 1 (-lam_init) * 10 ^ i :=
      mul_pos hb (pow_pos (by norm_num) _)
    linarith

theorem sample_shift_search :
    shift_search sample_consts (reference_backend rat_nrm2) 1 0 5 (entry sample_consts 0 sample_mem)
      = some {
          diag := [0], offdiag := [], ones := [1], diag_fac := [1 / 8192], offdiag_fac := [],
          eig := [1], lam_pert := 5, pert := 1 / 8192, iter_inv := 0, info_fac := 0,
          invnorm := 0, minuslam := 1 / 8192 } := by
  norm_num [shift_search, entry, sample_mem, sample_consts, reference_backend, factor_attempt,
    dcopy, daxpy, dpttrf, pttrf_from, perturb]

theorem sample_normalize :
    normalize (reference_backend rat_nrm2) 1 (store_lam_pert {
        diag := [0], offdiag := [], ones := [1], diag_fac := [1 / 8192], offdiag_fac := [],
        eig := [1], lam_pert := 5, pert := 1 / 8192, iter_inv := 0, info_fac := 0,
        invnorm := 0, minuslam := 1 / 8192 })
      = {
          diag := [0], offdiag := [], ones := [1], diag_fac := [1 / 8192], offdiag_fac := [],
          eig := [1], lam_pert := -(1 / 8192), pert := 1 / 8192, iter_inv := 0, info_fac := 0,
          invnorm := 1, minuslam := 1 / 8192 } := by
  norm_num [normalize, store_lam_pert, reference_backend, rat_nrm2, sumsq, dscal]

theorem sample_inverse_iteration :
    inverse_iteration sample_consts (reference_backend rat_nrm2) 1 3 (1 / 1000) 5 {
        diag := [0], offdiag := [], ones := [1], diag_fac := [1 / 8192], offdiag_fac := [],
        eig := [1], lam_pert := -(1 / 8192), pert := 1 / 8192, iter_inv := 0, info_fac := 0,
        invnorm := 1, minuslam := 1 / 8192 }
      = some (0, {
          diag := [0], offdiag := [], ones := [1], diag_fac := [1 / 8192], offdiag_fac := [],
          eig := [1], lam_pert := -(1 / 8192), pert := 1 / 8192, iter_inv := 1, info_fac := 0,
          invnorm := 1 / 8192, minuslam := 1 / 8192 }) := by
  have hs : Nat.sqrt (Int.toNat 67108864) = 8192 := by
    rw [show Int.toNat 67108864 = 8192 * 8192 from rfl]
    exact Nat.sqrt_eq 8192
  rw [inverse_iteration_succ]
  norm_num [hs, count, solve, inv_iter, normalize, reference_backend, dpttrs, ptts_forward,
    ptts_backward, rat_nrm2, sumsq, dscal, sample_consts]

/-- The run on `sample_mem` with `lam_init = 0`, `itmax = 3`, `tol_abs = 10⁻³`: the
factorization fails at `pert = 0`, succeeds at `pert = 2⁻¹³`, and the first iteration
converges. -/
theorem sample_run :
    trlib_eigen_inverse sample_consts (reference_backend rat_nrm2) 5 1 0 3 (1 / 1000) sample_mem
      = some (0, sample_final) := by
  rw [trlib_eigen_inverse_eq _ _ _ _ _ _ _ _ _ sample_shift_search, after_search_eq,
    if_neg (by norm_num [sample_consts]), sample_normalize, sample_inverse_iteration]
  rfl

/-- C2, refuted as stated. For the 1×1 matrix `(0)` and `lam_init = 0` the routine returns
`CONV` with `pert = 2⁻¹³`, although the factorization of `T - (lam_init - p)·I` also
succeeds for the smaller perturbation `p = 2⁻¹⁴`, which the search never tries. -/
theorem smallest_pert_counterexample :
    trlib_eigen_inverse sample_consts (reference_backend rat_nrm2) 5 1 0 3 (1 / 1000) sample_mem
      = some (0, sample_final) ∧
    (0 : Int) ≠ sample_consts.TRLIB_EIR_FAIL_FACTOR ∧
    sample_final.pert = 1 / 8192 ∧
    (0 : ℚ) ≤ 1 / 16384 ∧ (1 / 16384 : ℚ) < sample_final.pert ∧
    (factor_attempt (reference_backend rat_nrm2) 1
      { entry sample_consts 0 sample_mem with pert := 1 / 16384, minuslam := 1 / 16384 - 0 }).info_fac
      = 0 := by
  refine ⟨sample_run, ?_, rfl, ?_, ?_, ?_⟩
  · norm_num [sample_consts]
  · norm_num
  · norm_num [sample_final]
  · norm_num [entry, sample_mem, sample_consts, reference_backend, factor_attempt, dcopy, daxpy,
      dpttrf, pttrf_from]

/-- C2, amended. The routine returns, and when the outcome is not `FAIL_FACTOR` the
returned `pert` is the first value of the sequence `0, b, 10·b, 100·b, …`
(`b = TRLIB_EPS_POW_4 * max 1 (-lam_init)`) at which the factorization succeeds: it is the
perturbation of a successful attempt `k`, and at every value of the sequence below it the
factorization was attempted and failed. -/
theorem returned_pert_first_on_sequence [Archimedean F] (C : Consts F) (B : Backend F) (n : Int)
    (lam_init : F) (itmax : Int) (tol_abs : F) (m : State F) (h0 : 0 < C.TRLIB_EPS_POW_4) :
    ∃ N : Nat, ∀ fuel, N ≤ fuel → ∃ code r,
      trlib_eigen_inverse C B fuel n lam_init itmax tol_abs m = some (code, r) ∧
      (code ≠ C.TRLIB_EIR_FAIL_FACTOR →
        ∃ k : Nat, r.pert = (shift_state C B n lam_init m k).pert ∧
          (shift_state C B n lam_init m k).pert ≤ 1 / C.TRLIB_EPS ∧
          (factor_attempt B n (shift_state C B n lam_init m k)).info_fac = 0 ∧
          ∀ j, (shift_state C B n lam_init m j).pert < r.pert →
            (shift_state C B n lam_init m j).pert ≤ 1 / C.TRLIB_EPS ∧
            (factor_attempt B n (shift_state C B n lam_init m j)).info_fac ≠ 0) := by
  obtain ⟨N, hN⟩ := trlib_eigen_inverse_some C B n lam_init itmax tol_abs h0 m
  refine ⟨N, fun fuel hfuel => ?_⟩
  obtain ⟨code, r, hrun⟩ := hN fuel hfuel
  refine ⟨code, r, hrun, fun hcode => ?_⟩
  obtain ⟨k, -, hp, hfail, hsucc⟩ :=
    trlib_eigen_inverse_pert C B n lam_init itmax tol_abs fuel m code r hrun
  refine ⟨k, hp, (hsucc hcode).1, (hsucc hcode).2, fun j hj => hfail j ?_⟩
  rw [hp] at hj
  exact (shift_state_pert_strictMono C B n lam_init m h0).lt_iff_lt.mp hj

/-- An instance on `sample_mem` with `lam_init = 0`, `itmax = 3`, `tol_abs = 10⁻³`. -/
theorem returned_pert_first_on_sequence_witness :
    (0 : ℚ) < sample_consts.TRLIB_EPS_POW_4 ∧
    ∃ N : Nat, ∀ fuel, N ≤ fuel → ∃ code r,
      trlib_eigen_inverse sample_consts (reference_backend rat_nrm2) fuel 1 0 3 (1 / 1000)
        sample_mem = some (code, r) ∧
      (code ≠ sample_consts.TRLIB_EIR_FAIL_FACTOR →
        ∃ k : Nat,
          r.pert = (shift_state sample_consts (reference_backend rat_nrm2) 1 0 sample_mem k).pert ∧
          (factor_attempt (reference_backend rat_nrm2) 1
            (shift_state sample_consts (reference_backend rat_nrm2) 1 0 sample_mem k)).info_fac
              = 0) :=
  have h0 : (0 : ℚ) < sample_consts.TRLIB_EPS_POW_4 := by norm_num [sample_consts]
  ⟨h0, (returned_pert_first_on_sequence sample_consts (reference_backend rat_nrm2) 1 0 3
    (1 / 1000) sample_mem h0).imp fun _ hN fuel hf =>
      (hN fuel hf).imp fun _ hc => hc.imp fun _ hr =>
        ⟨hr.1, fun hcode => (hr.2 hcode).imp fun _ hk => ⟨hk.1, hk.2.2.1⟩⟩⟩

/-- C3. With `0 < eps < 1` and `TRLIB_EPS_POW_4 = eps^(1/4)` the routine returns for every
input and every backend. The shift search makes exactly the attempts `0, …, a - 1` — all
but possibly the last fail — with `a ≤ 2 + log₁₀(eps^(-5/4))`, and `a ≤ 21` for
`eps = 2⁻⁵²`. If no attempt with `pert ≤ 1/eps` succeeds, the routine returns `FAIL_FACTOR`
with `iter_inv` equal to that sentinel and `eig` untouched, and the result is the same
whatever the solve, norm and scaling primitives are: none of them is called. -/
theorem shift_search_terminates (C : Consts ℝ) (B : Backend ℝ) (n : Int) (lam_init : ℝ)
    (itmax : Int) (tol_abs : ℝ) (m : State ℝ)
    (heps0 : 0 < C.TRLIB_EPS) (heps1 : C.TRLIB_EPS < 1)
    (hpow : C.TRLIB_EPS_POW_4 = C.TRLIB_EPS ^ (1 / 4 : ℝ)) :
    ∃ N : Nat, ∀ fuel, N ≤ fuel → ∃ code r a,
      trlib_eigen_inverse C B fuel n lam_init itmax tol_abs m = some (code, r) ∧
      (∀ j, j < a → (shift_state C B n lam_init m j).pert ≤ 1 / C.TRLIB_EPS) ∧
      (∀ j, j + 1 < a → (factor_attempt B n (shift_state C B n lam_init m j)).info_fac ≠ 0) ∧
      ((1 ≤ a ∧ (factor_attempt B n (shift_state C B n lam_init m (a - 1))).info_fac = 0) ∨
        (¬ (shift_state C B n lam_init m a).pert ≤ 1 / C.TRLIB_EPS ∧
          ∀ j, j < a → (factor_attempt B n (shift_state C B n lam_init m j)).info_fac ≠ 0)) ∧
      (a : ℝ) ≤ 2 + Real.logb 10 (C.TRLIB_EPS ^ (-(5 / 4) : ℝ)) ∧
      (C.TRLIB_EPS = 1 / 2 ^ 52 → a ≤ 21) ∧
      ((∀ j, (shift_state C B n lam_init m j).pert ≤ 1 / C.TRLIB_EPS →
          (factor_attempt B n (shift_state C B n lam_init m j)).info_fac ≠ 0) →
        code = C.TRLIB_EIR_FAIL_FACTOR ∧ r.iter_inv = C.TRLIB_EIR_FAIL_FACTOR ∧
        r.eig = m.eig ∧
        ∀ slv nrm scl,
          trlib_eigen_inverse C { B with dpttrs := slv, dnrm2 := nrm, dscal := scl } fuel n
            lam_init itmax tol_abs m = some (code, r)) := by
  have h0 : 0 < C.TRLIB_EPS_POW_4 := by rw [hpow]; exact Real.rpow_pos_of_pos heps0 _
  have hlog : 0 ≤ Real.logb 10 (C.TRLIB_EPS ^ (-(5 / 4) : ℝ)) :=
    Real.logb_nonneg (by norm_num)
      (Real.one_le_rpow_of_pos_of_le_one_of_nonpos heps0 heps1.le (by norm_num))
  obtain ⟨N, hN⟩ := trlib_eigen_inverse_some C B n lam_init itmax tol_abs h0 m
  refine ⟨N, fun fuel hfuel => ?_⟩
  obtain ⟨code, r, hrun⟩ := hN fuel hfuel
  cases hs : shift_search C B n lam_init fuel (entry C lam_init m) with
  | none =>
    unfold trlib_eigen_inverse at hrun
    rw [hs] at hrun
    exact absurd hrun (by simp)
  | some s1 =>
    obtain ⟨k, -, hfail, hlast⟩ := shift_search_spec C B n lam_init fuel _ _ hs
    rcases hlast with ⟨hg, hi, -⟩ | ⟨hg, hr⟩
    · refine ⟨code, r, k + 1, hrun, ?_, ?_, Or.inl ⟨Nat.succ_pos _, hi⟩, ?_, ?_, ?_⟩
      · intro j hj
        rcases Nat.lt_succ_iff_lt_or_eq.mp hj with hlt | rfl
        · exact (hfail j hlt).1
        · exact hg
      · intro j hj
        exact (hfail j (Nat.lt_of_succ_lt_succ hj)).2
      · exact guard_index_bound C B n lam_init m heps0 heps1 hpow k hg
      · intro hd
        exact guard_index_double C B n lam_init m hpow hd k hg
      · intro hall
        exact absurd hi (hall k hg)
    · have hff : s1.iter_inv = C.TRLIB_EIR_FAIL_FACTOR := by
        rw [hr]; exact shift_state_iter_inv C B n lam_init m k
      have hres : (code, r) = (C.TRLIB_EIR_FAIL_FACTOR, store_lam_pert s1) := by
        rw [trlib_eigen_inverse_eq C B n lam_init itmax tol_abs fuel m s1 hs, after_search_eq,
          if_pos hff] at hrun
        exact (Option.some.inj hrun).symm
      have hcode : code = C.TRLIB_EIR_FAIL_FACTOR := congrArg Prod.fst hres
      have hrr : r = store_lam_pert s1 := congrArg Prod.snd hres
      refine ⟨code, r, k, hrun, fun j hj => (hfail j hj).1,
        fun j hj => (hfail j (Nat.lt_of_succ_lt hj)).2,
        Or.inr ⟨hg, fun j hj => (hfail j hj).2⟩, ?_, ?_, ?_⟩
      · cases k with
        | zero => push_cast; linarith
        | succ i =>
          exact guard_index_bound C B n lam_init m heps0 heps1 hpow i
            (hfail i (Nat.lt_succ_self _)).1
      · intro hd
        cases k with
        | zero => omega
        | succ i =>
          exact guard_index_double C B n lam_init m hpow hd i (hfail i (Nat.lt_succ_self _)).1
      · intro _
        refine ⟨hcode, ?_, ?_, ?_⟩
        · rw [hrr]; exact hff
        · rw [hrr, hr]; exact shift_state_eig C B n lam_init m k
        · intro slv nrm scl
          have hs' : shift_search C { B with dpttrs := slv, dnrm2 := nrm, dscal := scl } n
              lam_init fuel (entry C lam_init m) = some s1 := by
            rw [shift_search_backend, hs]
          rw [trlib_eigen_inverse_eq C _ n lam_init itmax tol_abs fuel m s1 hs', after_search_eq,
            if_pos hff, hcode, hrr]

/-- An instance over the reals with `eps = 2⁻⁵²` on the 1×1 matrix `(0)`. -/
theorem shift_search_terminates_witness :
    (0 : ℝ) < (consts_of (1 / 2 ^ 52 : ℝ) ((1 / 2 ^ 52) ^ (1 / 4 : ℝ))).TRLIB_EPS ∧
    (consts_of (1 / 2 ^ 52 : ℝ) ((1 / 2 ^ 52) ^ (1 / 4 : ℝ))).TRLIB_EPS < 1 ∧
    (consts_of (1 / 2 ^ 52 : ℝ) ((1 / 2 ^ 52) ^ (1 / 4 : ℝ))).TRLIB_EPS_POW_4 =
      (consts_of (1 / 2 ^ 52 : ℝ) ((1 / 2 ^ 52) ^ (1 / 4 : ℝ))).TRLIB_EPS ^ (1 / 4 : ℝ) ∧
    ∃ N : Nat, ∀ fuel, N ≤ fuel → ∃ code r a,
      trlib_eigen_inverse (consts_of (1 / 2 ^ 52 : ℝ) ((1 / 2 ^ 52) ^ (1 / 4 : ℝ)))
        (reference_backend fun _ _ => 1) fuel 1 0 3 0 (mem_of 0 1) = some (code, r) ∧
      a ≤ 21 :=
  have h0 : (0 : ℝ) < (consts_of (1 / 2 ^ 52 : ℝ) ((1 / 2 ^ 52) ^ (1 / 4 : ℝ))).TRLIB_EPS := by
    norm_num [consts_of]
  have h1 : (consts_of (1 / 2 ^ 52 : ℝ) ((1 / 2 ^ 52) ^ (1 / 4 : ℝ))).TRLIB_EPS < 1 := by
    norm_num [consts_of]
  ⟨h0, h1, rfl,
    (shift_search_terminates (consts_of (1 / 2 ^ 52 : ℝ) ((1 / 2 ^ 52) ^ (1 / 4 : ℝ)))
      (reference_backend fun _ _ => 1) 1 0 3 0 (mem_of 0 1) h0 h1 rfl).imp fun _ hN fuel hf =>
      (hN fuel hf).imp fun _ hc => hc.imp fun _ hr => hr.imp fun _ ha =>
        ⟨ha.1, ha.2.2.2.2.2.1 rfl⟩⟩

/-- C4. With the standard copy and axpy, an in-place factorization, well-sized buffers and
`ones` all ones, the routine returns, and whenever the outcome is not `FAIL_FACTOR`, at
return `lam_pert = lam_init - pert`, the factorization of the matrix with diagonal
`diag[i] - (lam_init - pert)` and off-diagonal `offdiag` reported success, and
`diag_fac`/`offdiag_fac` are exactly its output; they are the buffers the shift search
left (attempt `k`), untouched by the inverse iteration. -/
theorem factors_of_accepted_shift [Archimedean F] (C : Consts F) (B : Backend F) (n : Int)
    (lam_init : F) (itmax : Int) (tol_abs : F) (m : State F) (h0 : 0 < C.TRLIB_EPS_POW_4)
    (hc : B.dcopy = dcopy) (ha : B.daxpy = daxpy) (hf : factor_in_place B n)
    (hm : well_sized n m) :
    ∃ N : Nat, ∀ fuel, N ≤ fuel → ∃ code r,
      trlib_eigen_inverse C B fuel n lam_init itmax tol_abs m = some (code, r) ∧
      (code ≠ C.TRLIB_EIR_FAIL_FACTOR →
        r.lam_pert = lam_init - r.pert ∧
        (B.dpttrf n (shifted_diag (lam_init - r.pert) m.diag) m.offdiag).2.2 = 0 ∧
        r.diag_fac = (B.dpttrf n (shifted_diag (lam_init - r.pert) m.diag) m.offdiag).1 ∧
        r.offdiag_fac = (B.dpttrf n (shifted_diag (lam_init - r.pert) m.diag) m.offdiag).2.1 ∧
        ∃ k : Nat, r.pert = (shift_state C B n lam_init m k).pert ∧
          r.diag_fac = (accepted C B n lam_init m k).diag_fac ∧
          r.offdiag_fac = (accepted C B n lam_init m k).offdiag_fac) := by
  obtain ⟨N, hN⟩ := trlib_eigen_inverse_some C B n lam_init itmax tol_abs h0 m
  refine ⟨N, fun fuel hfuel => ?_⟩
  obtain ⟨code, r, hrun⟩ := hN fuel hfuel
  refine ⟨code, r, hrun, fun hcode => ?_⟩
  obtain ⟨k, -, -, hlast⟩ :=
    trlib_eigen_inverse_spec C B n lam_init itmax tol_abs fuel m code r hrun
  rcases hlast with ⟨-, hff, -⟩ | ⟨-, hi, ⟨-, hff, -⟩ | ⟨-, hit⟩⟩
  · exact absurd hff hcode
  · exact absurd hff hcode
  · obtain ⟨-, -, -, f4, f5, f6, f7, -⟩ :=
      same_frame_trans (same_frame_normalize B n (accepted C B n lam_init m k))
        (inverse_iteration_frame C B n itmax tol_abs fuel _ code r hit)
    have hp : r.pert = (shift_state C B n lam_init m k).pert := f7
    have hml : (shift_state C B n lam_init m k).minuslam = r.pert - lam_init := by
      rw [shift_state_minuslam, hp]
    have hneg : -(shift_state C B n lam_init m k).minuslam = lam_init - r.pert := by
      rw [hml]; ring
    obtain ⟨e1, e2, e3⟩ := factor_attempt_std B n (shift_state C B n lam_init m k) hc ha
      (well_sized_shift_state C B n lam_init m hc ha hf hm k)
    rw [hneg, shift_state_diag, shift_state_offdiag] at e1 e2 e3
    refine ⟨?_, ?_, ?_, ?_, k, hp, f4, f5⟩
    · rw [f6]
      exact hneg
    · rw [← e3]; exact hi
    · rw [f4, ← e1]; rfl
    · rw [f5, ← e2]; rfl

/-- An instance on `sample_mem` with `lam_init = 0`, `itmax = 3`, `tol_abs = 10⁻³`. -/
theorem factors_of_accepted_shift_witness :
    (0 : ℚ) < sample_consts.TRLIB_EPS_POW_4 ∧
    (reference_backend rat_nrm2).dcopy = dcopy ∧
    (reference_backend rat_nrm2).daxpy = daxpy ∧
    factor_in_place (reference_backend rat_nrm2) 1 ∧
    well_sized 1 sample_mem ∧
    ∃ N : Nat, ∀ fuel, N ≤ fuel → ∃ code r,
      trlib_eigen_inverse sample_consts (reference_backend rat_nrm2) fuel 1 0 3 (1 / 1000)
        sample_mem = some (code, r) ∧
      (code ≠ sample_consts.TRLIB_EIR_FAIL_FACTOR →
        r.lam_pert = 0 - r.pert ∧
        r.diag_fac = ((reference_backend rat_nrm2).dpttrf 1
          (shifted_diag (0 - r.pert) sample_mem.diag) sample_mem.offdiag).1) :=
  have h0 : (0 : ℚ) < sample_consts.TRLIB_EPS_POW_4 := by norm_num [sample_consts]
  have hm : well_sized 1 sample_mem := ⟨rfl, rfl, rfl, rfl, rfl, rfl⟩
  ⟨h0, rfl, rfl, dpttrf_in_place _ rfl 1, hm,
    (factors_of_accepted_shift sample_consts (reference_backend rat_nrm2) 1 0 3 (1 / 1000)
      sample_mem h0 rfl rfl (dpttrf_in_place _ rfl 1) hm).imp fun _ hN fuel hf =>
      (hN fuel hf).imp fun _ hc => hc.imp fun _ hr =>
        ⟨hr.1, fun hcode => ⟨(hr.2 hcode).1, (hr.2 hcode).2.2.1⟩⟩⟩

/-- C5. After a successful factorization (attempt `a`), when the start vector and every
successfully computed solve result within the budget have a nonzero norm — so that every
reciprocal of lines 44 and 57 is that of a nonzero number and `invnorm_k · ‖y_k‖ = 1` — the
routine returns, and it returns `CONV` if and only if there is an iteration `k` with
`1 ≤ k ≤ itmax` such that the solves of iterations `1, …, k` all succeed and
`|invnorm_k - pert| ≤ tol_abs`, where `invnorm_k` is the reciprocal of the norm of the
`k`-th solve result before scaling. In that case `iter_inv` at return is such a `k`, and the
test failed at every earlier iteration, so it is the least one. -/
theorem conv_iff (C : Consts F) (B : Backend F) (n : Int) (lam_init : F) (itmax : Int)
    (tol_abs : F) (m : State F) (a : Nat) (hacc : accepts C B n lam_init m a)
    (hff : C.TRLIB_EIR_FAIL_FACTOR ≠ 0) (hci : C.TRLIB_EIR_CONV ≠ C.TRLIB_EIR_ITMAX)
    (hcl : C.TRLIB_EIR_CONV ≠ C.TRLIB_EIR_FAIL_LINSOLVE)
    (hn0 : B.dnrm2 n m.eig ≠ 0)
    (hnk : ∀ j : Nat, (j : Int) < itmax →
      (solved B n (loop_entry C B n lam_init m a) j).info_fac = 0 →
      B.dnrm2 n (solved B n (loop_entry C B n lam_init m a) j).eig ≠ 0) :
    (loop_entry C B n lam_init m a).invnorm * B.dnrm2 n m.eig = 1 ∧
    (∀ k : Nat, (k : Int) < itmax →
      (solved B n (loop_entry C B n lam_init m a) k).info_fac = 0 →
      (inv_state B n (loop_entry C B n lam_init m a) (k + 1)).invnorm =
        1 / B.dnrm2 n (solved B n (loop_entry C B n lam_init m a) k).eig ∧
      (inv_state B n (loop_entry C B n lam_init m a) (k + 1)).invnorm *
        B.dnrm2 n (solved B n (loop_entry C B n lam_init m a) k).eig = 1) ∧
    ∃ N : Nat, ∀ fuel, N ≤ fuel → ∃ code r,
      trlib_eigen_inverse C B fuel n lam_init itmax tol_abs m = some (code, r) ∧
      r.pert = (shift_state C B n lam_init m a).pert ∧
      (code = C.TRLIB_EIR_CONV ↔ ∃ k : Nat, 1 ≤ k ∧ (k : Int) ≤ itmax ∧
        (∀ j, j < k → (solved B n (loop_entry C B n lam_init m a) j).info_fac = 0) ∧
        |(inv_state B n (loop_entry C B n lam_init m a) k).invnorm - r.pert| ≤ tol_abs) ∧
      (code = C.TRLIB_EIR_CONV → ∃ k : Nat, r.iter_inv = (k : Int) ∧ 1 ≤ k ∧ (k : Int) ≤ itmax ∧
        (∀ j, j < k → (solved B n (loop_entry C B n lam_init m a) j).info_fac = 0) ∧
        |(inv_state B n (loop_entry C B n lam_init m a) k).invnorm - r.pert| ≤ tol_abs ∧
        ∀ j, 1 ≤ j → j < k →
          ¬ |(inv_state B n (loop_entry C B n lam_init m a) j).invnorm - r.pert| ≤ tol_abs) := by
  refine ⟨?_, fun k hk hsk => ?_, max (a + 1) (itmax.toNat + 1), fun fuel hfuel => ?_⟩
  · show 1 / B.dnrm2 n (shift_state C B n lam_init m a).eig * B.dnrm2 n m.eig = 1
    rw [shift_state_eig]
    exact one_div_mul_cancel hn0
  · have he : (inv_state B n (loop_entry C B n lam_init m a) (k + 1)).invnorm =
        1 / B.dnrm2 n (solved B n (loop_entry C B n lam_init m a) k).eig := by
      rw [inv_state_succ]; rfl
    exact ⟨he, by rw [he]; exact one_div_mul_cancel (hnk k hk hsk)⟩
  obtain ⟨code, r, hrun, k0, hcont, hlast⟩ :=
    trlib_eigen_inverse_loop C B n lam_init itmax tol_abs m a hacc hff fuel hfuel
  have hp : r.pert = (shift_state C B n lam_init m a).pert := by
    have := (last_pass_frame C B n itmax tol_abs _ code r hlast).2.2.2.2.2.2.1
    rw [this, inv_state_entry_pert]
  have hpk : ∀ k, (inv_state B n (loop_entry C B n lam_init m a) k).pert = r.pert := by
    intro k; rw [hp, inv_state_entry_pert]
  -- the facts about the passes before the last one, in terms of iterations
  have hsolved : ∀ j, j < k0 → (solved B n (loop_entry C B n lam_init m a) j).info_fac = 0 :=
    fun j hj => (hcont j hj).2.1
  have hnotest : ∀ j, 1 ≤ j → j < k0 + 1 →
      ¬ |(inv_state B n (loop_entry C B n lam_init m a) j).invnorm - r.pert| ≤ tol_abs := by
    intro j h1 hj
    obtain ⟨i, rfl⟩ := Nat.exists_eq_succ_of_ne_zero (Nat.one_le_iff_ne_zero.mp h1)
    have := (hcont i (Nat.lt_of_succ_lt_succ hj)).2.2
    rw [← inv_state_succ, hpk] at this
    exact this
  have hit : ∀ j, (inv_state B n (loop_entry C B n lam_init m a) j).iter_inv + 1 = ((j + 1 : Nat) : Int) := by
    intro j; rw [inv_state_entry_iter_inv]; push_cast; rfl
  refine ⟨code, r, hrun, hp, ?_, ?_⟩
  · constructor
    · intro hconv
      rcases hlast with ⟨-, hc, -⟩ | ⟨-, -, hc, -⟩ | ⟨hle, hs, ht, -, -⟩
      · exact absurd (hconv.symm.trans hc) hci
      · exact absurd (hconv.symm.trans hc) hcl
      · rw [hit] at hle
        rw [← inv_state_succ, hpk] at ht
        refine ⟨k0 + 1, Nat.succ_pos _, hle, fun j hj => ?_, ht⟩
        rcases Nat.lt_succ_iff_lt_or_eq.mp hj with hlt | rfl
        · exact hsolved j hlt
        · exact hs
    · rintro ⟨k, hk1, hkle, hks, hkt⟩
      rcases hlast with ⟨hlt, -, -⟩ | ⟨-, hs, -, -⟩ | ⟨-, -, -, hc, -⟩
      · rw [hit] at hlt
        have hk : k < k0 + 1 := by
          have : (k : Int) < ((k0 + 1 : Nat) : Int) := lt_of_le_of_lt hkle hlt
          exact_mod_cast this
        exact absurd hkt (hnotest k hk1 hk)
      · by_cases hk : k < k0 + 1
        · exact absurd hkt (hnotest k hk1 hk)
        · exact absurd (hks k0 (by omega)) hs
      · exact hc
  · intro hconv
    rcases hlast with ⟨-, hc, -⟩ | ⟨-, -, hc, -⟩ | ⟨hle, hs, ht, -, hr⟩
    · exact absurd (hconv.symm.trans hc) hci
    · exact absurd (hconv.symm.trans hc) hcl
    · rw [hit] at hle
      rw [← inv_state_succ, hpk] at ht
      refine ⟨k0 + 1, ?_, Nat.succ_pos _, hle, fun j hj => ?_, ht, fun j h1 hj => hnotest j h1 hj⟩
      · rw [hr, ← inv_state_succ, inv_state_entry_iter_inv]
      · rcases Nat.lt_succ_iff_lt_or_eq.mp hj with hlt | rfl
        · exact hsolved j hlt
        · exact hs

/-- An instance on `sample_mem` with `lam_init = 0`, `itmax = 3`, `tol_abs = 10⁻³`: the start
vector `(1)` has norm `1`, every solve result is `(8192)`, and the routine returns `CONV`. -/
theorem conv_iff_witness :
    accepts sample_consts (reference_backend rat_nrm2) 1 0 sample_mem 1 ∧
    sample_consts.TRLIB_EIR_FAIL_FACTOR ≠ 0 ∧
    sample_consts.TRLIB_EIR_CONV ≠ sample_consts.TRLIB_EIR_ITMAX ∧
    sample_consts.TRLIB_EIR_CONV ≠ sample_consts.TRLIB_EIR_FAIL_LINSOLVE ∧
    (reference_backend rat_nrm2).dnrm2 1 sample_mem.eig ≠ 0 ∧
    (∀ j : Nat, (reference_backend rat_nrm2).dnrm2 1 (solved (reference_backend rat_nrm2) 1
      (loop_entry sample_consts (reference_backend rat_nrm2) 1 0 sample_mem 1) j).eig ≠ 0) ∧
    ∃ N : Nat, ∀ fuel, N ≤ fuel → ∃ code r,
      trlib_eigen_inverse sample_consts (reference_backend rat_nrm2) fuel 1 0 3 (1 / 1000)
        sample_mem = some (code, r) ∧
      (code = sample_consts.TRLIB_EIR_CONV ↔ ∃ k : Nat, 1 ≤ k ∧ (k : Int) ≤ 3 ∧
        (∀ j, j < k → (solved (reference_backend rat_nrm2) 1
          (loop_entry sample_consts (reference_backend rat_nrm2) 1 0 sample_mem 1) j).info_fac = 0) ∧
        |(inv_state (reference_backend rat_nrm2) 1
          (loop_entry sample_consts (reference_backend rat_nrm2) 1 0 sample_mem 1) k).invnorm
            - r.pert| ≤ 1 / 1000) :=
  have hff : sample_consts.TRLIB_EIR_FAIL_FACTOR ≠ 0 := by norm_num [sample_consts]
  have hci : sample_consts.TRLIB_EIR_CONV ≠ sample_consts.TRLIB_EIR_ITMAX := by
    norm_num [sample_consts]
  have hcl : sample_consts.TRLIB_EIR_CONV ≠ sample_consts.TRLIB_EIR_FAIL_LINSOLVE := by
    norm_num [sample_consts]
  have hn0 : (reference_backend rat_nrm2).dnrm2 1 sample_mem.eig ≠ 0 := by
    rw [sample_start_norm]
    exact one_ne_zero
  have hnk : ∀ j : Nat, (reference_backend rat_nrm2).dnrm2 1
      (solved (reference_backend rat_nrm2) 1
        (loop_entry sample_consts (reference_backend rat_nrm2) 1 0 sample_mem 1) j).eig ≠ 0 :=
    fun j => by
      rw [sample_solved_norm]
      norm_num
  ⟨sample_accepts, hff, hci, hcl, hn0, hnk,
    (conv_iff sample_consts (reference_backend rat_nrm2) 1 0 3 (1 / 1000) sample_mem 1
      sample_accepts hff hci hcl hn0 (fun j _ _ => hnk j)).2.2.imp fun _ hN fuel hf =>
      (hN fuel hf).imp fun _ hc => hc.imp fun _ hr => ⟨hr.1, hr.2.2.1⟩⟩

/-- C6. After a successful factorization (attempt `a`) the loop is entered with
`iter_inv = 0` and every pass adds exactly 1. The routine returns after some number `k` of
solves; solve `j + 1` is made with `iter_inv = j + 1 ≤ itmax`; the state at return is the
one after `k` complete passes, or the one right after the `k`-th solve, or — the budget
being exhausted — the one after `k` complete passes and one more increment. On every
return with `CONV` or `FAIL_LINSOLVE`, `iter_inv = k` and `1 ≤ iter_inv ≤ itmax`. -/
theorem iter_inv_counts (C : Consts F) (B : Backend F) (n : Int) (lam_init : F) (itmax : Int)
    (tol_abs : F) (m : State F) (a : Nat) (hacc : accepts C B n lam_init m a)
    (hff : C.TRLIB_EIR_FAIL_FACTOR ≠ 0) (hic : C.TRLIB_EIR_ITMAX ≠ C.TRLIB_EIR_CONV)
    (hil : C.TRLIB_EIR_ITMAX ≠ C.TRLIB_EIR_FAIL_LINSOLVE) :
    (loop_entry C B n lam_init m a).iter_inv = 0 ∧
    (∀ k, (inv_state B n (loop_entry C B n lam_init m a) (k + 1)).iter_inv =
      (inv_state B n (loop_entry C B n lam_init m a) k).iter_inv + 1) ∧
    ∃ N : Nat, ∀ fuel, N ≤ fuel → ∃ code r,
      trlib_eigen_inverse C B fuel n lam_init itmax tol_abs m = some (code, r) ∧
      ∃ k : Nat,
        (∀ j, j < k →
          (solved B n (loop_entry C B n lam_init m a) j).iter_inv = (j : Int) + 1 ∧
          (j : Int) + 1 ≤ itmax) ∧
        (r = inv_state B n (loop_entry C B n lam_init m a) k ∨
          (1 ≤ k ∧ r = solved B n (loop_entry C B n lam_init m a) (k - 1)) ∨
          r = count (inv_state B n (loop_entry C B n lam_init m a) k)) ∧
        (code = C.TRLIB_EIR_CONV ∨ code = C.TRLIB_EIR_FAIL_LINSOLVE →
          r.iter_inv = (k : Int) ∧ 1 ≤ r.iter_inv ∧ r.iter_inv ≤ itmax) := by
  refine ⟨rfl, fun k => ?_, max (a + 1) (itmax.toNat + 1), fun fuel hfuel => ?_⟩
  · rw [inv_state_succ]; rfl
  obtain ⟨code, r, hrun, k0, hcont, hlast⟩ :=
    trlib_eigen_inverse_loop C B n lam_init itmax tol_abs m a hacc hff fuel hfuel
  have hsi : ∀ j, (solved B n (loop_entry C B n lam_init m a) j).iter_inv = (j : Int) + 1 := by
    intro j
    show (inv_state B n (loop_entry C B n lam_init m a) j).iter_inv + 1 = _
    rw [inv_state_entry_iter_inv]
  have hbefore : ∀ j, j < k0 →
      (solved B n (loop_entry C B n lam_init m a) j).iter_inv = (j : Int) + 1 ∧
        (j : Int) + 1 ≤ itmax := by
    intro j hj
    refine ⟨hsi j, ?_⟩
    have := (hcont j hj).1
    rwa [inv_state_entry_iter_inv] at this
  refine ⟨code, r, hrun, ?_⟩
  rcases hlast with ⟨-, hc, hr⟩ | ⟨hle, -, -, hr⟩ | ⟨hle, -, -, -, hr⟩
  · refine ⟨k0, hbefore, Or.inr (Or.inr hr), ?_⟩
    rintro (h | h)
    · exact absurd (hc.symm.trans h) hic
    · exact absurd (hc.symm.trans h) hil
  · rw [inv_state_entry_iter_inv] at hle
    refine ⟨k0 + 1, ?_, Or.inr (Or.inl ⟨Nat.succ_pos _, hr⟩), fun _ => ?_⟩
    · intro j hj
      rcases Nat.lt_succ_iff_lt_or_eq.mp hj with hlt | rfl
      · exact hbefore j hlt
      · exact ⟨hsi j, hle⟩
    · have hri : r.iter_inv = ((k0 + 1 : Nat) : Int) := by
        rw [hr]; push_cast; exact hsi k0
      refine ⟨hri, ?_, ?_⟩
      · rw [hri]; push_cast; omega
      · rw [hri]; push_cast; exact hle
  · rw [inv_state_entry_iter_inv] at hle
    refine ⟨k0 + 1, ?_, Or.inl ?_, fun _ => ?_⟩
    · intro j hj
      rcases Nat.lt_succ_iff_lt_or_eq.mp hj with hlt | rfl
      · exact hbefore j hlt
      · exact ⟨hsi j, hle⟩
    · rw [hr, inv_state_succ]
    · have hri : r.iter_inv = ((k0 + 1 : Nat) : Int) := by
        rw [hr, ← inv_state_succ, inv_state_entry_iter_inv]
      refine ⟨hri, ?_, ?_⟩
      · rw [hri]; push_cast; omega
      · rw [hri]; push_cast; exact hle

/-- An instance on `sample_mem` with `lam_init = 0`, `itmax = 3`, `tol_abs = 10⁻³`. -/
theorem iter_inv_counts_witness :
    accepts sample_consts (reference_backend rat_nrm2) 1 0 sample_mem 1 ∧
    sample_consts.TRLIB_EIR_FAIL_FACTOR ≠ 0 ∧
    sample_consts.TRLIB_EIR_ITMAX ≠ sample_consts.TRLIB_EIR_CONV ∧
    sample_consts.TRLIB_EIR_ITMAX ≠ sample_consts.TRLIB_EIR_FAIL_LINSOLVE ∧
    ∃ N : Nat, ∀ fuel, N ≤ fuel → ∃ code r,
      trlib_eigen_inverse sample_consts (reference_backend rat_nrm2) fuel 1 0 3 (1 / 1000)
        sample_mem = some (code, r) ∧
      ∃ k : Nat,
        (code = sample_consts.TRLIB_EIR_CONV ∨ code = sample_consts.TRLIB_EIR_FAIL_LINSOLVE →
          r.iter_inv = (k : Int) ∧ 1 ≤ r.iter_inv ∧ r.iter_inv ≤ 3) :=
  have hff : sample_consts.TRLIB_EIR_FAIL_FACTOR ≠ 0 := by norm_num [sample_consts]
  have hic : sample_consts.TRLIB_EIR_ITMAX ≠ sample_consts.TRLIB_EIR_CONV := by
    norm_num [sample_consts]
  have hil : sample_consts.TRLIB_EIR_ITMAX ≠ sample_consts.TRLIB_EIR_FAIL_LINSOLVE := by
    norm_num [sample_consts]
  ⟨sample_accepts, hff, hic, hil,
    (iter_inv_counts sample_consts (reference_backend rat_nrm2) 1 0 3 (1 / 1000) sample_mem 1
      sample_accepts hff hic hil).2.2.imp fun _ hN fuel hf =>
      (hN fuel hf).imp fun _ hc => hc.imp fun _ hr => ⟨hr.1, hr.2.imp fun _ hk => hk.2.2⟩⟩

/-- C10. After a successful factorization (attempt `a`): if the solve of iteration `k`,
`1 ≤ k ≤ itmax`, is the first to report a nonzero status and the convergence test failed at
every earlier iteration, the routine returns `FAIL_LINSOLVE`, and the memory at return is the
one right after that solve: `iter_inv = k`, `eig` is the raw output of the failed solve,
`invnorm` is still the one of the previous pass (no normalisation), the factors are those of
the accepted attempt (no refactorization), and `pert`, `lam_pert` are those of the accepted
shift. -/
theorem fail_linsolve_immediate (C : Consts F) (B : Backend F) (n : Int) (lam_init : F)
    (itmax : Int) (tol_abs : F) (m : State F) (a k : Nat) (hacc : accepts C B n lam_init m a)
    (hff : C.TRLIB_EIR_FAIL_FACTOR ≠ 0) (hk1 : 1 ≤ k) (hk : (k : Int) ≤ itmax)
    (hsolves : ∀ j, j + 1 < k → (solved B n (loop_entry C B n lam_init m a) j).info_fac = 0)
    (htests : ∀ j, 1 ≤ j → j < k →
      ¬ |(inv_state B n (loop_entry C B n lam_init m a) j).invnorm -
          (shift_state C B n lam_init m a).pert| ≤ tol_abs)
    (hfails : (solved B n (loop_entry C B n lam_init m a) (k - 1)).info_fac ≠ 0) :
    (∃ N : Nat, ∀ fuel, N ≤ fuel →
      trlib_eigen_inverse C B fuel n lam_init itmax tol_abs m =
        some (C.TRLIB_EIR_FAIL_LINSOLVE, solved B n (loop_entry C B n lam_init m a) (k - 1))) ∧
    (solved B n (loop_entry C B n lam_init m a) (k - 1)).iter_inv = (k : Int) ∧
    (solved B n (loop_entry C B n lam_init m a) (k - 1)).eig =
      (B.dpttrs n (accepted C B n lam_init m a).diag_fac (accepted C B n lam_init m a).offdiag_fac
        (inv_state B n (loop_entry C B n lam_init m a) (k - 1)).eig).1 ∧
    (solved B n (loop_entry C B n lam_init m a) (k - 1)).invnorm =
      (inv_state B n (loop_entry C B n lam_init m a) (k - 1)).invnorm ∧
    (solved B n (loop_entry C B n lam_init m a) (k - 1)).diag_fac =
      (accepted C B n lam_init m a).diag_fac ∧
    (solved B n (loop_entry C B n lam_init m a) (k - 1)).offdiag_fac =
      (accepted C B n lam_init m a).offdiag_fac ∧
    (solved B n (loop_entry C B n lam_init m a) (k - 1)).pert =
      (shift_state C B n lam_init m a).pert ∧
    (solved B n (loop_entry C B n lam_init m a) (k - 1)).lam_pert =
      lam_init - (shift_state C B n lam_init m a).pert := by
  obtain ⟨i, rfl⟩ := Nat.exists_eq_succ_of_ne_zero (Nat.one_le_iff_ne_zero.mp hk1)
  rw [Nat.succ_sub_one] at hfails ⊢
  obtain ⟨f1, f2, f3, f4, f5, f6, f7, f8⟩ :=
    same_frame_inv_state B n (loop_entry C B n lam_init m a) i
  refine ⟨⟨max (a + 1) (i + 1), fun fuel hfuel => ?_⟩, ?_, ?_, rfl, ?_, ?_, ?_, ?_⟩
  · have hf1 : a < fuel := lt_of_lt_of_le (Nat.lt_succ_self _) (le_trans (le_max_left _ _) hfuel)
    have hf2 : i + 1 ≤ fuel := le_trans (le_max_right _ _) hfuel
    rw [trlib_eigen_inverse_of_accepts C B n lam_init itmax tol_abs m a hacc hff fuel hf1]
    have hcont : ∀ j, j < i →
        pass_continues B n itmax tol_abs (inv_state B n (loop_entry C B n lam_init m a) j) := by
      intro j hj
      refine ⟨?_, hsolves j (Nat.succ_lt_succ hj), ?_⟩
      · rw [inv_state_entry_iter_inv]
        have : ((j : Int) + 1) ≤ ((i + 1 : Nat) : Int) := by push_cast; omega
        exact le_trans this hk
      · rw [← inv_state_succ, inv_state_entry_pert]
        exact htests (j + 1) (Nat.succ_pos _) (Nat.succ_lt_succ hj)
    obtain ⟨f, rfl⟩ : ∃ f, fuel = f + 1 + i := ⟨fuel - (i + 1), by omega⟩
    rw [inverse_iteration_skip C B n itmax tol_abs i (f + 1) _ hcont, inverse_iteration_succ]
    have hle : ¬ itmax < (inv_state B n (loop_entry C B n lam_init m a) i).iter_inv + 1 := by
      rw [inv_state_entry_iter_inv, not_lt]
      exact_mod_cast hk
    have hfails' : (solve B n (count (inv_state B n (loop_entry C B n lam_init m a) i))).info_fac
        ≠ 0 := hfails
    rw [if_neg hle, if_pos hfails']
    rfl
  · show (inv_state B n (loop_entry C B n lam_init m a) i).iter_inv + 1 = _
    rw [inv_state_entry_iter_inv]; push_cast; rfl
  · show (B.dpttrs n (inv_state B n (loop_entry C B n lam_init m a) i).diag_fac
      (inv_state B n (loop_entry C B n lam_init m a) i).offdiag_fac _).1 = _
    rw [f4, f5]; rfl
  · exact f4
  · exact f5
  · exact f7
  · show (inv_state B n (loop_entry C B n lam_init m a) i).lam_pert = _
    rw [f6, loop_entry_lam_pert]

/-- An instance on `sample_mem` with a solve that fails at the first iteration. -/
theorem fail_linsolve_immediate_witness :
    accepts sample_consts failing_solve_backend 1 0 sample_mem 1 ∧
    sample_consts.TRLIB_EIR_FAIL_FACTOR ≠ 0 ∧ 1 ≤ 1 ∧ ((1 : Nat) : Int) ≤ 3 ∧
    (solved failing_solve_backend 1
      (loop_entry sample_consts failing_solve_backend 1 0 sample_mem 1) (1 - 1)).info_fac ≠ 0 ∧
    (∃ N : Nat, ∀ fuel, N ≤ fuel →
      trlib_eigen_inverse sample_consts failing_solve_backend fuel 1 0 3 (1 / 1000) sample_mem =
        some (sample_consts.TRLIB_EIR_FAIL_LINSOLVE, solved failing_solve_backend 1
          (loop_entry sample_consts failing_solve_backend 1 0 sample_mem 1) (1 - 1))) ∧
    (solved failing_solve_backend 1
      (loop_entry sample_consts failing_solve_backend 1 0 sample_mem 1) (1 - 1)).iter_inv
        = ((1 : Nat) : Int) :=
  have hacc : accepts sample_consts failing_solve_backend 1 0 sample_mem 1 :=
    sample_accepts_std _ rfl rfl rfl
  have hff : sample_consts.TRLIB_EIR_FAIL_FACTOR ≠ 0 := by norm_num [sample_consts]
  have hfails : (solved failing_solve_backend 1
      (loop_entry sample_consts failing_solve_backend 1 0 sample_mem 1) (1 - 1)).info_fac ≠ 0 := by
    show (1 : Int) ≠ 0
    decide
  have h := fail_linsolve_immediate sample_consts failing_solve_backend 1 0 3 (1 / 1000)
    sample_mem 1 1 hacc hff (le_refl 1) (by norm_num) (fun j hj => absurd hj (by omega))
    (fun j h1 hj => absurd hj (by omega)) hfails
  ⟨hacc, hff, le_refl 1, by norm_num, hfails, h.1, h.2.1⟩

/-- C7. Exact arithmetic, `dnrm2` the Euclidean norm, `dscal` the exact scaling, a nonzero
initial `eig` and nonzero solve results: after a successful factorization (attempt `a`),
`eig` has Euclidean norm exactly 1 after the initial normalisation and after the
normalisation of every iteration, and at every return with `CONV` or `ITMAX`. -/
theorem unit_norm (C : Consts F) (B : Backend F) (n : Int) (lam_init : F) (itmax : Int)
    (tol_abs : F) (m : State F) (a : Nat) (hacc : accepts C B n lam_init m a)
    (hff : C.TRLIB_EIR_FAIL_FACTOR ≠ 0)
    (hlc : C.TRLIB_EIR_FAIL_LINSOLVE ≠ C.TRLIB_EIR_CONV)
    (hli : C.TRLIB_EIR_FAIL_LINSOLVE ≠ C.TRLIB_EIR_ITMAX)
    (hs : B.dscal = dscal)
    (hnrm : ∀ x, 0 ≤ B.dnrm2 n x ∧ B.dnrm2 n x ^ 2 = sumsq n x)
    (heig : sumsq n m.eig ≠ 0)
    (hsol : ∀ k, sumsq n (solved B n (loop_entry C B n lam_init m a) k).eig ≠ 0) :
    (sumsq n (loop_entry C B n lam_init m a).eig = 1 ∧
      B.dnrm2 n (loop_entry C B n lam_init m a).eig = 1) ∧
    (∀ k, sumsq n (inv_state B n (loop_entry C B n lam_init m a) (k + 1)).eig = 1 ∧
      B.dnrm2 n (inv_state B n (loop_entry C B n lam_init m a) (k + 1)).eig = 1) ∧
    ∃ N : Nat, ∀ fuel, N ≤ fuel → ∃ code r,
      trlib_eigen_inverse C B fuel n lam_init itmax tol_abs m = some (code, r) ∧
      (code = C.TRLIB_EIR_CONV ∨ code = C.TRLIB_EIR_ITMAX →
        sumsq n r.eig = 1 ∧ B.dnrm2 n r.eig = 1) := by
  have hentry : sumsq n (loop_entry C B n lam_init m a).eig = 1 := by
    refine sumsq_normalize B n _ hs (hnrm _).2 ?_
    show sumsq n (shift_state C B n lam_init m a).eig ≠ 0
    rw [shift_state_eig]
    exact heig
  have hstep : ∀ k, sumsq n (inv_state B n (loop_entry C B n lam_init m a) (k + 1)).eig = 1 := by
    intro k
    rw [inv_state_succ]
    exact sumsq_normalize B n _ hs (hnrm _).2 (hsol k)
  have hall : ∀ k, sumsq n (inv_state B n (loop_entry C B n lam_init m a) k).eig = 1 := by
    intro k
    cases k with
    | zero => exact hentry
    | succ k => exact hstep k
  have hone : ∀ x, sumsq n x = 1 → B.dnrm2 n x = 1 :=
    fun x hx => nrm_eq_one _ _ (hnrm x).1 (hnrm x).2 hx
  refine ⟨⟨hentry, hone _ hentry⟩, fun k => ⟨hstep k, hone _ (hstep k)⟩,
    max (a + 1) (itmax.toNat + 1), fun fuel hfuel => ?_⟩
  obtain ⟨code, r, hrun, k0, -, hlast⟩ :=
    trlib_eigen_inverse_loop C B n lam_init itmax tol_abs m a hacc hff fuel hfuel
  refine ⟨code, r, hrun, fun hcode => ?_⟩
  have hr : sumsq n r.eig = 1 := by
    rcases hlast with ⟨-, -, hr⟩ | ⟨-, -, hc, -⟩ | ⟨-, -, -, -, hr⟩
    · rw [hr]
      exact hall k0
    · rcases hcode with h | h
      · exact absurd (hc.symm.trans h) hlc
      · exact absurd (hc.symm.trans h) hli
    · rw [hr, ← inv_state_succ]
      exact hstep k0
  exact ⟨hr, hone _ hr⟩

/-- An instance over the reals: the 1×1 matrix `(0)`, the Euclidean norm and a solve that
returns its right-hand side. -/
theorem unit_norm_witness :
    accepts (consts_of (1 / 2 ^ 52 : ℝ) (1 / 2 ^ 13))
      (backend_with (fun _ _ _ b => (b, 0)) fun n x => Real.sqrt (sumsq n x)) 1 0 (mem_of 0 1) 1 ∧
    (∀ x : List ℝ, 0 ≤ Real.sqrt (sumsq 1 x) ∧ Real.sqrt (sumsq 1 x) ^ 2 = sumsq 1 x) ∧
    sumsq 1 (mem_of (0 : ℝ) 1).eig ≠ 0 ∧
    (∀ k, sumsq 1 (solved (backend_with (fun _ _ _ b => (b, 0)) fun n x => Real.sqrt (sumsq n x)) 1
      (loop_entry (consts_of (1 / 2 ^ 52 : ℝ) (1 / 2 ^ 13))
        (backend_with (fun _ _ _ b => (b, 0)) fun n x => Real.sqrt (sumsq n x)) 1 0 (mem_of 0 1) 1)
      k).eig ≠ 0) ∧
    ∃ N : Nat, ∀ fuel, N ≤ fuel → ∃ code r,
      trlib_eigen_inverse (consts_of (1 / 2 ^ 52 : ℝ) (1 / 2 ^ 13))
        (backend_with (fun _ _ _ b => (b, 0)) fun n x => Real.sqrt (sumsq n x)) fuel 1 0 3 0
        (mem_of 0 1) = some (code, r) ∧
      (code = (consts_of (1 / 2 ^ 52 : ℝ) (1 / 2 ^ 13)).TRLIB_EIR_CONV ∨
        code = (consts_of (1 / 2 ^ 52 : ℝ) (1 / 2 ^ 13)).TRLIB_EIR_ITMAX →
        sumsq 1 r.eig = 1 ∧ Real.sqrt (sumsq 1 r.eig) = 1) :=
  have hacc := accepts_1x1
    (backend_with (fun _ _ _ b => (b, 0)) fun n x => Real.sqrt (sumsq n x)) (1 : ℝ) rfl rfl rfl
  have hnrm : ∀ x : List ℝ, 0 ≤ Real.sqrt (sumsq 1 x) ∧ Real.sqrt (sumsq 1 x) ^ 2 = sumsq 1 x :=
    fun x => ⟨Real.sqrt_nonneg _, Real.sq_sqrt (sumsq_nonneg 1 x)⟩
  have heig : sumsq 1 (mem_of (0 : ℝ) 1).eig ≠ 0 := by norm_num [sumsq, mem_of]
  have hentry : sumsq 1 (loop_entry (consts_of (1 / 2 ^ 52 : ℝ) (1 / 2 ^ 13))
      (backend_with (fun _ _ _ b => (b, 0)) fun n x => Real.sqrt (sumsq n x)) 1 0 (mem_of 0 1)
      1).eig = 1 :=
    sumsq_normalize _ 1 _ rfl (hnrm _).2 heig
  have hsol : ∀ k, sumsq 1 (solved
      (backend_with (fun _ _ _ b => (b, 0)) fun n x => Real.sqrt (sumsq n x)) 1
      (loop_entry (consts_of (1 / 2 ^ 52 : ℝ) (1 / 2 ^ 13))
        (backend_with (fun _ _ _ b => (b, 0)) fun n x => Real.sqrt (sumsq n x)) 1 0 (mem_of 0 1) 1)
      k).eig ≠ 0 := fun k => by
    have h := identity_solve_unit
      (backend_with (fun _ _ _ b => (b, 0)) fun n x => Real.sqrt (sumsq n x)) 1 _ rfl rfl
      (fun x => (hnrm x).2) hentry k
    show sumsq 1 (inv_state _ 1 _ k).eig ≠ 0
    rw [h]
    exact one_ne_zero
  ⟨hacc, hnrm, heig, hsol,
    (unit_norm (consts_of (1 / 2 ^ 52 : ℝ) (1 / 2 ^ 13))
      (backend_with (fun _ _ _ b => (b, 0)) fun n x => Real.sqrt (sumsq n x)) 1 0 3 0 (mem_of 0 1)
      1 hacc (by decide) (by decide) (by decide) rfl hnrm heig hsol).2.2⟩

/-- C8. Exact arithmetic and an exact backend (standard copy, axpy and scaling, Euclidean
norm, a factorization that succeeds only on a matrix whose linear systems it then solves
exactly and uniquely): if `(lam_init, v)` is an eigenpair of the tridiagonal matrix, `v ≠ 0`,
and `eig` is a positive multiple of `v`, then with `tol_abs ≥ 0` and `itmax ≥ 1` the routine
returns, either `FAIL_FACTOR`, or `CONV` with `iter_inv = 1` and final `eig = v/‖v‖₂`. -/
theorem eigenpair_converges_at_once [Archimedean F] (C : Consts F) (B : Backend F) (n : Int)
    (lam_init : F) (itmax : Int) (tol_abs : F) (m : State F) (v : List F) (c : F)
    (h0 : 0 < C.TRLIB_EPS_POW_4)
    (hc : B.dcopy = dcopy) (ha : B.daxpy = daxpy) (hs : B.dscal = dscal)
    (hf : factor_in_place B n)
    (hnrm : ∀ x, 0 ≤ B.dnrm2 n x ∧ B.dnrm2 n x ^ 2 = sumsq n x)
    (hex : exact_backend B n) (hm : well_sized n m)
    (hv : v.length = n.toNat) (hv0 : sumsq n v ≠ 0)
    (heigen : ∀ i, i < n.toNat → tri_row m.diag m.offdiag v i = lam_init * v.getD i 0)
    (hc0 : 0 < c) (hseed : m.eig = v.map fun x => c * x)
    (htol : 0 ≤ tol_abs) (hit : 1 ≤ itmax) :
    ∃ N : Nat, ∀ fuel, N ≤ fuel → ∃ code r,
      trlib_eigen_inverse C B fuel n lam_init itmax tol_abs m = some (code, r) ∧
      (code = C.TRLIB_EIR_FAIL_FACTOR ∨
        (code = C.TRLIB_EIR_CONV ∧ r.iter_inv = 1 ∧
          r.eig = v.map fun x => 1 / B.dnrm2 n v * x)) := by
  obtain ⟨N, hN⟩ := trlib_eigen_inverse_some C B n lam_init itmax tol_abs h0 m
  refine ⟨N, fun fuel hfuel => ?_⟩
  obtain ⟨code, r, hrun⟩ := hN fuel hfuel
  refine ⟨code, r, hrun, ?_⟩
  obtain ⟨k, hk, -, hlast⟩ :=
    trlib_eigen_inverse_spec C B n lam_init itmax tol_abs fuel m code r hrun
  rcases hlast with ⟨-, hcode, -⟩ | ⟨-, hi, ⟨-, hcode, -⟩ | ⟨-, hloop⟩⟩
  · exact Or.inl hcode
  · exact Or.inl hcode
  · right
    obtain ⟨f, rfl⟩ := Nat.exists_eq_succ_of_ne_zero (Nat.pos_iff_ne_zero.mp (Nat.zero_lt_of_lt hk))
    obtain ⟨p1, p2, p3⟩ := eigen_first_pass C B n lam_init m v c k h0 hc ha hs hf hnrm hex hm hv hv0
      heigen hc0 hseed hi
    have hloop' : inverse_iteration C B n itmax tol_abs (f + 1) (loop_entry C B n lam_init m k) =
        some (code, r) := hloop
    have hle : ¬ itmax < (loop_entry C B n lam_init m k).iter_inv + 1 := by
      rw [loop_entry_iter_inv, zero_add]
      exact not_lt.mpr hit
    have htest : |(inv_iter B n (loop_entry C B n lam_init m k)).invnorm -
        (inv_iter B n (loop_entry C B n lam_init m k)).pert| ≤ tol_abs := by
      rw [p2, sub_self, abs_zero]
      exact htol
    rw [inverse_iteration_succ, if_neg hle, if_neg (not_not.mpr p1), if_pos htest] at hloop'
    have e := Option.some.inj hloop'
    have ecode : C.TRLIB_EIR_CONV = code := congrArg Prod.fst e
    have er : inv_iter B n (loop_entry C B n lam_init m k) = r := congrArg Prod.snd e
    refine ⟨ecode.symm, ?_, ?_⟩
    · rw [← er, inv_iter_iter_inv, loop_entry_iter_inv]; rfl
    · rw [← er]; exact p3

/-- An instance over the reals: the 1×1 matrix `(0)` with eigenpair `(0, (1))`, the
reference factorization and solve and the Euclidean norm. -/
theorem eigenpair_converges_at_once_witness :
    (0 : ℝ) < (consts_of (1 / 2 ^ 52 : ℝ) (1 / 2 ^ 13)).TRLIB_EPS_POW_4 ∧
    exact_backend (backend_with dpttrs fun n (x : List ℝ) => Real.sqrt (sumsq n x)) 1 ∧
    well_sized 1 (mem_of (0 : ℝ) 1) ∧
    sumsq 1 [(1 : ℝ)] ≠ 0 ∧
    (∀ i, i < (1 : Int).toNat →
      tri_row (mem_of (0 : ℝ) 1).diag (mem_of (0 : ℝ) 1).offdiag [1] i = 0 * [(1 : ℝ)].getD i 0) ∧
    (mem_of (0 : ℝ) 1).eig = [(1 : ℝ)].map (fun x => 1 * x) ∧
    ∃ N : Nat, ∀ fuel, N ≤ fuel → ∃ code r,
      trlib_eigen_inverse (consts_of (1 / 2 ^ 52 : ℝ) (1 / 2 ^ 13))
        (backend_with dpttrs fun n (x : List ℝ) => Real.sqrt (sumsq n x)) fuel 1 0 3 0
        (mem_of 0 1) = some (code, r) ∧
      (code = (consts_of (1 / 2 ^ 52 : ℝ) (1 / 2 ^ 13)).TRLIB_EIR_FAIL_FACTOR ∨
        (code = (consts_of (1 / 2 ^ 52 : ℝ) (1 / 2 ^ 13)).TRLIB_EIR_CONV ∧ r.iter_inv = 1 ∧
          r.eig = [(1 : ℝ)].map fun x => 1 / Real.sqrt (sumsq 1 [(1 : ℝ)]) * x)) :=
  have h0 : (0 : ℝ) < (consts_of (1 / 2 ^ 52 : ℝ) (1 / 2 ^ 13)).TRLIB_EPS_POW_4 := by
    norm_num [consts_of]
  have hex : exact_backend (backend_with dpttrs fun n (x : List ℝ) => Real.sqrt (sumsq n x)) 1 :=
    exact_backend_1x1 _ rfl rfl
  have hm : well_sized 1 (mem_of (0 : ℝ) 1) := ⟨rfl, rfl, rfl, rfl, rfl, rfl⟩
  have hv0 : sumsq 1 [(1 : ℝ)] ≠ 0 := by norm_num [sumsq]
  have heigen : ∀ i, i < (1 : Int).toNat →
      tri_row (mem_of (0 : ℝ) 1).diag (mem_of (0 : ℝ) 1).offdiag [1] i =
        0 * [(1 : ℝ)].getD i 0 := by
    intro i hi
    obtain rfl : i = 0 := by
      have : i < 1 := hi
      omega
    norm_num [tri_row, mem_of]
  have hseed : (mem_of (0 : ℝ) 1).eig = [(1 : ℝ)].map (fun x => 1 * x) := by
    norm_num [mem_of]
  ⟨h0, hex, hm, hv0, heigen, hseed,
    eigenpair_converges_at_once (consts_of (1 / 2 ^ 52 : ℝ) (1 / 2 ^ 13))
      (backend_with dpttrs fun n (x : List ℝ) => Real.sqrt (sumsq n x)) 1 0 3 0 (mem_of 0 1)
      [1] 1 h0 rfl rfl rfl (dpttrf_in_place _ rfl 1)
      (fun x => ⟨Real.sqrt_nonneg _, Real.sq_sqrt (sumsq_nonneg 1 x)⟩) hex hm rfl hv0 heigen
      one_pos hseed (le_refl 0) (by norm_num)⟩

/-- C9, refuted as stated. Exact real arithmetic, `eps = 2⁻⁵²`, the reference factorization
and solve, the Euclidean norm; `n = 3`, `diag = [1, 2, -1.75]`, `offdiag = [0, 1]`,
`lam_init = -2`, `tol_abs = 10⁻⁶`. With `eig = (0, 4, 1)` (nonzero, inside the 2×2 block)
and `itmax = 3` the routine returns `ITMAX`, not `CONV`, with `iter_inv = 4` and
`lam_pert = -2 - 2⁻¹²`, which is not within `tol_abs` of `-2`. With `eig = (0, 3, 4)` and
`itmax = 1` it returns `ITMAX` as well: the first iteration does not meet the tolerance. -/
theorem reducible_counterexample :
    (∃ r, trlib_eigen_inverse (consts_of (1 / 2 ^ 52 : ℝ) (1 / 2 ^ 13))
        (backend_with dpttrs fun n (x : List ℝ) => Real.sqrt (sumsq n x)) 5 3 (-2) 3
        (1 / 10 ^ 6) (reducible_mem 4 1) =
        some ((consts_of (1 / 2 ^ 52 : ℝ) (1 / 2 ^ 13)).TRLIB_EIR_ITMAX, r) ∧
      (consts_of (1 / 2 ^ 52 : ℝ) (1 / 2 ^ 13)).TRLIB_EIR_ITMAX ≠
        (consts_of (1 / 2 ^ 52 : ℝ) (1 / 2 ^ 13)).TRLIB_EIR_CONV ∧
      r.iter_inv = 4 ∧ r.lam_pert = -2 - 1 / 4096 ∧ ¬ |r.lam_pert - (-2)| ≤ 1 / 10 ^ 6) ∧
    ∃ r, trlib_eigen_inverse (consts_of (1 / 2 ^ 52 : ℝ) (1 / 2 ^ 13))
        (backend_with dpttrs fun n (x : List ℝ) => Real.sqrt (sumsq n x)) 5 3 (-2) 1
        (1 / 10 ^ 6) (reducible_mem 3 4) =
        some ((consts_of (1 / 2 ^ 52 : ℝ) (1 / 2 ^ 13)).TRLIB_EIR_ITMAX, r) ∧
      r.iter_inv = 2 := by
  have h0 : (0 : ℝ) < (consts_of (1 / 2 ^ 52 : ℝ) (1 / 2 ^ 13)).TRLIB_EPS_POW_4 := by
    norm_num [consts_of]
  have hg : 2 * (consts_of (1 / 2 ^ 52 : ℝ) (1 / 2 ^ 13)).TRLIB_EPS_POW_4 ≤
      1 / (consts_of (1 / 2 ^ 52 : ℝ) (1 / 2 ^ 13)).TRLIB_EPS := by
    norm_num [consts_of]
  have he : (consts_of (1 / 2 ^ 52 : ℝ) (1 / 2 ^ 13)).TRLIB_EPS_POW_4 = 1 / 8192 := by
    norm_num [consts_of]
  have hm : well_sized 3 (reducible_mem (4 : ℝ) 1) := ⟨rfl, rfl, rfl, rfl, rfl, rfl⟩
  have hnrm : ∀ x : List ℝ, 0 ≤ Real.sqrt (sumsq 3 x) ∧ Real.sqrt (sumsq 3 x) ^ 2 = sumsq 3 x :=
    fun x => ⟨Real.sqrt_nonneg _, Real.sq_sqrt (sumsq_nonneg 3 x)⟩
  have hne : sumsq 3 (reducible_mem (4 : ℝ) 1).eig ≠ 0 := by
    show (0 * 0 + (4 * 4 + (1 * 1 + 0)) : ℝ) ≠ 0
    norm_num
  obtain ⟨hacc, hp1⟩ := accepts_reducible (consts_of (1 / 2 ^ 52 : ℝ) (1 / 2 ^ 13))
    (backend_with dpttrs fun n (x : List ℝ) => Real.sqrt (sumsq n x)) (reducible_mem 4 1)
    h0 hg rfl rfl rfl hm rfl rfl
  have hpass := reducible_passes (consts_of (1 / 2 ^ 52 : ℝ) (1 / 2 ^ 13))
    (backend_with dpttrs fun n (x : List ℝ) => Real.sqrt (sumsq n x)) (reducible_mem 4 1)
    h0 rfl rfl rfl rfl rfl hnrm hm rfl rfl hne
    (17 / 4 + 2 * (consts_of (1 / 2 ^ 52 : ℝ) (1 / 2 ^ 13)).TRLIB_EPS_POW_4) (by linarith)
    (reducible_rows_upper _)
  have hcont : ∀ j, j < 3 → pass_continues
      (backend_with dpttrs fun n (x : List ℝ) => Real.sqrt (sumsq n x)) 3 3 (1 / 10 ^ 6)
      (inv_state (backend_with dpttrs fun n (x : List ℝ) => Real.sqrt (sumsq n x)) 3
        (loop_entry (consts_of (1 / 2 ^ 52 : ℝ) (1 / 2 ^ 13))
          (backend_with dpttrs fun n (x : List ℝ) => Real.sqrt (sumsq n x)) 3 (-2)
          (reducible_mem 4 1) 1) j) := by
    intro j hj
    refine ⟨?_, (hpass j).2.1, ?_⟩
    · rw [inv_state_entry_iter_inv]
      have : (j : Int) < 3 := by exact_mod_cast hj
      omega
    · rw [← inv_state_succ, (hpass j).2.2, inv_state_entry_pert, hp1, he]
      norm_num [abs_of_pos]
  refine ⟨⟨count (inv_state (backend_with dpttrs fun n (x : List ℝ) => Real.sqrt (sumsq n x)) 3
      (loop_entry (consts_of (1 / 2 ^ 52 : ℝ) (1 / 2 ^ 13))
        (backend_with dpttrs fun n (x : List ℝ) => Real.sqrt (sumsq n x)) 3 (-2)
        (reducible_mem 4 1) 1) 3), ?_, by decide, ?_, ?_, ?_⟩, ?_⟩
  · rw [trlib_eigen_inverse_of_accepts _ _ 3 (-2) 3 (1 / 10 ^ 6) _ 1 hacc (by decide) 5
        (by norm_num),
      inverse_iteration_skip _ _ 3 3 (1 / 10 ^ 6) 3 2 _ hcont, inverse_iteration_succ,
      if_pos (by rw [inv_state_entry_iter_inv]; norm_num)]
  · rw [count_iter_inv, inv_state_entry_iter_inv]
    norm_num
  · have hfr := same_frame_inv_state
      (backend_with dpttrs fun n (x : List ℝ) => Real.sqrt (sumsq n x)) 3
      (loop_entry (consts_of (1 / 2 ^ 52 : ℝ) (1 / 2 ^ 13))
        (backend_with dpttrs fun n (x : List ℝ) => Real.sqrt (sumsq n x)) 3 (-2)
        (reducible_mem 4 1) 1) 3
    have hcl : ∀ s : State ℝ, (count s).lam_pert = s.lam_pert := fun _ => rfl
    rw [hcl, hfr.2.2.2.2.2.1, loop_entry_lam_pert, hp1, he]
    norm_num
  · have hfr := same_frame_inv_state
      (backend_with dpttrs fun n (x : List ℝ) => Real.sqrt (sumsq n x)) 3
      (loop_entry (consts_of (1 / 2 ^ 52 : ℝ) (1 / 2 ^ 13))
        (backend_with dpttrs fun n (x : List ℝ) => Real.sqrt (sumsq n x)) 3 (-2)
        (reducible_mem 4 1) 1) 3
    have hcl : ∀ s : State ℝ, (count s).lam_pert = s.lam_pert := fun _ => rfl
    rw [hcl, hfr.2.2.2.2.2.1, loop_entry_lam_pert, hp1, he]
    norm_num [abs_of_neg]
  · -- the start vector `(0, 3, 4)` with `itmax = 1`
    have hm' : well_sized 3 (reducible_mem (3 : ℝ) 4) := ⟨rfl, rfl, rfl, rfl, rfl, rfl⟩
    obtain ⟨hacc', hp1'⟩ := accepts_reducible (consts_of (1 / 2 ^ 52 : ℝ) (1 / 2 ^ 13))
      (backend_with dpttrs fun n (x : List ℝ) => Real.sqrt (sumsq n x)) (reducible_mem 3 4)
      h0 hg rfl rfl rfl hm' rfl rfl
    have ha0 : ((3 : ℝ) - 4 * 4) / 17 ≠ 0 := by norm_num
    have hseed : (reducible_mem (3 : ℝ) 4).eig =
        block_vec ((3 - 4 * 4) / 17) ((4 * 3 + 4) / 17) := (block_vec_seed 3 4).symm
    have hsolve := (reducible_iterates (consts_of (1 / 2 ^ 52 : ℝ) (1 / 2 ^ 13))
      (backend_with dpttrs fun n (x : List ℝ) => Real.sqrt (sumsq n x)) (reducible_mem 3 4)
      h0 rfl rfl rfl rfl rfl hnrm hm' rfl rfl _ _ ha0 hseed 0).2.1
    obtain ⟨hI0, hI⟩ := reducible_invnorm_sq (consts_of (1 / 2 ^ 52 : ℝ) (1 / 2 ^ 13))
      (backend_with dpttrs fun n (x : List ℝ) => Real.sqrt (sumsq n x)) (reducible_mem 3 4)
      h0 rfl rfl rfl rfl rfl hnrm hm' rfl rfl _ _ ha0 hseed 0
    have htest : ¬ |(inv_state (backend_with dpttrs fun n (x : List ℝ) => Real.sqrt (sumsq n x))
        3 (loop_entry (consts_of (1 / 2 ^ 52 : ℝ) (1 / 2 ^ 13))
          (backend_with dpttrs fun n (x : List ℝ) => Real.sqrt (sumsq n x)) 3 (-2)
          (reducible_mem 3 4) 1) (0 + 1)).invnorm -
        2 * (consts_of (1 / 2 ^ 52 : ℝ) (1 / 2 ^ 13)).TRLIB_EPS_POW_4| ≤ 1 / 10 ^ 6 := by
      generalize (inv_state (backend_with dpttrs fun n (x : List ℝ) => Real.sqrt (sumsq n x))
        3 (loop_entry (consts_of (1 / 2 ^ 52 : ℝ) (1 / 2 ^ 13))
          (backend_with dpttrs fun n (x : List ℝ) => Real.sqrt (sumsq n x)) 3 (-2)
          (reducible_mem 3 4) 1) (0 + 1)).invnorm = I at hI0 hI
      rw [he] at hI ⊢
      intro h
      have hle : I ≤ 2 * (1 / 8192) + 1 / 10 ^ 6 := by
        have := (abs_le.mp h).2
        linarith
      have hI2 : I ^ 2 ≤ (2 * (1 / 8192) + 1 / 10 ^ 6) ^ 2 := pow_le_pow_left₀ hI0 hle 2
      norm_num at hI hI2
      linarith
    have hcont' : ∀ j, j < (1 : Int).toNat → pass_continues
        (backend_with dpttrs fun n (x : List ℝ) => Real.sqrt (sumsq n x)) 3 1 (1 / 10 ^ 6)
        (inv_state (backend_with dpttrs fun n (x : List ℝ) => Real.sqrt (sumsq n x)) 3
          (loop_entry (consts_of (1 / 2 ^ 52 : ℝ) (1 / 2 ^ 13))
            (backend_with dpttrs fun n (x : List ℝ) => Real.sqrt (sumsq n x)) 3 (-2)
            (reducible_mem 3 4) 1) j) := by
      intro j hj
      obtain rfl : j = 0 := by
        have : j < 1 := hj
        omega
      refine ⟨?_, hsolve, ?_⟩
      · rw [inv_state_entry_iter_inv]
        norm_num
      · rw [← inv_state_succ, inv_state_entry_pert, hp1']
        exact htest
    refine ⟨_, exhausted_run _ _ 3 (-2) 1 (1 / 10 ^ 6) _ 1 hacc' (by decide) hcont' 5
      (by decide), ?_⟩
    rw [count_iter_inv, inv_state_entry_iter_inv]
    rfl

/-- C9, amended. Scenario `n = 3`, `diag = [1, 2, -1.75]`, `offdiag = [0, 1]`,
`lam_init = -2`, with the standard copy and axpy and the reference positive-definite
factorization, and `2·eps^(1/4) ≤ 1/eps`: the factorization fails at `pert = 0` and succeeds
at `pert = 2·eps^(1/4)`; for every `itmax` the routine returns `CONV`, `ITMAX` or
`FAIL_LINSOLVE` with `pert = 2·eps^(1/4)` and `lam_pert = -2 - 2·eps^(1/4)`, so
`|lam_pert - (-2)| = 2·eps^(1/4)` whatever `tol_abs` is. With the reference solve, the exact
scaling and the Euclidean norm and a start vector `(0, x, y)` inside the 2×2 block:
* if `x ≠ 4·y` (the vector is not orthogonal to the eigenvector `(0, 1, -4)` of `-2`), then
  for every `k0` with `q·(4x + y)²·q^(2·k0) ≤ tol_abs·(x - 4y)²·(17/4 + q)^(2·k0)`, where
  `q = 2·eps^(1/4)`, and every `itmax ≥ k0 + 1` the routine returns `CONV` with
  `1 ≤ iter_inv ≤ k0 + 1`; such a `k0` exists whenever `tol_abs > 0`;
* if `x = 4·y`, `y ≠ 0` (a multiple of the other eigenvector `(0, 4, 1)` of the block) and
  `tol_abs < 17/4`, the routine returns `ITMAX` for every `itmax`;
* if `y = -4·x`, `x ≠ 0` (a multiple of the eigenvector of `-2`), `tol_abs ≥ 0` and
  `itmax ≥ 1`, the outcome is `CONV` with `iter_inv = 1` and `eig` the normalised start
  vector. -/
theorem reducible_scenario [Archimedean F] (C : Consts F) (B : Backend F) (tol_abs : F)
    (m : State F) (h0 : 0 < C.TRLIB_EPS_POW_4)
    (hg : 2 * C.TRLIB_EPS_POW_4 ≤ 1 / C.TRLIB_EPS) (hff : C.TRLIB_EIR_FAIL_FACTOR ≠ 0)
    (hc : B.dcopy = dcopy) (ha : B.daxpy = daxpy) (hf : B.dpttrf = dpttrf)
    (hm : well_sized 3 m) (hdiag : m.diag = [1, 2, -(7 / 4)]) (hoff : m.offdiag = [0, 1]) :
    accepts C B 3 (-2) m 1 ∧
    (∀ itmax : Int, ∃ N : Nat, ∀ fuel, N ≤ fuel → ∃ code r,
      trlib_eigen_inverse C B fuel 3 (-2) itmax tol_abs m = some (code, r) ∧
      (code = C.TRLIB_EIR_CONV ∨ code = C.TRLIB_EIR_ITMAX ∨ code = C.TRLIB_EIR_FAIL_LINSOLVE) ∧
      r.pert = 2 * C.TRLIB_EPS_POW_4 ∧ r.lam_pert = -2 - 2 * C.TRLIB_EPS_POW_4 ∧
      |r.lam_pert - (-2)| = 2 * C.TRLIB_EPS_POW_4) ∧
    (B.dpttrs = dpttrs → B.dscal = dscal →
      (∀ x, 0 ≤ B.dnrm2 3 x ∧ B.dnrm2 3 x ^ 2 = sumsq 3 x) →
      ∀ x y : F, m.eig = [0, x, y] →
        (x ≠ 4 * y →
          (0 < tol_abs → ∃ k0 : Nat,
            2 * C.TRLIB_EPS_POW_4 * (4 * x + y) ^ 2 * (2 * C.TRLIB_EPS_POW_4) ^ (2 * k0) ≤
              tol_abs * (x - 4 * y) ^ 2 * (17 / 4 + 2 * C.TRLIB_EPS_POW_4) ^ (2 * k0)) ∧
          ∀ k0 : Nat,
            2 * C.TRLIB_EPS_POW_4 * (4 * x + y) ^ 2 * (2 * C.TRLIB_EPS_POW_4) ^ (2 * k0) ≤
              tol_abs * (x - 4 * y) ^ 2 * (17 / 4 + 2 * C.TRLIB_EPS_POW_4) ^ (2 * k0) →
            ∀ itmax : Int, ((k0 + 1 : Nat) : Int) ≤ itmax →
              ∃ N : Nat, ∀ fuel, N ≤ fuel → ∃ r,
                trlib_eigen_inverse C B fuel 3 (-2) itmax tol_abs m =
                  some (C.TRLIB_EIR_CONV, r) ∧
                1 ≤ r.iter_inv ∧ r.iter_inv ≤ ((k0 + 1 : Nat) : Int) ∧
                r.lam_pert = -2 - 2 * C.TRLIB_EPS_POW_4) ∧
        (x = 4 * y → y ≠ 0 → tol_abs < 17 / 4 → ∀ itmax : Int,
          ∃ N : Nat, ∀ fuel, N ≤ fuel → ∃ r,
            trlib_eigen_inverse C B fuel 3 (-2) itmax tol_abs m =
              some (C.TRLIB_EIR_ITMAX, r) ∧
            r.iter_inv = max itmax 0 + 1) ∧
        (y = -(4 * x) → x ≠ 0 → 0 ≤ tol_abs → ∀ itmax : Int, 1 ≤ itmax →
          ∃ N : Nat, ∀ fuel, N ≤ fuel → ∃ r,
            trlib_eigen_inverse C B fuel 3 (-2) itmax tol_abs m =
              some (C.TRLIB_EIR_CONV, r) ∧
            r.iter_inv = 1 ∧ r.eig = m.eig.map fun t => 1 / B.dnrm2 3 m.eig * t)) := by
  obtain ⟨hacc, hp1⟩ := accepts_reducible C B m h0 hg hc ha hf hm hdiag hoff
  have hq : 0 < 2 * C.TRLIB_EPS_POW_4 := by linarith
  refine ⟨hacc, fun itmax => ⟨max (1 + 1) (itmax.toNat + 1), fun fuel hfuel => ?_⟩,
    fun hslv hs hnrm x y hseed => ⟨fun hxy => ⟨fun htol => ?_, fun k0 hk0 itmax hK => ?_⟩,
      fun hxy hy htol itmax => ?_,
      fun hyx hx htol itmax hit => ?_⟩⟩
  · -- every outcome: the accepted shift and `lam_pert`
    obtain ⟨code, r, hrun, k0, -, hlast⟩ :=
      trlib_eigen_inverse_loop C B 3 (-2) itmax tol_abs m 1 hacc hff fuel hfuel
    have hfr := same_frame_trans (same_frame_inv_state B 3 (loop_entry C B 3 (-2) m 1) k0)
      (last_pass_frame C B 3 itmax tol_abs _ code r hlast)
    have hp : r.pert = 2 * C.TRLIB_EPS_POW_4 := by
      rw [hfr.2.2.2.2.2.2.1, loop_entry_pert, hp1]
    have hl : r.lam_pert = -2 - 2 * C.TRLIB_EPS_POW_4 := by
      rw [hfr.2.2.2.2.2.1, loop_entry_lam_pert, hp1]
    refine ⟨code, r, hrun, ?_, hp, hl, ?_⟩
    · rcases hlast with ⟨-, h, -⟩ | ⟨-, -, h, -⟩ | ⟨-, -, -, h, -⟩
      · exact Or.inr (Or.inl h)
      · exact Or.inr (Or.inr h)
      · exact Or.inl h
    · rw [hl]
      have : -2 - 2 * C.TRLIB_EPS_POW_4 - (-2) = -(2 * C.TRLIB_EPS_POW_4) := by ring
      rw [this, abs_neg, abs_of_pos hq]
  · -- a start vector with a component along the eigenvector of `-2`: some `k0` qualifies
    have hA : 0 < (x - 4 * y) ^ 2 := by
      have := sub_ne_zero.mpr hxy
      positivity
    exact exists_power_bound (2 * C.TRLIB_EPS_POW_4) (17 / 4 + 2 * C.TRLIB_EPS_POW_4) tol_abs
      ((x - 4 * y) ^ 2) (2 * C.TRLIB_EPS_POW_4 * (4 * x + y) ^ 2) hq (by linarith) hA
      (by positivity) htol
  · -- … and the test holds at iteration `k0 + 1`
    have ha0 : (x - 4 * y) / 17 ≠ 0 :=
      div_ne_zero (sub_ne_zero.mpr hxy) (by norm_num)
    have hseed' : m.eig = block_vec ((x - 4 * y) / 17) ((4 * x + y) / 17) := by
      rw [hseed, block_vec_seed]
    obtain ⟨hge, hgap⟩ := reducible_gap C B m h0 hc ha hf hslv hs hnrm hm hdiag hoff _ _
      ha0 hseed' k0
    have hpos : 0 < (x - 4 * y) ^ 2 * (17 / 4 + 2 * C.TRLIB_EPS_POW_4) ^ (2 * k0) := by
      have := sub_ne_zero.mpr hxy
      have hδ : 0 < 17 / 4 + 2 * C.TRLIB_EPS_POW_4 := by linarith
      positivity
    have htest : |(inv_state B 3 (loop_entry C B 3 (-2) m 1) (k0 + 1)).invnorm -
        2 * C.TRLIB_EPS_POW_4| ≤ tol_abs := by
      rw [abs_of_nonneg (sub_nonneg.mpr hge)]
      have h289 : ((inv_state B 3 (loop_entry C B 3 (-2) m 1) (k0 + 1)).invnorm -
          2 * C.TRLIB_EPS_POW_4) *
            ((x - 4 * y) ^ 2 * (17 / 4 + 2 * C.TRLIB_EPS_POW_4) ^ (2 * k0)) ≤
          tol_abs * ((x - 4 * y) ^ 2 * (17 / 4 + 2 * C.TRLIB_EPS_POW_4) ^ (2 * k0)) := by
        calc _ = 289 * (((inv_state B 3 (loop_entry C B 3 (-2) m 1) (k0 + 1)).invnorm -
              2 * C.TRLIB_EPS_POW_4) * ((x - 4 * y) / 17 * ((x - 4 * y) / 17) *
                (17 / 4 + 2 * C.TRLIB_EPS_POW_4) ^ (2 * k0))) := by ring
          _ ≤ 289 * (2 * C.TRLIB_EPS_POW_4 * ((4 * x + y) / 17 * ((4 * x + y) / 17)) *
              (2 * C.TRLIB_EPS_POW_4) ^ (2 * k0)) :=
              mul_le_mul_of_nonneg_left hgap (by norm_num)
          _ = 2 * C.TRLIB_EPS_POW_4 * (4 * x + y) ^ 2 * (2 * C.TRLIB_EPS_POW_4) ^ (2 * k0) := by
              ring
          _ ≤ tol_abs * (x - 4 * y) ^ 2 * (17 / 4 + 2 * C.TRLIB_EPS_POW_4) ^ (2 * k0) := hk0
          _ = _ := by ring
      exact le_of_mul_le_mul_right h289 hpos
    refine ⟨max (1 + 1) (itmax.toNat + 1), fun fuel hfuel => ?_⟩
    obtain ⟨r, hrun, h1, h2, -, h4⟩ := conv_of_test C B 3 (-2) itmax tol_abs m 1 hacc hff k0 hK
      (fun j _ => (reducible_iterates C B m h0 hc ha hf hslv hs hnrm hm hdiag hoff _ _ ha0
        hseed' j).2.1)
      (by rw [hp1]; exact htest) fuel hfuel
    exact ⟨r, hrun, h1, h2, by rw [h4, hp1]⟩
  · -- a multiple of the other eigenvector of the block
    have hseed' : m.eig = [0, 4 * y, y] := by rw [hseed, hxy]
    have hne : sumsq 3 m.eig ≠ 0 := by
      rw [hseed']
      show (0 * 0 + (4 * y * (4 * y) + (y * y + 0)) : F) ≠ 0
      have : 0 < y * y := mul_self_pos.mpr hy
      exact (by linarith : (0 : F) < 0 * 0 + (4 * y * (4 * y) + (y * y + 0))).ne'
    have hrows : ∀ i, i < 3 → tri_row [3 + 2 * C.TRLIB_EPS_POW_4, 4 + 2 * C.TRLIB_EPS_POW_4,
        1 / 4 + 2 * C.TRLIB_EPS_POW_4] [0, 1] m.eig i =
        (17 / 4 + 2 * C.TRLIB_EPS_POW_4) * m.eig.getD i 0 := by
      rw [hseed']
      exact reducible_rows_other _ y
    have hpass := reducible_passes C B m h0 hc ha hf hslv hs hnrm hm hdiag hoff hne
      (17 / 4 + 2 * C.TRLIB_EPS_POW_4) (by linarith) hrows
    have hcont : ∀ j, j < itmax.toNat →
        pass_continues B 3 itmax tol_abs (inv_state B 3 (loop_entry C B 3 (-2) m 1) j) := by
      intro j hj
      refine ⟨?_, (hpass j).2.1, ?_⟩
      · rw [inv_state_entry_iter_inv]
        omega
      · rw [← inv_state_succ, (hpass j).2.2, inv_state_entry_pert, hp1, add_sub_cancel_right,
          abs_of_pos (by norm_num : (0 : F) < 17 / 4)]
        exact not_le.mpr htol
    refine ⟨max (1 + 1) (itmax.toNat + 1), fun fuel hfuel => ⟨_,
      exhausted_run C B 3 (-2) itmax tol_abs m 1 hacc hff hcont fuel hfuel, ?_⟩⟩
    rw [count_iter_inv, inv_state_entry_iter_inv]
    omega
  · -- a multiple of the eigenvector of `-2`
    have hseed' : m.eig = [0, x, -(4 * x)] := by rw [hseed, hyx]
    have hne : sumsq 3 m.eig ≠ 0 := by
      rw [hseed']
      show (0 * 0 + (x * x + (-(4 * x) * -(4 * x) + 0)) : F) ≠ 0
      have : 0 < x * x := mul_self_pos.mpr hx
      exact (by nlinarith : (0 : F) < 0 * 0 + (x * x + (-(4 * x) * -(4 * x) + 0))).ne'
    have hrows : ∀ i, i < 3 → tri_row [3 + 2 * C.TRLIB_EPS_POW_4, 4 + 2 * C.TRLIB_EPS_POW_4,
        1 / 4 + 2 * C.TRLIB_EPS_POW_4] [0, 1] m.eig i =
        2 * C.TRLIB_EPS_POW_4 * m.eig.getD i 0 := by
      rw [hseed']
      exact reducible_rows_lower _ x
    have hpass := reducible_passes C B m h0 hc ha hf hslv hs hnrm hm hdiag hoff hne
      (2 * C.TRLIB_EPS_POW_4) hq hrows
    refine ⟨max (1 + 1) (itmax.toNat + 1), fun fuel hfuel => ?_⟩
    obtain ⟨code, r, hrun, k0, hcont, hlast⟩ :=
      trlib_eigen_inverse_loop C B 3 (-2) itmax tol_abs m 1 hacc hff fuel hfuel
    have htest : |(inv_iter B 3 (loop_entry C B 3 (-2) m 1)).invnorm -
        (inv_iter B 3 (loop_entry C B 3 (-2) m 1)).pert| ≤ tol_abs := by
      have h1 := (hpass 0).2.2
      rw [inv_state_succ, inv_state_zero] at h1
      rw [h1, inv_iter_pert, loop_entry_pert, hp1, sub_self, abs_zero]
      exact htol
    have hk0 : k0 = 0 := by
      by_contra hne0
      have := (hcont 0 (Nat.pos_of_ne_zero hne0)).2.2
      rw [inv_state_zero] at this
      exact this htest
    subst hk0
    rw [inv_state_zero] at hlast
    rcases hlast with ⟨hlt, -, -⟩ | ⟨-, hs', -, -⟩ | ⟨-, -, -, hcode, hr⟩
    · rw [loop_entry_iter_inv, zero_add] at hlt
      exact absurd hit (not_le.mpr hlt)
    · exact absurd (hpass 0).2.1 hs'
    · rw [hcode] at hrun
      refine ⟨r, hrun, ?_, ?_⟩
      · rw [hr, inv_iter_iter_inv, loop_entry_iter_inv]; rfl
      · have h1 := (hpass 1).1
        rw [inv_state_succ, inv_state_zero] at h1
        rw [hr, h1]

/-- An instance over the reals with `eps = 2⁻⁵²`, the reference solve, the Euclidean norm,
the start vector `(0, 3, 4)`, `itmax = 3` and `tol_abs = 10⁻⁶`: the routine returns `CONV`
after at most two iterations, with `lam_pert = -2 - 2⁻¹²`. -/
theorem reducible_scenario_witness :
    accepts (consts_of (1 / 2 ^ 52 : ℝ) (1 / 2 ^ 13))
      (backend_with dpttrs fun n (x : List ℝ) => Real.sqrt (sumsq n x)) 3 (-2)
      (reducible_mem 3 4) 1 ∧
    ∃ N : Nat, ∀ fuel, N ≤ fuel → ∃ r,
      trlib_eigen_inverse (consts_of (1 / 2 ^ 52 : ℝ) (1 / 2 ^ 13))
        (backend_with dpttrs fun n (x : List ℝ) => Real.sqrt (sumsq n x)) fuel 3 (-2) 3
        (1 / 10 ^ 6) (reducible_mem 3 4) =
          some ((consts_of (1 / 2 ^ 52 : ℝ) (1 / 2 ^ 13)).TRLIB_EIR_CONV, r) ∧
      1 ≤ r.iter_inv ∧ r.iter_inv ≤ ((1 + 1 : Nat) : Int) ∧
      r.lam_pert = -2 - 2 * (consts_of (1 / 2 ^ 52 : ℝ) (1 / 2 ^ 13)).TRLIB_EPS_POW_4 :=
  have h := reducible_scenario (consts_of (1 / 2 ^ 52 : ℝ) (1 / 2 ^ 13))
    (backend_with dpttrs fun n (x : List ℝ) => Real.sqrt (sumsq n x)) (1 / 10 ^ 6)
    (reducible_mem 3 4) (by norm_num [consts_of]) (by norm_num [consts_of]) (by decide)
    rfl rfl rfl ⟨rfl, rfl, rfl, rfl, rfl, rfl⟩ rfl rfl
  ⟨h.1, ((h.2.2 rfl rfl (fun x => ⟨Real.sqrt_nonneg _, Real.sq_sqrt (sumsq_nonneg 3 x)⟩)
    3 4 rfl).1 (by norm_num)).2 1 (by norm_num [consts_of]) 3 (by norm_num)⟩

/-- C11. For every input, every backend and every outcome the routine returns, and at return
`diag`, `offdiag` and `ones` hold exactly the values they held on entry: the statements of the
function assign only `diag_fac`, `offdiag_fac`, `eig`, `lam_pert`, `pert`, `iter_inv` and the
automatic variables. -/
theorem inputs_unchanged [Archimedean F] (C : Consts F) (B : Backend F) (n : Int)
    (lam_init : F) (itmax : Int) (tol_abs : F) (m : State F) (h0 : 0 < C.TRLIB_EPS_POW_4) :
    ∃ N : Nat, ∀ fuel, N ≤ fuel → ∃ code r,
      trlib_eigen_inverse C B fuel n lam_init itmax tol_abs m = some (code, r) ∧
      r.diag = m.diag ∧ r.offdiag = m.offdiag ∧ r.ones = m.ones := by
  obtain ⟨N, hN⟩ := trlib_eigen_inverse_some C B n lam_init itmax tol_abs h0 m
  refine ⟨N, fun fuel hfuel => ?_⟩
  obtain ⟨code, r, hrun⟩ := hN fuel hfuel
  refine ⟨code, r, hrun, ?_⟩
  obtain ⟨k, -, -, hlast⟩ :=
    trlib_eigen_inverse_spec C B n lam_init itmax tol_abs fuel m code r hrun
  have hd := shift_state_diag C B n lam_init m k
  have ho := shift_state_offdiag C B n lam_init m k
  have h1 := shift_state_ones C B n lam_init m k
  rcases hlast with ⟨-, -, rfl⟩ | ⟨-, -, ⟨-, -, rfl⟩ | ⟨-, hit⟩⟩
  · exact ⟨hd, ho, h1⟩
  · exact ⟨hd, ho, h1⟩
  · obtain ⟨f1, f2, f3, -⟩ := inverse_iteration_frame C B n itmax tol_abs fuel _ code r hit
    exact ⟨f1.trans hd, f2.trans ho, f3.trans h1⟩

/-- Witness for C11: the sample run on the matrix `(0)`. -/
theorem inputs_unchanged_witness :
    0 < sample_consts.TRLIB_EPS_POW_4 ∧
    ∃ N : Nat, ∀ fuel, N ≤ fuel → ∃ code r,
      trlib_eigen_inverse sample_consts (reference_backend rat_nrm2) fuel 1 0 5 (1 / 2)
        sample_mem = some (code, r) ∧
      r.diag = sample_mem.diag ∧ r.offdiag = sample_mem.offdiag ∧ r.ones = sample_mem.ones :=
  ⟨by norm_num [sample_consts],
    inputs_unchanged sample_consts (reference_backend rat_nrm2) 1 0 5 (1 / 2) sample_mem
      (by norm_num [sample_consts])⟩
/-- C12. After a successful factorization (attempt `a`): if for every iteration
`k = 1, …, itmax` the solve succeeds and the convergence test fails, the routine returns
`ITMAX`; the memory at return is the one after `max itmax 0` complete passes — each with
one solve — and one more increment of the counter, so `iter_inv = max itmax 0 + 1`. For
`itmax ≤ 0` no pass is made: `iter_inv = 1` and `eig` is the normalised initial vector. -/
theorem itmax_exhausted (C : Consts F) (B : Backend F) (n : Int) (lam_init : F) (itmax : Int)
    (tol_abs : F) (m : State F) (a : Nat) (hacc : accepts C B n lam_init m a)
    (hff : C.TRLIB_EIR_FAIL_FACTOR ≠ 0)
    (hsolves : ∀ j : Nat, (j : Int) < itmax →
      (solved B n (loop_entry C B n lam_init m a) j).info_fac = 0)
    (htests : ∀ j : Nat, 1 ≤ j → (j : Int) ≤ itmax →
      ¬ |(inv_state B n (loop_entry C B n lam_init m a) j).invnorm -
          (shift_state C B n lam_init m a).pert| ≤ tol_abs) :
    (∃ N : Nat, ∀ fuel, N ≤ fuel →
      trlib_eigen_inverse C B fuel n lam_init itmax tol_abs m =
        some (C.TRLIB_EIR_ITMAX,
          count (inv_state B n (loop_entry C B n lam_init m a) itmax.toNat))) ∧
    (count (inv_state B n (loop_entry C B n lam_init m a) itmax.toNat)).iter_inv =
      max itmax 0 + 1 ∧
    (itmax ≤ 0 →
      count (inv_state B n (loop_entry C B n lam_init m a) itmax.toNat) =
        count (loop_entry C B n lam_init m a) ∧
      (count (loop_entry C B n lam_init m a)).iter_inv = 1 ∧
      (count (loop_entry C B n lam_init m a)).eig =
        B.dscal n (1 / B.dnrm2 n m.eig) m.eig) := by
  refine ⟨⟨max (a + 1) (itmax.toNat + 1), fun fuel hfuel => ?_⟩, ?_, fun hle => ?_⟩
  · have hf1 : a < fuel := lt_of_lt_of_le (Nat.lt_succ_self _) (le_trans (le_max_left _ _) hfuel)
    have hf2 : itmax.toNat + 1 ≤ fuel := le_trans (le_max_right _ _) hfuel
    rw [trlib_eigen_inverse_of_accepts C B n lam_init itmax tol_abs m a hacc hff fuel hf1]
    have hcont : ∀ j, j < itmax.toNat →
        pass_continues B n itmax tol_abs (inv_state B n (loop_entry C B n lam_init m a) j) := by
      intro j hj
      have hj' : (j : Int) + 1 ≤ itmax := by omega
      refine ⟨?_, hsolves j (by omega), ?_⟩
      · rw [inv_state_entry_iter_inv]; exact hj'
      · rw [← inv_state_succ, inv_state_entry_pert]
        exact htests (j + 1) (Nat.succ_pos _) (by push_cast; exact hj')
    obtain ⟨f, rfl⟩ : ∃ f, fuel = f + 1 + itmax.toNat := ⟨fuel - (itmax.toNat + 1), by omega⟩
    rw [inverse_iteration_skip C B n itmax tol_abs itmax.toNat (f + 1) _ hcont,
      inverse_iteration_succ]
    have hlt : itmax < (inv_state B n (loop_entry C B n lam_init m a) itmax.toNat).iter_inv + 1 := by
      rw [inv_state_entry_iter_inv]
      omega
    rw [if_pos hlt]
  · rw [count_iter_inv, inv_state_entry_iter_inv]
    omega
  · have hz : itmax.toNat = 0 := by omega
    rw [hz, inv_state_zero]
    refine ⟨rfl, rfl, ?_⟩
    show B.dscal n (1 / B.dnrm2 n (shift_state C B n lam_init m a).eig)
      (shift_state C B n lam_init m a).eig = _
    rw [shift_state_eig]


/-- Witness for C12: the matrix `(1)`, `lam_init = 0`, `itmax = 1`, `tol_abs = 1/2`. The
unperturbed factorization succeeds, the single pass has `invnorm = 1`, and the routine
returns `ITMAX` with `iter_inv = 2`. -/
theorem itmax_exhausted_witness :
    (∃ N : Nat, ∀ fuel, N ≤ fuel →
      trlib_eigen_inverse (consts_of (1 / 2 ^ 52 : ℚ) (1 / 2 ^ 13)) (reference_backend rat_nrm2)
          fuel 1 0 1 (1 / 2) (mem_of 1 1) =
        some ((consts_of (1 / 2 ^ 52 : ℚ) (1 / 2 ^ 13)).TRLIB_EIR_ITMAX,
          count (inv_state (reference_backend rat_nrm2) 1
            (loop_entry (consts_of (1 / 2 ^ 52 : ℚ) (1 / 2 ^ 13)) (reference_backend rat_nrm2)
              1 0 (mem_of 1 1) 0) (1 : Int).toNat))) ∧
    (count (inv_state (reference_backend rat_nrm2) 1
      (loop_entry (consts_of (1 / 2 ^ 52 : ℚ) (1 / 2 ^ 13)) (reference_backend rat_nrm2)
        1 0 (mem_of 1 1) 0) (1 : Int).toNat)).iter_inv = max 1 0 + 1 :=
  have h := itmax_exhausted (consts_of (1 / 2 ^ 52 : ℚ) (1 / 2 ^ 13))
    (reference_backend rat_nrm2) 1 0 1 (1 / 2) (mem_of 1 1) 0
    (accepts_unperturbed (reference_backend rat_nrm2) 1 rfl rfl rfl) (by decide)
    (fun _ _ => dpttrs_info 1 _ _ _)
    (fun j h1 h2 => by
      have hj : j = 1 := by omega
      subst hj
      rw [unperturbed_first_invnorm]
      have hp : (shift_state (consts_of (1 / 2 ^ 52 : ℚ) (1 / 2 ^ 13))
          (reference_backend rat_nrm2) 1 0 (mem_of 1 1) 0).pert = 0 := rfl
      rw [hp]
      norm_num)
  ⟨h.1, h.2.1⟩
/-- C13. With `0 < eps`, `0 < eps^(1/4)` and a sentinel `FAIL_FACTOR` different from `0` and
from the other three codes: the routine returns, and whenever it returns `FAIL_FACTOR`,
`eig` is exactly as supplied, `iter_inv` is the sentinel, the returned `pert` exceeds
`1/eps`, `lam_pert = lam_init - pert`, and `pert` is the value the loop would have tried
next: the attempts `0, …, k` were all made at smaller perturbations and failed, and
`diag_fac`/`offdiag_fac` hold the output of the last of them. -/
theorem fail_factor_state [Archimedean F] (C : Consts F) (B : Backend F) (n : Int)
    (lam_init : F) (itmax : Int) (tol_abs : F) (m : State F)
    (h0 : 0 < C.TRLIB_EPS_POW_4) (heps : 0 < C.TRLIB_EPS)
    (hff : C.TRLIB_EIR_FAIL_FACTOR ≠ 0)
    (hfc : C.TRLIB_EIR_FAIL_FACTOR ≠ C.TRLIB_EIR_CONV)
    (hfi : C.TRLIB_EIR_FAIL_FACTOR ≠ C.TRLIB_EIR_ITMAX)
    (hfl : C.TRLIB_EIR_FAIL_FACTOR ≠ C.TRLIB_EIR_FAIL_LINSOLVE) :
    ∃ N : Nat, ∀ fuel, N ≤ fuel → ∃ code r,
      trlib_eigen_inverse C B fuel n lam_init itmax tol_abs m = some (code, r) ∧
      (code = C.TRLIB_EIR_FAIL_FACTOR →
        r.eig = m.eig ∧ r.iter_inv = C.TRLIB_EIR_FAIL_FACTOR ∧ 1 / C.TRLIB_EPS < r.pert ∧
        r.lam_pert = lam_init - r.pert ∧
        ∃ k : Nat, r.pert = (shift_state C B n lam_init m (k + 1)).pert ∧
          (∀ j, j ≤ k → (shift_state C B n lam_init m j).pert ≤ 1 / C.TRLIB_EPS ∧
            (factor_attempt B n (shift_state C B n lam_init m j)).info_fac ≠ 0 ∧
            (shift_state C B n lam_init m j).pert < r.pert) ∧
          r.diag_fac = (factor_attempt B n (shift_state C B n lam_init m k)).diag_fac ∧
          r.offdiag_fac = (factor_attempt B n (shift_state C B n lam_init m k)).offdiag_fac) := by
  obtain ⟨N, hN⟩ := trlib_eigen_inverse_some C B n lam_init itmax tol_abs h0 m
  refine ⟨N, fun fuel hfuel => ?_⟩
  obtain ⟨code, r, hrun⟩ := hN fuel hfuel
  refine ⟨code, r, hrun, fun hcode => ?_⟩
  obtain ⟨k', -, hfail, hlast⟩ :=
    trlib_eigen_inverse_spec C B n lam_init itmax tol_abs fuel m code r hrun
  rcases hlast with ⟨hg, -, hr⟩ | ⟨-, -, ⟨hz, -, -⟩ | ⟨-, hit⟩⟩
  · have hk' : k' ≠ 0 := by
      rintro rfl
      apply hg
      show (0 : F) ≤ 1 / C.TRLIB_EPS
      exact (one_div_pos.mpr heps).le
    obtain ⟨k, rfl⟩ := Nat.exists_eq_succ_of_ne_zero hk'
    have hp : r.pert = (shift_state C B n lam_init m (k + 1)).pert := by rw [hr]; rfl
    have hgt : 1 / C.TRLIB_EPS < r.pert := by rw [hp]; exact not_le.mp hg
    refine ⟨?_, ?_, hgt, ?_, k, hp, fun j hj => ?_, ?_, ?_⟩
    · rw [hr]; exact shift_state_eig C B n lam_init m (k + 1)
    · rw [hr]; exact shift_state_iter_inv C B n lam_init m (k + 1)
    · rw [hp, hr]
      show -(shift_state C B n lam_init m (k + 1)).minuslam = _
      rw [shift_state_minuslam]; ring
    · have hj' := hfail j (Nat.lt_succ_of_le hj)
      exact ⟨hj'.1, hj'.2, lt_of_le_of_lt hj'.1 hgt⟩
    · rw [hr]
      show (shift_state C B n lam_init m (k + 1)).diag_fac = _
      rw [shift_state_succ]
      exact (shift_iter_factors C B n lam_init _).1
    · rw [hr]
      show (shift_state C B n lam_init m (k + 1)).offdiag_fac = _
      rw [shift_state_succ]
      exact (shift_iter_factors C B n lam_init _).2
  · exact absurd hz hff
  · obtain ⟨k0, -, -, hl⟩ := inverse_iteration_spec C B n itmax tol_abs fuel _ code r hit
    rcases hl with ⟨-, hc, -⟩ | ⟨-, -, hc, -⟩ | ⟨-, -, -, hc, -⟩
    · exact absurd (hcode.symm.trans hc) hfi
    · exact absurd (hcode.symm.trans hc) hfl
    · exact absurd (hcode.symm.trans hc) hfc


/-- Witness for C13: the sample constants and the matrix `(0)` with `lam_init = 2^60`, where
every attempt of the shift search fails. -/
theorem fail_factor_state_witness :
    ∃ N : Nat, ∀ fuel, N ≤ fuel → ∃ code r,
      trlib_eigen_inverse sample_consts (reference_backend rat_nrm2) fuel 1 (2 ^ 60) 5 (1 / 2)
        (mem_of 0 1) = some (code, r) ∧
      (code = sample_consts.TRLIB_EIR_FAIL_FACTOR →
        r.eig = (mem_of (0 : ℚ) 1).eig ∧ r.iter_inv = sample_consts.TRLIB_EIR_FAIL_FACTOR ∧
        1 / sample_consts.TRLIB_EPS < r.pert ∧ r.lam_pert = 2 ^ 60 - r.pert ∧
        ∃ k : Nat,
          r.pert = (shift_state sample_consts (reference_backend rat_nrm2) 1 (2 ^ 60)
            (mem_of 0 1) (k + 1)).pert ∧
          (∀ j, j ≤ k →
            (shift_state sample_consts (reference_backend rat_nrm2) 1 (2 ^ 60)
              (mem_of 0 1) j).pert ≤ 1 / sample_consts.TRLIB_EPS ∧
            (factor_attempt (reference_backend rat_nrm2) 1
              (shift_state sample_consts (reference_backend rat_nrm2) 1 (2 ^ 60)
                (mem_of 0 1) j)).info_fac ≠ 0 ∧
            (shift_state sample_consts (reference_backend rat_nrm2) 1 (2 ^ 60)
              (mem_of 0 1) j).pert < r.pert) ∧
          r.diag_fac = (factor_attempt (reference_backend rat_nrm2) 1
            (shift_state sample_consts (reference_backend rat_nrm2) 1 (2 ^ 60)
              (mem_of 0 1) k)).diag_fac ∧
          r.offdiag_fac = (factor_attempt (reference_backend rat_nrm2) 1
            (shift_state sample_consts (reference_backend rat_nrm2) 1 (2 ^ 60)
              (mem_of 0 1) k)).offdiag_fac) :=
  fail_factor_state sample_consts (reference_backend rat_nrm2) 1 (2 ^ 60) 5 (1 / 2) (mem_of 0 1)
    (by norm_num [sample_consts]) (by norm_num [sample_consts]) (by decide) (by decide)
    (by decide) (by decide)

/-- C14. Exact arithmetic with an exact backend, standard copy, axpy and scaling and the
Euclidean norm: if the unperturbed factorization succeeds and every eigenvalue of
`T - lam_init·I` is at least `mu > 0`, then `pert = 0`, every iteration has `invnorm ≥ mu`,
so for `tol_abs < mu` the convergence test fails in every iteration, and the routine returns
`ITMAX`. -/
theorem pd_never_converges (C : Consts F) (B : Backend F) (n : Int) (lam_init : F)
    (itmax : Int) (tol_abs : F) (m : State F) (mu : F)
    (hc : B.dcopy = dcopy) (ha : B.daxpy = daxpy) (hs : B.dscal = dscal)
    (hnrm : ∀ x, 0 ≤ B.dnrm2 n x ∧ B.dnrm2 n x ^ 2 = sumsq n x)
    (hex : exact_backend B n) (hm : well_sized n m) (hne : sumsq n m.eig ≠ 0)
    (hacc : accepts C B n lam_init m 0) (hff : C.TRLIB_EIR_FAIL_FACTOR ≠ 0)
    (hpd : rayleigh_bound n (shifted_diag lam_init m.diag) m.offdiag mu) (hmu : 0 < mu)
    (htol : tol_abs < mu) :
    (∀ k : Nat,
      (solved B n (loop_entry C B n lam_init m 0) k).info_fac = 0 ∧
      mu ≤ (inv_state B n (loop_entry C B n lam_init m 0) (k + 1)).invnorm ∧
      ¬ |(inv_state B n (loop_entry C B n lam_init m 0) (k + 1)).invnorm -
          (inv_state B n (loop_entry C B n lam_init m 0) (k + 1)).pert| ≤ tol_abs) ∧
    ∃ N : Nat, ∀ fuel, N ≤ fuel → ∃ r,
      trlib_eigen_inverse C B fuel n lam_init itmax tol_abs m = some (C.TRLIB_EIR_ITMAX, r) ∧
      r.pert = 0 ∧ r.lam_pert = lam_init ∧ r.iter_inv = max itmax 0 + 1 := by
  have hD : shifted_diag (-(shift_state C B n lam_init m 0).minuslam)
      (shift_state C B n lam_init m 0).diag = shifted_diag lam_init m.diag := by
    show shifted_diag (-(-lam_init)) m.diag = _
    rw [neg_neg]
  have hm0 : well_sized n (shift_state C B n lam_init m 0) := hm
  obtain ⟨e1, e2, e3⟩ := factor_attempt_std B n (shift_state C B n lam_init m 0) hc ha hm0
  rw [hD] at e1 e2 e3
  have ho : (shift_state C B n lam_init m 0).offdiag = m.offdiag := rfl
  rw [ho] at e1 e2 e3
  have hexat : exact_at B n (shifted_diag lam_init m.diag) m.offdiag := by
    refine hex _ _ ?_ hm.2.1 ?_
    · unfold shifted_diag
      rw [List.length_map, hm.1]
    · rw [← e3]
      exact hacc.2.2
  obtain ⟨u1, u2⟩ := loop_entry_unit C B n lam_init m 0 hs hnrm hm.2.2.2.2.2 hne
  have hlen : (loop_entry C B n lam_init m 0).eig.length = n.toNat := by
    rw [u1, List.length_map, hm.2.2.2.2.2]
  have hunit : sumsq n (loop_entry C B n lam_init m 0).eig = 1 := by
    rw [u1, ← (hnrm _).2, u2]
    ring
  have hp0 : ∀ j, (inv_state B n (loop_entry C B n lam_init m 0) j).pert = 0 := fun j =>
    inv_state_entry_pert C B n lam_init m 0 j
  have hpass : ∀ k : Nat,
      (solved B n (loop_entry C B n lam_init m 0) k).info_fac = 0 ∧
      mu ≤ (inv_state B n (loop_entry C B n lam_init m 0) (k + 1)).invnorm ∧
      ¬ |(inv_state B n (loop_entry C B n lam_init m 0) (k + 1)).invnorm -
          (inv_state B n (loop_entry C B n lam_init m 0) (k + 1)).pert| ≤ tol_abs := by
    intro k
    obtain ⟨p1, p2⟩ := pd_passes B n _ _ (loop_entry C B n lam_init m 0) mu hs hnrm hexat e1 e2
      hlen hunit hpd k
    refine ⟨p1, p2, ?_⟩
    rw [hp0, sub_zero, not_le, abs_of_pos (lt_of_lt_of_le hmu p2)]
    exact lt_of_lt_of_le htol p2
  refine ⟨hpass, max (0 + 1) (itmax.toNat + 1), fun fuel hfuel => ?_⟩
  have hcont : ∀ j, j < itmax.toNat →
      pass_continues B n itmax tol_abs (inv_state B n (loop_entry C B n lam_init m 0) j) := by
    intro j hj
    refine ⟨?_, (hpass j).1, ?_⟩
    · rw [inv_state_entry_iter_inv]
      omega
    · rw [← inv_state_succ]
      exact (hpass j).2.2
  refine ⟨_, exhausted_run C B n lam_init itmax tol_abs m 0 hacc hff hcont fuel hfuel, ?_, ?_, ?_⟩
  · exact hp0 _
  · obtain ⟨-, -, -, -, -, f6, -⟩ := same_frame_inv_state B n (loop_entry C B n lam_init m 0)
      itmax.toNat
    show (inv_state B n (loop_entry C B n lam_init m 0) itmax.toNat).lam_pert = _
    rw [f6, loop_entry_lam_pert]
    show lam_init - 0 = _
    rw [sub_zero]
  · rw [count_iter_inv, inv_state_entry_iter_inv]
    omega

/-- Witness for C14 over the reals: the 1×1 matrix `(1)` with `lam_init = 0`, `mu = 1`,
`tol_abs = 1/2`, `itmax = 3`, the reference factorization and solve and the Euclidean norm. -/
theorem pd_never_converges_witness :
    exact_backend (backend_with dpttrs fun n (x : List ℝ) => Real.sqrt (sumsq n x)) 1 ∧
    accepts (consts_of (1 / 2 ^ 52 : ℝ) (1 / 2 ^ 13))
      (backend_with dpttrs fun n (x : List ℝ) => Real.sqrt (sumsq n x)) 1 0 (mem_of 1 1) 0 ∧
    rayleigh_bound 1 (shifted_diag 0 (mem_of (1 : ℝ) 1).diag) (mem_of (1 : ℝ) 1).offdiag 1 ∧
    (∀ k : Nat,
      1 ≤ (inv_state (backend_with dpttrs fun n (x : List ℝ) => Real.sqrt (sumsq n x)) 1
        (loop_entry (consts_of (1 / 2 ^ 52 : ℝ) (1 / 2 ^ 13))
          (backend_with dpttrs fun n (x : List ℝ) => Real.sqrt (sumsq n x)) 1 0 (mem_of 1 1) 0)
        (k + 1)).invnorm) ∧
    ∃ N : Nat, ∀ fuel, N ≤ fuel → ∃ r,
      trlib_eigen_inverse (consts_of (1 / 2 ^ 52 : ℝ) (1 / 2 ^ 13))
        (backend_with dpttrs fun n (x : List ℝ) => Real.sqrt (sumsq n x)) fuel 1 0 3 (1 / 2)
        (mem_of 1 1) = some ((consts_of (1 / 2 ^ 52 : ℝ) (1 / 2 ^ 13)).TRLIB_EIR_ITMAX, r) ∧
      r.pert = 0 ∧ r.lam_pert = 0 ∧ r.iter_inv = max 3 0 + 1 :=
  have hex : exact_backend (backend_with dpttrs fun n (x : List ℝ) => Real.sqrt (sumsq n x)) 1 :=
    exact_backend_1x1 _ rfl rfl
  have hacc : accepts (consts_of (1 / 2 ^ 52 : ℝ) (1 / 2 ^ 13))
      (backend_with dpttrs fun n (x : List ℝ) => Real.sqrt (sumsq n x)) 1 0 (mem_of 1 1) 0 :=
    accepts_unperturbed _ 1 rfl rfl rfl
  have hpd : rayleigh_bound 1 (shifted_diag 0 (mem_of (1 : ℝ) 1).diag)
      (mem_of (1 : ℝ) 1).offdiag 1 := by
    intro x hx
    obtain ⟨x0, rfl⟩ := List.length_eq_one.mp hx
    simp [quad_form, sumsq, tri_row, shifted_diag, mem_of, Finset.sum_range_one]
  have h := pd_never_converges (consts_of (1 / 2 ^ 52 : ℝ) (1 / 2 ^ 13))
    (backend_with dpttrs fun n (x : List ℝ) => Real.sqrt (sumsq n x)) 1 0 3 (1 / 2) (mem_of 1 1)
    1 rfl rfl rfl (fun x => ⟨Real.sqrt_nonneg _, Real.sq_sqrt (sumsq_nonneg 1 x)⟩) hex
    ⟨rfl, rfl, rfl, rfl, rfl, rfl⟩ (by norm_num [sumsq, mem_of]) hacc (by decide) hpd one_pos
    (by norm_num)
  ⟨hex, hacc, hpd, fun k => (h.1 k).2.1, h.2⟩

/-- C15, refuted as stated. Exact real arithmetic, `eps = 2⁻⁵²`, the reference copy, axpy,
factorization and solve, the Euclidean norm; `n = 1`, the matrix `(0)`, `lam_init = 2^60`,
the nonzero start vector `(1)` and `c = 2 > 0`. Every factorization attempt fails, both runs
return `FAIL_FACTOR`, and the final `eig` is `(1)` for the start vector `(1)` but `(2)` for
the start vector `2·(1)`: the final `eig` is not invariant. -/
theorem scaling_counterexample :
    (0 : ℝ) < 2 ∧ sumsq 1 (mem_of (0 : ℝ) 1).eig ≠ 0 ∧
    ∃ r r',
      trlib_eigen_inverse (consts_of (1 / 2 ^ 52 : ℝ) (1 / 2 ^ 13))
        (backend_with dpttrs fun n (x : List ℝ) => Real.sqrt (sumsq n x)) 30 1 (2 ^ 60) 5 (1 / 2)
        (mem_of 0 1) =
          some ((consts_of (1 / 2 ^ 52 : ℝ) (1 / 2 ^ 13)).TRLIB_EIR_FAIL_FACTOR, r) ∧
      trlib_eigen_inverse (consts_of (1 / 2 ^ 52 : ℝ) (1 / 2 ^ 13))
        (backend_with dpttrs fun n (x : List ℝ) => Real.sqrt (sumsq n x)) 30 1 (2 ^ 60) 5 (1 / 2)
        (scaled 2 (mem_of 0 1)) =
          some ((consts_of (1 / 2 ^ 52 : ℝ) (1 / 2 ^ 13)).TRLIB_EIR_FAIL_FACTOR, r') ∧
      r.eig = [1] ∧ r'.eig = [2] ∧ r'.eig ≠ r.eig := by
  have hsc : scaled 2 (mem_of (0 : ℝ) 1) = mem_of 0 2 := by
    norm_num [scaled, with_eig, mem_of]
  obtain ⟨r, hr, he⟩ := rejected_run (consts_of (1 / 2 ^ 52 : ℝ) (1 / 2 ^ 13))
    (backend_with dpttrs fun n (x : List ℝ) => Real.sqrt (sumsq n x)) 1 (2 ^ 60) 5 (1 / 2)
    (mem_of 0 1) 22 30 (by decide) (huge_shift_fails _ 1 rfl rfl rfl) (huge_shift_exit _ _)
  obtain ⟨r', hr', he'⟩ := rejected_run (consts_of (1 / 2 ^ 52 : ℝ) (1 / 2 ^ 13))
    (backend_with dpttrs fun n (x : List ℝ) => Real.sqrt (sumsq n x)) 1 (2 ^ 60) 5 (1 / 2)
    (mem_of 0 2) 22 30 (by decide) (huge_shift_fails _ 2 rfl rfl rfl) (huge_shift_exit _ _)
  have e1 : r.eig = [1] := he
  have e2 : r'.eig = [2] := he'
  refine ⟨by norm_num, by norm_num [sumsq, mem_of], r, r', hr, ?_, e1, e2, ?_⟩
  · rw [hsc]
    exact hr'
  · rw [e1, e2]
    norm_num

/-- C15, amended. Exact arithmetic with the standard scaling and the Euclidean norm, a start
vector of length `n` and `c > 0`: the routine returns, and the run started from `c·eig`
returns the same status, `pert`, `lam_pert` and `iter_inv` as the run started from `eig`; the
final `eig` is the same whenever the status is not `FAIL_FACTOR`, while the `FAIL_FACTOR`
return of line 42 hands back `eig` as supplied. If moreover the solve is odd in its
right-hand side (as every linear solve is), the run started from `-eig` returns the same
status, `pert`, `lam_pert` and `iter_inv` and the negated final `eig`, for every outcome. -/
theorem start_vector_scaling [Archimedean F] (C : Consts F) (B : Backend F) (n : Int)
    (lam_init : F) (itmax : Int) (tol_abs : F) (m : State F) (c : F)
    (h0 : 0 < C.TRLIB_EPS_POW_4) (hs : B.dscal = dscal)
    (hnrm : ∀ x, 0 ≤ B.dnrm2 n x ∧ B.dnrm2 n x ^ 2 = sumsq n x)
    (hlen : m.eig.length = n.toNat) (hc : 0 < c) :
    ∃ N : Nat, ∀ fuel, N ≤ fuel → ∃ code r r',
      trlib_eigen_inverse C B fuel n lam_init itmax tol_abs m = some (code, r) ∧
      trlib_eigen_inverse C B fuel n lam_init itmax tol_abs (scaled c m) = some (code, r') ∧
      r'.pert = r.pert ∧ r'.lam_pert = r.lam_pert ∧ r'.iter_inv = r.iter_inv ∧
      (code ≠ C.TRLIB_EIR_FAIL_FACTOR → r'.eig = r.eig) ∧
      (r'.eig = r.eig ∨
        (code = C.TRLIB_EIR_FAIL_FACTOR ∧ r.eig = m.eig ∧ r'.eig = (scaled c m).eig)) ∧
      (odd_solve B n → ∃ r'',
        trlib_eigen_inverse C B fuel n lam_init itmax tol_abs (negated m) = some (code, r'') ∧
        r''.pert = r.pert ∧ r''.lam_pert = r.lam_pert ∧ r''.iter_inv = r.iter_inv ∧
        r''.eig = r.eig.map fun x => -x) := by
  obtain ⟨N, hN⟩ := trlib_eigen_inverse_some C B n lam_init itmax tol_abs h0 m
  refine ⟨N, fun fuel hfuel => ?_⟩
  obtain ⟨code, r, hrun⟩ := hN fuel hfuel
  obtain ⟨r', hr', p1, p2, p3, -, -, p6⟩ := trlib_eigen_inverse_scaled C B n lam_init itmax
    tol_abs c hc hs hnrm fuel m hlen code r hrun
  refine ⟨code, r, r', hrun, hr', p1, p2, p3, fun hne => ?_, p6, fun hodd => ?_⟩
  · rcases p6 with h | ⟨h, -⟩
    · exact h
    · exact absurd h hne
  · exact ⟨negated r, trlib_eigen_inverse_negated C B n lam_init itmax tol_abs hs hnrm hodd fuel
      m code r hrun, rfl, rfl, rfl, rfl⟩

/-- Witness for the amended C15 over the reals: the matrix `(0)` with `lam_init = 0`, the
start vector `(1)` and `c = 2`, with the reference solve, which is odd. -/
theorem start_vector_scaling_witness :
    odd_solve (backend_with dpttrs fun n (x : List ℝ) => Real.sqrt (sumsq n x)) 1 ∧
    ∃ N : Nat, ∀ fuel, N ≤ fuel → ∃ code r r',
      trlib_eigen_inverse (consts_of (1 / 2 ^ 52 : ℝ) (1 / 2 ^ 13))
        (backend_with dpttrs fun n (x : List ℝ) => Real.sqrt (sumsq n x)) fuel 1 0 3 (1 / 4)
        (mem_of 0 1) = some (code, r) ∧
      trlib_eigen_inverse (consts_of (1 / 2 ^ 52 : ℝ) (1 / 2 ^ 13))
        (backend_with dpttrs fun n (x : List ℝ) => Real.sqrt (sumsq n x)) fuel 1 0 3 (1 / 4)
        (scaled 2 (mem_of 0 1)) = some (code, r') ∧
      r'.pert = r.pert ∧ r'.lam_pert = r.lam_pert ∧ r'.iter_inv = r.iter_inv ∧
      (code ≠ (consts_of (1 / 2 ^ 52 : ℝ) (1 / 2 ^ 13)).TRLIB_EIR_FAIL_FACTOR →
        r'.eig = r.eig) :=
  ⟨dpttrs_odd _ 1 rfl,
    (start_vector_scaling (consts_of (1 / 2 ^ 52 : ℝ) (1 / 2 ^ 13))
      (backend_with dpttrs fun n (x : List ℝ) => Real.sqrt (sumsq n x)) 1 0 3 (1 / 4)
      (mem_of 0 1) 2 (by norm_num [consts_of])
      rfl (fun x => ⟨Real.sqrt_nonneg _, Real.sq_sqrt (sumsq_nonneg 1 x)⟩) rfl
      (by norm_num)).imp fun _ hN fuel hf =>
        (hN fuel hf).imp fun _ hc => hc.imp fun _ hr => hr.imp fun _ h =>
          ⟨h.1, h.2.1, h.2.2.1, h.2.2.2.1, h.2.2.2.2.1, h.2.2.2.2.2.1⟩⟩

end Trlib
